import Mathlib

/-!
Verification development for the `linux-audit-parser-rs` repository.

The Rust sources (`src/parser.rs`, `src/body.rs`, `src/key.rs`,
`src/value.rs`, `src/event_id.rs`, `src/message_type.rs`, `src/message.rs`)
are shallowly embedded below.  Byte strings are `List Nat` (one `Nat` per
byte), nom-style parsers are functions `List Nat → Option (List Nat × α)`
(`None` is a parse error, `some (rest, v)` is success leaving `rest`),
and machine integers are `Nat`/`Int` with explicit bound checks where the
Rust code checks for overflow.  Iterating nom combinators
(`separated_list0`, `many0_count`, …) are written with an explicit fuel
argument so that every definition is structurally recursive and reduces
inside the kernel; the fuel passed at each entry point is one more than
the input length, which is sufficient because every iteration of the
corresponding Rust loop consumes at least one input byte (nom's own
infinite-loop guard, the `input_len` comparison, is modelled faithfully).
-/

namespace Audit

/-- Bytes of an ASCII string, as a list of byte values. -/
def bytes (s : String) : List Nat := s.data.map Char.toNat

/-! ### Character classes (from `src/parser.rs` and nom) -/

/-- nom `is_hex_digit`: 0-9 A-F a-f. -/
def is_hex_digit (c : Nat) : Bool :=
  decide ((48 ≤ c ∧ c ≤ 57) ∨ (65 ≤ c ∧ c ≤ 70) ∨ (97 ≤ c ∧ c ≤ 102))

/-- nom `is_oct_digit`: 0-7. -/
def is_oct_digit (c : Nat) : Bool := decide (48 ≤ c ∧ c ≤ 55)

/-- ASCII decimal digit. -/
def is_digit (c : Nat) : Bool := decide (48 ≤ c ∧ c ≤ 57)

/-- ASCII letter. -/
def is_alpha (c : Nat) : Bool := decide ((65 ≤ c ∧ c ≤ 90) ∨ (97 ≤ c ∧ c ≤ 122))

/-- ASCII letter or digit. -/
def is_alphanumeric (c : Nat) : Bool := is_alpha c || is_digit c

/-- nom `space0`/`space1` character class: space or tab. -/
def is_space_chr (c : Nat) : Bool := decide (c = 32 ∨ c = 9)

/-- `parser.rs is_safe_chr`: characters permitted in kernel "encoded"
strings that would otherwise be hex-encoded. -/
def is_safe_chr (c : Nat) : Bool := decide (c = 33 ∨ (35 ≤ c ∧ c ≤ 126))

/-- `parser.rs is_safe_unquoted_chr`: safe characters minus single quote
and both braces. -/
def is_safe_unquoted_chr (c : Nat) : Bool :=
  decide ((35 ≤ c ∧ c ≤ 38) ∨ (40 ≤ c ∧ c ≤ 122) ∨ c = 33 ∨ c = 124 ∨ c = 126)

/-- `parser.rs is_sep`: separator characters: space, GS (0x1d), newline. -/
def is_sep (c : Nat) : Bool := decide (c = 32 ∨ c = 29 ∨ c = 10)

/-! ### nom combinator model -/

/-- A parser over byte lists: failure or (remaining input, result). -/
abbrev P (α : Type) : Type := List Nat → Option (List Nat × α)

/-- nom `map`. -/
def pmap (f : α → β) (p : P α) : P β :=
  fun i => (p i).map (fun r => (r.1, f r.2))

/-- nom `value`. -/
def pvalue (v : β) (p : P α) : P β := pmap (fun _ => v) p

/-- nom `alt` of two parsers. -/
def palt (p q : P α) : P α :=
  fun i => match p i with
  | some r => some r
  | none => q i

/-- nom `alt` of three parsers. -/
def palt3 (p q r : P α) : P α := palt p (palt q r)

/-- nom `opt`. -/
def popt (p : P α) : P (Option α) :=
  fun i => match p i with
  | some (r, v) => some (r, some v)
  | none => some (i, none)

/-- Sequencing: nom `pair`/`tuple` of two. -/
def pseq (p : P α) (q : P β) : P (α × β) :=
  fun i => match p i with
  | none => none
  | some (r, a) =>
    match q r with
    | none => none
    | some (r2, b) => some (r2, (a, b))

/-- nom `terminated`. -/
def pleft (p : P α) (q : P β) : P α := pmap Prod.fst (pseq p q)

/-- nom `preceded`. -/
def pright (p : P α) (q : P β) : P β := pmap Prod.snd (pseq p q)

/-- nom `delimited`. -/
def pdelim (l : P α) (p : P β) (r : P γ) : P β := pleft (pright l p) r

/-- nom `peek`: run `p` without consuming. -/
def ppeek (p : P α) : P α := fun i => (p i).map (fun r => (i, r.2))

/-- nom `eof` (byte-slice result). -/
def peofB : P (List Nat) := fun i => if i = [] then some (i, []) else none

/-- Prefix matching: `some rest` when `t` is a prefix of the input. -/
def tagAux : List Nat → List Nat → Option (List Nat)
  | [], i => some i
  | _ :: _, [] => none
  | c :: t, x :: i => if c = x then tagAux t i else none

/-- nom `tag`. -/
def ptag (t : List Nat) : P (List Nat) :=
  fun i => (tagAux t i).map (fun r => (r, t))

/-- nom `take_while` (complete): always succeeds. -/
def ptakeWhile (f : Nat → Bool) : P (List Nat) :=
  fun i => some (i.dropWhile f, i.takeWhile f)

/-- nom `take_while1` (complete): at least one byte. -/
def ptakeWhile1 (f : Nat → Bool) : P (List Nat) :=
  fun i => if i.takeWhile f = [] then none else some (i.dropWhile f, i.takeWhile f)

/-- nom `take_while_m_n` (complete). -/
def ptakeWhileMN (m n : Nat) (f : Nat → Bool) : P (List Nat) :=
  fun i =>
    let w := (i.takeWhile f).take n
    if w.length < m then none else some (i.drop w.length, w)

/-- Helper for nom `take_until`. -/
def takeUntilAux (t : List Nat) : List Nat → Option (List Nat × List Nat)
  | [] => if t = [] then some ([], []) else none
  | c :: r =>
    if t.isPrefixOf (c :: r) then some (c :: r, [])
    else
      match takeUntilAux t r with
      | none => none
      | some (rest, pre) => some (rest, c :: pre)

/-- nom `take_until` (complete): consume up to the first occurrence of
`t`, failing when `t` does not occur. -/
def ptakeUntil (t : List Nat) : P (List Nat) := fun i => takeUntilAux t i

/-- nom `take_till` (complete): zero or more bytes failing `f`. -/
def ptakeTill (f : Nat → Bool) : P (List Nat) := ptakeWhile (fun c => ! f c)

/-- nom `is_not`: longest non-empty run of bytes outside `set`. -/
def pisNot (set : List Nat) : P (List Nat) :=
  ptakeWhile1 (fun c => ! set.contains c)

/-- nom `is_a`: longest non-empty run of bytes inside `set`. -/
def pisA (set : List Nat) : P (List Nat) :=
  ptakeWhile1 (fun c => set.contains c)

/-- nom `recognize`: the bytes consumed by `p`.  All parsers in this
development return a suffix of their input, so the consumed prefix is
recovered from the lengths exactly as nom recovers it from offsets. -/
def precognize (p : P α) : P (List Nat) :=
  fun i => match p i with
  | none => none
  | some (r, _) => some (r, i.take (i.length - r.length))

/-- nom `space0`. -/
def space0 : P (List Nat) := ptakeWhile is_space_chr

/-- nom `space1`. -/
def space1 : P (List Nat) := ptakeWhile1 is_space_chr

/-- nom `alpha1`. -/
def alpha1 : P (List Nat) := ptakeWhile1 is_alpha

/-- nom `alphanumeric1`. -/
def alphanumeric1 : P (List Nat) := ptakeWhile1 is_alphanumeric

/-- Fuelled loop of nom `many0_count`, including nom's infinite-loop
guard (error when the inner parser succeeds without consuming). -/
def many0CountAux (p : P α) : Nat → List Nat → Nat → Option (List Nat × Nat)
  | 0, _, _ => none
  | fuel + 1, i, n =>
    match p i with
    | none => some (i, n)
    | some (r, _) =>
      if r.length = i.length then none
      else many0CountAux p fuel r (n + 1)

/-- nom `many0_count`. -/
def pmany0Count (p : P α) : P Nat := fun i => many0CountAux p (i.length + 1) i 0

/-- nom `many1_count`. -/
def pmany1Count (p : P α) : P Nat :=
  fun i => match p i with
  | none => none
  | some (r, _) =>
    if r.length = i.length then none
    else (many0CountAux p (r.length + 1) r 0).map (fun x => (x.1, x.2 + 1))

/-- Fuelled loop of nom `many1`, including nom's infinite-loop guard. -/
def many1Aux (p : P α) : Nat → List Nat → List α → Option (List Nat × List α)
  | 0, _, _ => none
  | fuel + 1, i, acc =>
    match p i with
    | none => some (i, acc.reverse)
    | some (r, v) =>
      if r.length = i.length then none
      else many1Aux p fuel r (v :: acc)

/-- nom `many1`. -/
def pmany1 (p : P α) : P (List α) :=
  fun i => match p i with
  | none => none
  | some (r, v) =>
    if r.length = i.length then none
    else many1Aux p (r.length + 1) r [v]

/-- Fuelled loop of nom `separated_list0`, including nom's infinite-loop
guard (error when the separator succeeds without consuming). -/
def sepList0Aux (sep : P β) (p : P α) :
    Nat → List Nat → List α → Option (List Nat × List α)
  | 0, _, _ => none
  | fuel + 1, i, acc =>
    match sep i with
    | none => some (i, acc.reverse)
    | some (s1, _) =>
      if s1.length = i.length then none
      else
        match p s1 with
        | none => some (i, acc.reverse)
        | some (i2, o) => sepList0Aux sep p fuel i2 (o :: acc)

/-- nom `separated_list0`. -/
def psepList0 (sep : P β) (p : P α) : P (List α) :=
  fun i => match p i with
  | none => some (i, [])
  | some (i1, o) => sepList0Aux sep p (i1.length + 1) i1 [o]

/-! ### Numbers -/

/-- Value of a decimal digit string. -/
def digitsToNat (ds : List Nat) : Nat := ds.foldl (fun a c => a * 10 + (c - 48)) 0

/-- Value of one hexadecimal digit byte. -/
def hexDigitVal (c : Nat) : Nat :=
  if c ≤ 57 then c - 48 else if c ≤ 70 then c - 55 else c - 87

/-- Value of a hexadecimal digit string. -/
def hexToNat (ds : List Nat) : Nat := ds.foldl (fun a c => a * 16 + hexDigitVal c) 0

/-- Value of an octal digit string. -/
def octToNat (ds : List Nat) : Nat := ds.foldl (fun a c => a * 8 + (c - 48)) 0

/-- nom's complete unsigned decimal parsers (`u16`/`u32`/`u64`): a
non-empty digit run whose value fits below `bound`; overflow is a parse
error, exactly as in nom's checked accumulation. -/
def pdecU (bound : Nat) : P Nat :=
  fun i =>
    let ds := i.takeWhile is_digit
    if ds = [] then none
    else if digitsToNat ds < bound then some (i.dropWhile is_digit, digitsToNat ds)
    else none

/-- nom's complete `i64`: optional sign, digit run, two's-complement
64-bit bounds checked as in nom. -/
def pdecI64 : P Int :=
  fun i =>
    let sgn : Int := if i.head? = some 45 then -1 else 1
    let j := if i.head? = some 45 ∨ i.head? = some 43 then i.tail else i
    let ds := j.takeWhile is_digit
    if ds = [] then none
    else if sgn = 1 ∧ digitsToNat ds ≤ 2 ^ 63 - 1 then
      some (j.dropWhile is_digit, (digitsToNat ds : Int))
    else if sgn = -1 ∧ digitsToNat ds ≤ 2 ^ 63 then
      some (j.dropWhile is_digit, -(digitsToNat ds : Int))
    else none

/-! ### Data model (`src/value.rs`, `src/key.rs`, `src/message_type.rs`,
`src/event_id.rs`, `src/message.rs`) -/

/-- `value.rs Quote`: quoting style recorded in `Value::Str`. -/
inductive Quote where
  | none
  | single
  | double
  | braces
deriving DecidableEq

/-- `value.rs Number`: hex and oct carry `u64`, dec carries `i64`. -/
inductive Number where
  | hex (n : Nat)
  | dec (n : Int)
  | oct (n : Nat)
deriving DecidableEq

/-- `key.rs Common`: the closed set of well-known keys. -/
inductive Common where
  | arch | argc | capFe | capFi | capFp | capFver | comm | cwd | dev | exe
  | exit | inode | item | items | key | mode | msg | name | nametype | pid
  | ppid | ses | subj | success | syscall | tty
deriving DecidableEq

/-- `key.rs COMMON`: the sorted name table. -/
def COMMON : List (List Nat × Common) :=
  [(bytes "arch", .arch), (bytes "argc", .argc), (bytes "cap_fe", .capFe),
   (bytes "cap_fi", .capFi), (bytes "cap_fp", .capFp), (bytes "cap_fver", .capFver),
   (bytes "comm", .comm), (bytes "cwd", .cwd), (bytes "dev", .dev),
   (bytes "exe", .exe), (bytes "exit", .exit), (bytes "inode", .inode),
   (bytes "item", .item), (bytes "items", .items), (bytes "key", .key),
   (bytes "mode", .mode), (bytes "msg", .msg), (bytes "name", .name),
   (bytes "nametype", .nametype), (bytes "pid", .pid), (bytes "ppid", .ppid),
   (bytes "ses", .ses), (bytes "subj", .subj), (bytes "success", .success),
   (bytes "syscall", .syscall), (bytes "tty", .tty)]

/-- `key.rs Common::try_from`: binary search in the sorted `COMMON`
table; since the table keys are sorted and distinct this is exact
name lookup. -/
def commonTryFrom (s : List Nat) : Option Common :=
  (COMMON.find? (fun e => e.1 == s)).map (fun e => e.2)

/-- `key.rs From<Common> for str`: the table name of a common key. -/
def commonName (c : Common) : List Nat :=
  match c with
  | .arch => bytes "arch" | .argc => bytes "argc" | .capFe => bytes "cap_fe"
  | .capFi => bytes "cap_fi" | .capFp => bytes "cap_fp" | .capFver => bytes "cap_fver"
  | .comm => bytes "comm" | .cwd => bytes "cwd" | .dev => bytes "dev"
  | .exe => bytes "exe" | .exit => bytes "exit" | .inode => bytes "inode"
  | .item => bytes "item" | .items => bytes "items" | .key => bytes "key"
  | .mode => bytes "mode" | .msg => bytes "msg" | .name => bytes "name"
  | .nametype => bytes "nametype" | .pid => bytes "pid" | .ppid => bytes "ppid"
  | .ses => bytes "ses" | .subj => bytes "subj" | .success => bytes "success"
  | .syscall => bytes "syscall" | .tty => bytes "tty"

/-- `key.rs Key`. -/
inductive Key where
  | name (s : List Nat)
  | nameUID (s : List Nat)
  | nameGID (s : List Nat)
  | common (c : Common)
  | nameTranslated (s : List Nat)
  | arg (x : Nat) (y : Option Nat)
  | argLen (x : Nat)
  | literal (s : String)
deriving DecidableEq

/-- `value.rs Value`.  `Str` carries the slice content (the borrow/arena
distinction of the Rust code is not observable on byte content). -/
inductive Value where
  | empty
  | str (s : List Nat) (q : Quote)
  | num (n : Number)
  | list (vs : List Value)
  | owned (s : List Nat)
  | map (m : List (Key × Value))
  | segments (ss : List (List Nat))
  | stringifiedList (vs : List Value)
  | skipped (args : Nat) (bs : Nat)
  | literal (s : String)

/-- `message_type.rs MessageType` is a `u32` wrapper; modelled as `Nat`. -/
abbrev MessageType := Nat

namespace MessageType

/-- Modelled from the spec: numeric ids of the message-type constants
generated at build time from the Linux Audit message dictionary (the
CSV is not part of `src/`); the values are the Linux audit API
constants named in the source. -/
def SYSCALL : Nat := 1300

/-- Modelled from the spec: see `MessageType.SYSCALL`. -/
def PATH : Nat := 1302

/-- Modelled from the spec: see `MessageType.SYSCALL`. -/
def SOCKADDR : Nat := 1306

/-- Modelled from the spec: see `MessageType.SYSCALL`. -/
def EXECVE : Nat := 1309

/-- Modelled from the spec: see `MessageType.SYSCALL`. -/
def TTY : Nat := 1319

/-- Modelled from the spec: see `MessageType.SYSCALL`. -/
def EOE : Nat := 1320

/-- Modelled from the spec: see `MessageType.SYSCALL`. -/
def AVC : Nat := 1400

/-- Modelled from the spec: see `MessageType.SYSCALL`. -/
def MAC_POLICY_LOAD : Nat := 1403

/-- Modelled from the spec: see `MessageType.SYSCALL`. -/
def MAC_UNLBL_ALLOW : Nat := 1406

/-- Modelled from the spec: see `MessageType.SYSCALL`. -/
def LOGIN : Nat := 1006

/-- Modelled from the spec: see `MessageType.SYSCALL`. -/
def USER_ACCT : Nat := 1101

end MessageType

/-- Modelled from the spec: the build-time message-type name table
(`EVENT_IDS`/`EVENT_NAMES`), restricted to the entries this development
uses.  The spec treats the table as an opaque name ↔ id mapping. -/
def EVENT_TABLE : List (List Nat × Nat) :=
  [(bytes "LOGIN", 1006), (bytes "USER_ACCT", 1101), (bytes "SYSCALL", 1300),
   (bytes "PATH", 1302), (bytes "SOCKADDR", 1306), (bytes "EXECVE", 1309),
   (bytes "TTY", 1319), (bytes "EOE", 1320), (bytes "AVC", 1400),
   (bytes "MAC_POLICY_LOAD", 1403), (bytes "MAC_UNLBL_ALLOW", 1406)]

/-- `EVENT_IDS.get`: name → id lookup in a table. -/
def eventIdsGet (tbl : List (List Nat × Nat)) (s : List Nat) : Option Nat :=
  (tbl.find? (fun e => e.1 == s)).map (fun e => e.2)

/-- `EVENT_NAMES.get`: id → name lookup in a table. -/
def eventNamesGet (tbl : List (List Nat × Nat)) (n : Nat) : Option (List Nat) :=
  (tbl.find? (fun e => e.2 == n)).map (fun e => e.1)

/-- `const.rs FieldType` (build-generated; variants named in
`src/parser.rs` and `build.rs`). -/
inductive FieldType where
  | encoded
  | numericHex
  | numericDec
  | numericOct
  | numeric
deriving DecidableEq

/-- Modelled from the spec: the build-time field-name → field-type table
(`FIELD_TYPES`), restricted to entries exercised by the repository's
tests; the spec treats the table as opaque. -/
def FIELD_TYPES : List (List Nat × FieldType) :=
  [(bytes "capability", .numericDec), (bytes "permissive", .numericDec),
   (bytes "uring_op", .numericDec), (bytes "prog-id", .numericDec)]

/-- `FIELD_TYPES.get`. -/
def fieldTypesGet (s : List Nat) : Option FieldType :=
  (FIELD_TYPES.find? (fun e => e.1 == s)).map (fun e => e.2)

/-- `event_id.rs EventID`: millisecond timestamp (`u64`) and sequence
number (`u32`). -/
structure EventID where
  timestamp : Nat
  sequence : Nat
deriving DecidableEq

/-- `parser.rs ParseError` (the parse-time variants). -/
inductive ParseError where
  | malformedHeader (raw : List Nat)
  | malformedBody (rest : List Nat)
  | trailingGarbage (rest : List Nat)

/-- `message.rs Message`.  The body is the ordered list of key/value
entries (`Body.elems`); the arena is modelled separately for the
capacity claims. -/
structure Message where
  id : EventID
  node : Option (List Nat)
  ty : MessageType
  body : List (Key × Value)

/-! ### Body (`src/body.rs`) -/

mutual

/-- `body.rs Body::add_value`: transplant a value into the body,
rewriting `Owned` into arena-backed `Str` with `Quote::None`; byte
content is preserved (`add_slice` copies the slice). -/
def add_value : Value → Value
  | .empty => .empty
  | .str s q => .str s q
  | .num n => .num n
  | .list vs => .list (add_values vs)
  | .owned s => .str s .none
  | .map m => .map (add_entries m)
  | .segments ss => .segments ss
  | .stringifiedList vs => .stringifiedList (add_values vs)
  | .skipped a b => .skipped a b
  | .literal s => .literal s

/-- `add_value` mapped over a list (the `List`/`StringifiedList` arms). -/
def add_values : List Value → List Value
  | [] => []
  | v :: vs => add_value v :: add_values vs

/-- `add_value` mapped over map entries (the `Map` arm keeps keys). -/
def add_entries : List (Key × Value) → List (Key × Value)
  | [] => []
  | (k, v) :: m => (k, add_value v) :: add_entries m

end

/-! ### Parser (`src/parser.rs`) -/

/-- `parser.rs Parser`: the two configuration switches. -/
structure Parser where
  enriched : Bool
  split_msg : Bool

/-- `Parser::default()`. -/
def Parser.default : Parser := ⟨true, true⟩

/-- `parser.rs parse_node`. -/
def parse_node : P (List Nat) :=
  pright (ptag (bytes "node=")) (pisNot (bytes " \t\r\n"))

/-- The identifier branch of `parser.rs parse_type`: a run of
alphanumerics and underscores, looked up in `EVENT_IDS` (lookup failure
is a parser failure, as under nom's `map_res`). -/
def parse_type_named : P Nat :=
  fun i =>
    match precognize (pmany1Count (palt alphanumeric1 (ptag (bytes "_")))) i with
    | Option.none => none
    | some (r, s) =>
      match eventIdsGet EVENT_TABLE s with
      | Option.none => none
      | some n => some (r, n)

/-- `parser.rs parse_type`. -/
def parse_type : P Nat :=
  pright (ptag (bytes "type="))
    (palt parse_type_named
      (pdelim (ptag (bytes "UNKNOWN[")) (pdecU (2 ^ 32)) (ptag (bytes "]"))))

/-- `parser.rs parse_msgid`: `msg=audit(SEC.MSEC:SEQ): `; the timestamp
is `1000 * sec + msec` in `u64` arithmetic. -/
def parse_msgid : P EventID :=
  pmap (fun x => ⟨(1000 * x.1.1 + x.1.2) % 2 ^ 64, x.2⟩)
    (pseq
      (pseq (pright (ptag (bytes "msg=audit(")) (pdecU (2 ^ 64)))
        (pdelim (ptag (bytes ".")) (pdecU (2 ^ 64)) (ptag (bytes ":"))))
      (pleft (pdecU (2 ^ 32)) (pseq (ptag (bytes "):")) space0)))

/-- `parser.rs parse_header`. -/
def parse_header : P (Option (List Nat) × Nat × EventID) :=
  pseq (popt (pleft parse_node (pisA (bytes " "))))
    (pseq (pleft parse_type (pisA (bytes " "))) parse_msgid)

/-- `parser.rs parse_str_sq`. -/
def parse_str_sq : P (List Nat) :=
  pdelim (ptag [39]) (ptakeWhile (fun c => c != 39)) (ptag [39])

/-- `parser.rs parse_str_dq_safe`. -/
def parse_str_dq_safe : P (List Nat) :=
  pdelim (ptag [34]) (ptakeWhile is_safe_chr) (ptag [34])

/-- `parser.rs parse_str_dq`. -/
def parse_str_dq : P (List Nat) :=
  pdelim (ptag [34]) (ptakeWhile (fun c => c != 34)) (ptag [34])

/-- `parser.rs parse_str_braced`: brace, space, content, space, brace. -/
def parse_str_braced : P (List Nat) :=
  pdelim (ptag [123, 32]) (ptakeUntil [32, 125]) (ptag [32, 125])

/-- `parser.rs parse_str_unq`. -/
def parse_str_unq : P (List Nat) := ptakeWhile is_safe_chr

/-- `parser.rs parse_str_unq_inside_sq`. -/
def parse_str_unq_inside_sq : P (List Nat) :=
  ptakeWhile (fun c => is_safe_chr c && c != 39)

/-- The shared key-name shape `alpha1 (alphanumeric1 | "-" | "_")*`
recognized by `parser.rs parse_key`, `parse_kv_sq`, `parse_kv_braced`. -/
def key_text : P (List Nat) :=
  precognize (pseq alpha1 (pmany0Count (palt alphanumeric1 (pisA (bytes "-_")))))

/-- Classification done by `parser.rs parse_key` on the recognized name:
common table first, then `uid`/`gid` suffixes, else a plain name. -/
def keyOfText (s : List Nat) : Key :=
  match commonTryFrom s with
  | some c => .common c
  | Option.none =>
    if (bytes "uid").isSuffixOf s then .nameUID s
    else if (bytes "gid").isSuffixOf s then .nameGID s
    else .name s

/-- `parser.rs parse_key`. -/
def parse_key : P Key := pmap keyOfText key_text

/-- Loop of `parser.rs parse_str_words_inside_sq`: scan a word, stop
before a quote or before ` key=`, otherwise skip the spaces and
continue. -/
def wordsSqAux : Nat → List Nat → Option (List Nat)
  | 0, _ => none
  | fuel + 1, rest =>
    let rest1 := rest.dropWhile (fun c => !(c == 39 || c == 32))
    match palt (precognize (pseq space1 (pseq parse_key (ptag [61])))) (ptag [39]) rest1 with
    | some _ => some rest1
    | Option.none =>
      match space1 rest1 with
      | Option.none => none
      | some (r2, _) => wordsSqAux fuel r2

/-- `parser.rs parse_str_words_inside_sq`. -/
def parse_str_words_inside_sq : P (List Nat) :=
  fun i =>
    match wordsSqAux (i.length + 1) i with
    | Option.none => none
    | some rest => some (rest, i.take (i.length - rest.length))

/-- The element of the inner list of `parser.rs parse_kv_sq`:
`key = (dq | braced | unquoted-inside-sq)`. -/
def sq_elem : P (List Nat × List Nat × List Nat) :=
  pseq key_text (pseq (ptag [61])
    (palt3 parse_str_dq parse_str_braced parse_str_unq_inside_sq))

/-- `parser.rs parse_kv_sq`. -/
def parse_kv_sq : P (List Nat) :=
  pdelim (ptag [39])
    (precognize (psepList0 (ptag [32]) sq_elem))
    (ptag [39])

/-- `parser.rs parse_kv_braced`. -/
def parse_kv_braced : P (List Nat) :=
  pdelim (ptag [123, 32])
    (precognize (psepList0 (ptag [32])
      (pseq key_text (pseq (ptag [61])
        (palt3 parse_str_sq parse_str_dq parse_str_unq)))))
    (ptag [32, 125])

/-- `parser.rs parse_identifier`. -/
def parse_identifier : P (List Nat) :=
  precognize (pseq (palt alpha1 (ptag (bytes "_")))
    (pmany0Count (palt alphanumeric1 (ptag (bytes "_")))))

/-- Hex-pair decoding done inside `parse_encoded` (two hex digits per
output byte). -/
def hexPairsDecode : List Nat → List Nat
  | c1 :: c2 :: r => (hexDigitVal c1 * 16 + hexDigitVal c2) :: hexPairsDecode r
  | _ => []

/-- `parser.rs parse_encoded`. -/
def parse_encoded : P Value :=
  palt3
    (pmap (fun s => Value.str s .double) parse_str_dq_safe)
    (pleft
      (pmap (fun s => Value.owned (hexPairsDecode s))
        (precognize (pmany1Count (ptakeWhileMN 2 2 is_hex_digit))))
      (ppeek (ptakeWhile1 is_sep)))
    (pleft (pvalue Value.empty (palt (ptag (bytes "(null)")) (ptag (bytes "?"))))
      (ppeek (ptakeWhile1 is_sep)))

/-- `parser.rs parse_hex`: `u64::from_str_radix` overflow is a parser
failure (`map_res`). -/
def parse_hex : P Value :=
  fun i =>
    match pleft (ptakeWhile1 is_hex_digit) (ppeek (ptakeWhile1 is_sep)) i with
    | Option.none => none
    | some (r, ds) =>
      if hexToNat ds < 2 ^ 64 then some (r, .num (.hex (hexToNat ds))) else none

/-- `parser.rs parse_dec`. -/
def parse_dec : P Value :=
  pmap (fun n => Value.num (.dec n)) (pleft pdecI64 (ppeek (ptakeWhile1 is_sep)))

/-- `parser.rs parse_oct`. -/
def parse_oct : P Value :=
  fun i =>
    match pleft (ptakeWhile1 is_oct_digit) (ppeek (ptakeWhile1 is_sep)) i with
    | Option.none => none
    | some (r, ds) =>
      if octToNat ds < 2 ^ 64 then some (r, .num (.oct (octToNat ds))) else none

/-- First alternative of the generic part of
`parser.rs parse_unspec_value`: a non-empty safe-unquoted run, then a
peek of `take_while(is_sep)`. -/
def parse_unspec_first : P Value :=
  pleft (pmap (fun s => Value.str s .none) (ptakeWhile1 is_safe_unquoted_chr))
    (ppeek (ptakeWhile is_sep))

/-- One salvage branch of `parser.rs parse_unspec_value`: when `cond`
holds try the salvage recognizer and wrap its slice as `Str(_, None)`,
otherwise (or on its failure) fall through. -/
def psalvage (cond : Bool) (q : P (List Nat)) (fallback : P Value) : P Value :=
  fun i =>
    match (if cond then q i else none) with
    | some (r, s) => some (r, .str s .none)
    | Option.none => fallback i

/-- The `subj`-salvage recognizer of `parser.rs parse_unspec_value`. -/
def subj_salvage : P (List Nat) :=
  precognize (pseq (popt (ptag [61])) (pseq parse_str_unq
    (popt (pdelim (ptag (bytes " (")) parse_identifier (ptag (bytes ")"))))))

/-- The `SADDR`-salvage recognizer of `parser.rs parse_unspec_value`. -/
def saddr_salvage : P (List Nat) :=
  precognize (pseq (ptag (bytes "unknown family")) (popt (ptakeTill is_sep)))

/-- `parser.rs parse_unspec_value`: the three salvage branches followed
by the generic alternatives. -/
def parse_unspec_value (ty : MessageType) (name : List Nat) : P Value :=
  psalvage (name == bytes "subj") subj_salvage
    (psalvage (ty == MessageType.AVC && name == bytes "info") parse_str_dq
      (psalvage (ty == MessageType.SOCKADDR && name == bytes "SADDR") saddr_salvage
        (palt parse_unspec_first
          (palt (pmap (fun s => Value.str s .single) parse_kv_sq)
          (palt (pmap (fun s => Value.str s .single) parse_str_sq)
          (palt (pmap (fun s => Value.str s .double) parse_str_dq)
          (palt (pmap (fun s => Value.str s .braces) parse_kv_braced)
          (palt (pmap (fun s => Value.str s .braces) parse_str_braced)
            (pvalue Value.empty (ppeek (ptakeWhile is_sep)))))))))))

/-- The element of the inner list of `parser.rs parse_kv_sq_as_map`:
`key (= | : space*) (encoded | words-inside-sq | unquoted-inside-sq)`. -/
def msg_elem : P (Key × Value) :=
  pseq
    (pleft parse_key
      (palt (ptag [61]) (precognize (pseq (ptag [58]) space0))))
    (palt3 parse_encoded
      (pmap (fun v => Value.str v .none) parse_str_words_inside_sq)
      (pmap (fun v => Value.str v .none) parse_str_unq_inside_sq))

/-- `parser.rs parse_kv_sq_as_map`. -/
def parse_kv_sq_as_map : P Value :=
  pmap Value.map
    (pdelim (ptag [39]) (psepList0 space1 msg_elem) (ptag [39]))

/-- `parser.rs parse_named`: field-table dispatch. -/
def parse_named (ty : MessageType) (name : List Nat) : P Value :=
  match fieldTypesGet name with
  | some .encoded => palt parse_encoded (parse_unspec_value ty name)
  | some .numericHex => palt parse_hex (parse_unspec_value ty name)
  | some .numericDec => palt parse_dec (parse_unspec_value ty name)
  | some .numericOct => palt parse_oct (parse_unspec_value ty name)
  | _ => palt parse_encoded (parse_unspec_value ty name)

/-- `parser.rs Parser::parse_common`: per-`Common` dispatch. -/
def parse_common (p : Parser) (ty : MessageType) (c : Common) : P Value :=
  let name := commonName c
  match c with
  | .arch | .capFi | .capFp | .capFver =>
    palt parse_hex (parse_unspec_value ty name)
  | .argc | .exit | .capFe | .inode | .item | .items | .pid | .ppid | .ses
  | .syscall =>
    palt parse_dec (parse_unspec_value ty name)
  | .success | .cwd | .dev | .tty | .comm | .exe | .name | .nametype | .subj
  | .key =>
    palt parse_encoded (parse_unspec_value ty name)
  | .mode => palt parse_oct (parse_unspec_value ty name)
  | .msg =>
    if p.split_msg then
      palt parse_kv_sq_as_map (parse_unspec_value ty name)
    else
      palt parse_encoded (parse_unspec_value ty name)

/-- `parser.rs parse_key_a_x_len`. -/
def parse_key_a_x_len : P Key :=
  pmap Key.argLen (pdelim (ptag (bytes "a")) (pdecU (2 ^ 32)) (ptag (bytes "_len")))

/-- `parser.rs parse_key_a_xy`. -/
def parse_key_a_xy : P Key :=
  pmap (fun x => Key.arg x.1 (some x.2))
    (pseq (pright (ptag (bytes "a")) (pdecU (2 ^ 32)))
      (pdelim (ptag (bytes "[")) (pdecU (2 ^ 16)) (ptag (bytes "]"))))

/-- `parser.rs parse_key_a_x`. -/
def parse_key_a_x : P Key :=
  pmap (fun x => Key.arg x Option.none) (pright (ptag (bytes "a")) (pdecU (2 ^ 32)))

/-- The `(SYSCALL, Arg(_, None))` value recognizer inside
`parser.rs Parser::parse_kv`: a hex-digit run before a separator,
becoming `Number::Hex` when it fits `u64` and `Str(_, None)` on
overflow. -/
def parse_arg_hex : P Value :=
  pmap
    (fun s =>
      if hexToNat s < 2 ^ 64 then Value.num (.hex (hexToNat s))
      else Value.str s .none)
    (precognize (pleft (pmany1Count (ptakeWhile1 is_hex_digit))
      (ppeek (ptakeWhile1 is_sep))))

/-- The key phase of `parser.rs Parser::parse_kv` (lines 174-187):
type-aware key recognition followed by `=`. -/
def parse_kv_key (ty : MessageType) : P Key :=
  fun input =>
    if ty == MessageType.EXECVE && input.head? == some 97 &&
        !(bytes "argc").isPrefixOf input then
      pleft (palt3 parse_key_a_x_len parse_key_a_xy parse_key_a_x) (ptag [61]) input
    else if ty == MessageType.SYSCALL then
      pleft (palt parse_key_a_x parse_key) (ptag [61]) input
    else
      pleft parse_key (ptag [61]) input

/-- The value phase of `parser.rs Parser::parse_kv` (lines 189-212),
mirroring the ordered match on `(ty, key)`. -/
def parse_kv_val (p : Parser) (ty : MessageType) (key : Key) : P Value :=
  if ty == MessageType.SYSCALL then
    match key with
    | .arg _ Option.none => parse_arg_hex
    | .common c => parse_common p ty c
    | .name n => parse_named ty n
    | .nameUID n => palt parse_dec (parse_unspec_value ty n)
    | .nameGID n => palt parse_dec (parse_unspec_value ty n)
    | _ => parse_encoded
  else if ty == MessageType.EXECVE then
    match key with
    | .arg _ _ => parse_encoded
    | .argLen _ => parse_dec
    | .name n => parse_named ty n
    | .common c => parse_common p ty c
    | .nameUID n => palt parse_dec (parse_unspec_value ty n)
    | .nameGID n => palt parse_dec (parse_unspec_value ty n)
    | _ => parse_encoded
  else
    match key with
    | .name n => parse_named ty n
    | .common c => parse_common p ty c
    | .nameUID n => palt parse_dec (parse_unspec_value ty n)
    | .nameGID n => palt parse_dec (parse_unspec_value ty n)
    | _ => parse_encoded

/-- `parser.rs Parser::parse_kv`. -/
def parse_kv (p : Parser) (ty : MessageType) : P (Key × Value) :=
  fun input =>
    match parse_kv_key ty input with
    | Option.none => none
    | some (input2, key) =>
      match parse_kv_val p ty key input2 with
      | Option.none => none
      | some (rest, v) => some (rest, (key, v))

/-- The AVC `granted`/`denied` entry built by
`parser.rs Parser::parse_body`. -/
def avcEntry (x : List Nat × List (List Nat)) : Key × Value :=
  (Key.name x.1, Value.list (x.2.map (fun e => Value.str e .none)))

/-- The per-type special cases at the head of
`parser.rs Parser::parse_body` (lines 106-142). -/
def parse_body_special (ty : MessageType) : P (Option (Key × Value)) :=
  if ty == MessageType.AVC then
    popt (pmap avcEntry
      (pseq
        (pright (pseq (ptag (bytes "avc:")) space0)
          (palt (ptag (bytes "granted")) (ptag (bytes "denied"))))
        (pdelim (pseq space0 (pseq (ptag [123]) space0))
          (pmany1 (pleft parse_identifier space0))
          (pseq (ptag [125]) (pseq space0 (pseq (ptag (bytes "for")) space0))))))
  else if ty == MessageType.TTY then
    pmap (fun _ => Option.none) (popt (ptag (bytes "tty ")))
  else if ty == MessageType.MAC_POLICY_LOAD then
    pmap (fun _ => Option.none) (popt (ptag (bytes "policy loaded ")))
  else
    popt (pmap (fun s => (Key.name s, Value.empty))
      (pleft (ptag (bytes "netlabel")) (pseq (ptag [58]) space0)))

/-- The body terminator used when enrichment is disabled
(`parser.rs` lines 147-153): either GS, a non-empty run without
newline, then newline-or-eof; or directly newline-or-eof. -/
def term_plain : P Unit :=
  palt
    (pvalue () (pseq (ptag [29]) (pseq (pisNot [10]) (palt (ptag [10]) peofB))))
    (pvalue () (palt (ptag [10]) peofB))

/-- The body terminator used when enrichment is enabled
(`parser.rs` line 160). -/
def term_enriched : P Unit := pvalue () (palt (ptag [10]) peofB)

/-- `parser.rs Parser::parse_body`. -/
def parse_body (p : Parser) (ty : MessageType) : P (List (Key × Value)) :=
  fun input =>
    match parse_body_special ty input with
    | Option.none => none
    | some (input1, special) =>
      let pairs : Option (List Nat × List (Key × Value)) :=
        if p.enriched then
          pleft (psepList0 (ptakeWhile1 (fun c => c == 32 || c == 29)) (parse_kv p ty))
            term_enriched input1
        else
          pleft (psepList0 (ptag [32]) (parse_kv p ty)) term_plain input1
      match pairs with
      | Option.none => none
      | some (rest, kv) => some (rest, kv ++ special.toList)

/-- `parser.rs Parser::parse`. -/
def Parser.parse (p : Parser) (raw : List Nat) : Except ParseError Message :=
  match parse_header raw with
  | Option.none => .error (.malformedHeader raw)
  | some (rest, (node, ty, id)) =>
    match parse_body p ty rest with
    | Option.none => .error (.malformedBody rest)
    | some (rest2, kv) =>
      if rest2 = [] then
        .ok ⟨id, node, ty, kv.map (fun e => (e.1, add_value e.2))⟩
      else .error (.trailingGarbage rest2)

/-- `parser.rs parse`: the convenience entry point. -/
def parse (raw : List Nat) (skip_enriched : Bool) : Except ParseError Message :=
  Parser.parse ⟨!skip_enriched, true⟩ raw

/-! ### Arena (`src/body.rs Body::add_slice`) -/

/-- One arena buffer: its contents and the capacity it was requested
with (`Vec::with_capacity` guarantees at least the requested capacity;
the requested amount is what the source computes). -/
structure ArenaBuf where
  data : List Nat
  cap : Nat
deriving DecidableEq

/-- The capacity requested for a fresh arena buffer in
`body.rs` line 91: `1014 * (1 + (ilen / 1024))`. -/
def add_slice_new_cap (ilen : Nat) : Nat := 1014 * (1 + ilen / 1024)

/-- The capacity formula stated by the spec for a fresh arena buffer:
`1024 * (1 + ceil(len / 1024))`. -/
def claimed_new_cap (len : Nat) : Nat := 1024 * (1 + (len + 1023) / 1024)

/-- The second loop of `add_slice` (lines 82-89): extend the first
buffer whose free capacity strictly exceeds the slice length. -/
def arenaFitAux : List ArenaBuf → List Nat → Option (List ArenaBuf)
  | [], _ => none
  | b :: r, input =>
    if b.cap - b.data.length > input.length then
      some (⟨b.data ++ input, b.cap⟩ :: r)
    else (arenaFitAux r input).map (fun a => b :: a)

/-- `body.rs Body::add_slice`, at the arena level.  `inside` models the
first loop's pointer-range check (whether the slice already lies inside
an existing arena buffer); when no buffer can absorb the slice a new
buffer is pushed with the requested capacity of line 91. -/
def arenaAddSlice (arena : List ArenaBuf) (input : List Nat) (inside : Bool) :
    List ArenaBuf :=
  if inside then arena
  else
    match arenaFitAux arena input with
    | some a => a
    | Option.none => arena ++ [⟨input, add_slice_new_cap input.length⟩]

/-! ### `Owned`-freeness (`src/body.rs Body::push`) -/

mutual

/-- No `Value::Owned` occurs anywhere inside the value. -/
def value_noOwned : Value → Bool
  | .empty => true
  | .str _ _ => true
  | .num _ => true
  | .list vs => values_noOwned vs
  | .owned _ => false
  | .map m => entries_noOwned m
  | .segments _ => true
  | .stringifiedList vs => values_noOwned vs
  | .skipped _ _ => true
  | .literal _ => true

/-- `value_noOwned` over a list of values. -/
def values_noOwned : List Value → Bool
  | [] => true
  | v :: vs => value_noOwned v && values_noOwned vs

/-- `value_noOwned` over map entries. -/
def entries_noOwned : List (Key × Value) → Bool
  | [] => true
  | e :: m => value_noOwned e.2 && entries_noOwned m

end

/-! ### EventID rendering and parsing (`src/event_id.rs`) -/

/-- Decimal digits of `n` (Rust `Display` for unsigned integers),
written with explicit fuel so it reduces in the kernel. -/
def natDecAux : Nat → Nat → List Nat
  | 0, _ => []
  | fuel + 1, n => if n < 10 then [48 + n] else natDecAux fuel (n / 10) ++ [48 + n % 10]

/-- Decimal digits of `n`. -/
def natDec (n : Nat) : List Nat := natDecAux (n + 1) n

/-- Zero-pad a digit string to width three (Rust `{:03}`). -/
def pad3 (ds : List Nat) : List Nat :=
  if ds.length < 3 then List.replicate (3 - ds.length) 48 ++ ds else ds

/-- `event_id.rs Display for EventID`: `sec.msec(03):seq`. -/
def eventIDDisplay (e : EventID) : List Nat :=
  natDec (e.timestamp / 1000) ++ [46] ++ pad3 (natDec (e.timestamp % 1000)) ++
    [58] ++ natDec e.sequence

/-- Rust `uXX::from_str`: an optional `+` sign, then a non-empty run of
digits whose value fits below `bound`; any other byte is an error. -/
def rustDecU (bound : Nat) (s : List Nat) : Option Nat :=
  let j := match s with | 43 :: r => r | _ => s
  if j ≠ [] ∧ j.all is_digit ∧ digitsToNat j < bound then some (digitsToNat j)
  else none

/-- Rust `str::split_once`: split at the first occurrence of byte `c`. -/
def splitOnce (c : Nat) : List Nat → Option (List Nat × List Nat)
  | [] => none
  | x :: r =>
    if x = c then some ([], r)
    else (splitOnce c r).map (fun p => (x :: p.1, p.2))

/-- `event_id.rs FromStr for EventID` (errors collapsed to `none`);
the `u64` timestamp arithmetic is explicit mod `2^64`. -/
def eventIDFromStr (s : List Nat) : Option EventID :=
  match splitOnce 46 s with
  | Option.none => none
  | some (sec, rest) =>
    match splitOnce 58 rest with
    | Option.none => none
    | some (msec, seq) =>
      match rustDecU (2 ^ 64) sec, rustDecU (2 ^ 64) msec, rustDecU (2 ^ 32) seq with
      | some a, some b, some q => some ⟨(a * 1000 + b) % 2 ^ 64, q⟩
      | _, _, _ => none

/-! ### MessageType rendering and parsing (`src/message_type.rs`) -/

/-- `message_type.rs Display for MessageType`, over a name table. -/
def msgTypeDisplay (tbl : List (List Nat × Nat)) (n : Nat) : List Nat :=
  match eventNamesGet tbl n with
  | some name => name
  | Option.none => bytes "UNKNOWN[" ++ natDec n ++ [93]

/-- Rust `str::strip_prefix` on byte lists. -/
def stripPre (p s : List Nat) : Option (List Nat) :=
  if p.isPrefixOf s then some (s.drop p.length) else none

/-- Rust `str::strip_suffix` on byte lists. -/
def stripSuf (p s : List Nat) : Option (List Nat) :=
  if p.isSuffixOf s then some (s.take (s.length - p.length)) else none

/-- `message_type.rs FromStr for MessageType`, over a name table
(errors collapsed to `none`). -/
def msgTypeFromStr (tbl : List (List Nat × Nat)) (s : List Nat) : Option Nat :=
  match eventIdsGet tbl s with
  | some id => some id
  | Option.none =>
    match stripPre (bytes "UNKNOWN[") s with
    | Option.none => none
    | some s1 =>
      match stripSuf [93] s1 with
      | Option.none => none
      | some num => rustDecU (2 ^ 32) num

/-! ### Basic list-scanning lemmas -/

theorem all_takeWhile (f : Nat → Bool) (l : List Nat) :
    ∀ c ∈ l.takeWhile f, f c = true := by
  induction l with
  | nil => intro c h; simp [List.takeWhile] at h
  | cons x r ih =>
    intro c h
    by_cases hx : f x
    · rw [List.takeWhile_cons, if_pos hx] at h
      rcases List.mem_cons.mp h with h1 | h1
      · exact h1 ▸ hx
      · exact ih c h1
    · rw [List.takeWhile_cons, if_neg hx] at h
      simp at h

theorem head_dropWhile (f : Nat → Bool) (l : List Nat) :
    ∀ c, (l.dropWhile f).head? = some c → f c = false := by
  induction l with
  | nil => intro c h; simp [List.dropWhile] at h
  | cons x r ih =>
    intro c h
    by_cases hx : f x
    · rw [List.dropWhile_cons, if_pos hx] at h
      exact ih c h
    · rw [List.dropWhile_cons, if_neg hx] at h
      simp at h
      rw [← h]
      exact Bool.not_eq_true _ ▸ hx

theorem takeWhile_append_stop (f : Nat → Bool) (x t : List Nat)
    (hx : ∀ c ∈ x, f c = true) (ht : ∀ c, t.head? = some c → f c = false) :
    (x ++ t).takeWhile f = x ∧ (x ++ t).dropWhile f = t := by
  induction x with
  | nil =>
    simp only [List.nil_append]
    cases t with
    | nil => simp [List.takeWhile, List.dropWhile]
    | cons c r =>
      have := ht c (by simp)
      simp [List.takeWhile_cons, List.dropWhile_cons, this]
  | cons a x ih =>
    have ha : f a = true := hx a (by simp)
    have := ih (fun c hc => hx c (by simp [hc]))
    simp [List.takeWhile_cons, List.dropWhile_cons, ha, this.1, this.2]

/-! ### C1: arena buffer capacity -/

theorem arenaFitAux_eq_none (arena : List ArenaBuf) (input : List Nat)
    (h : ∀ b ∈ arena, b.cap - b.data.length ≤ input.length) :
    arenaFitAux arena input = none := by
  induction arena with
  | nil => rfl
  | cons b r ih =>
    have hb := h b (by simp)
    have hr := ih (fun b hb => h b (by simp [hb]))
    simp [arenaFitAux, Nat.not_lt.mpr hb, hr]

/-- C1 counterexample: the capacity requested by `add_slice` for a
fresh buffer taking a 1-byte slice into an empty arena is
`1014 * (1 + 1/1024) = 1014`, not the `1024 * (1 + ceil(1/1024)) = 2048`
the claim states. -/
theorem arena_new_cap_counterexample :
    arenaAddSlice [] [0] false = [⟨[0], 1014⟩] ∧
      add_slice_new_cap 1 = 1014 ∧ claimed_new_cap 1 = 2048 ∧
      add_slice_new_cap 1 ≠ claimed_new_cap 1 := by
  refine ⟨rfl, rfl, rfl, ?_⟩
  decide

/-- C1 (amended): when the transplanted slice neither lies inside an
existing arena buffer nor fits into the free capacity of any buffer,
`add_slice` appends a new buffer holding the slice whose requested
capacity is exactly `1014 * (1 + floor(len/1024))`. -/
theorem arena_new_cap_amended (arena : List ArenaBuf) (input : List Nat)
    (h : ∀ b ∈ arena, b.cap - b.data.length ≤ input.length) :
    arenaAddSlice arena input false =
      arena ++ [⟨input, 1014 * (1 + input.length / 1024)⟩] := by
  simp [arenaAddSlice, arenaFitAux_eq_none arena input h, add_slice_new_cap]

/-- C1 witness: the amended theorem applied to a concrete arena with one
full buffer and a 100-byte slice. -/
theorem arena_new_cap_amended_witness :
    arenaAddSlice [⟨List.replicate 50 7, 50⟩] (List.replicate 100 9) false =
      [⟨List.replicate 50 7, 50⟩, ⟨List.replicate 100 9, 1014⟩] := by
  have := arena_new_cap_amended [⟨List.replicate 50 7, 50⟩] (List.replicate 100 9)
    (by decide)
  simpa using this

/-! ### C2: the first branch of the unspecified-value recognizer -/

/-- C2 counterexample: on `a"x` the run `a` is followed by `"` (not a
separator), yet the first branch succeeds and yields `Str("a", None)`:
the trailing peek is of `take_while(is_sep)`, which accepts the empty
run. -/
theorem unspec_first_counterexample :
    parse_unspec_first [97, 34, 120] = some ([34, 120], .str [97] .none) ∧
      is_sep 34 = false ∧ is_safe_unquoted_chr 34 = false := by
  exact ⟨rfl, by decide, by decide⟩

/-- C2 (amended): the first branch succeeds exactly on a non-empty
maximal run of safe-unquoted characters, yielding it as `Str` with
`Quote::None`; the byte following the run is unconstrained (the peeked
`take_while(is_sep)` always succeeds), so the run is followed by any
non-safe-unquoted byte or the end of input. -/
theorem unspec_first_charact (i r : List Nat) (v : Value) :
    parse_unspec_first i = some (r, v) ↔
      ∃ run, run ≠ [] ∧ i = run ++ r ∧
        (∀ c ∈ run, is_safe_unquoted_chr c = true) ∧
        (∀ c, r.head? = some c → is_safe_unquoted_chr c = false) ∧
        v = .str run .none := by
  constructor
  · intro h
    simp only [parse_unspec_first, pleft, pmap, pseq, ppeek, ptakeWhile,
      ptakeWhile1, Option.map] at h
    by_cases hw : i.takeWhile is_safe_unquoted_chr = []
    · simp [hw] at h
    · simp only [hw, if_neg hw] at h
      refine ⟨i.takeWhile is_safe_unquoted_chr, hw, ?_, all_takeWhile _ i, ?_, ?_⟩
      · have h1 : r = i.dropWhile is_safe_unquoted_chr := by
          cases h' : i.dropWhile is_safe_unquoted_chr <;> simp [h'] at h <;>
            simp [h.1.symm]
        rw [h1, List.takeWhile_append_dropWhile]
      · intro c hc
        have h1 : r = i.dropWhile is_safe_unquoted_chr := by
          cases h' : i.dropWhile is_safe_unquoted_chr <;> simp [h'] at h <;>
            simp [h.1.symm]
        exact head_dropWhile _ i c (h1 ▸ hc)
      · cases h' : i.dropWhile is_safe_unquoted_chr <;> simp [h'] at h <;>
          simp [h.2.symm]
  · rintro ⟨run, hne, hi, hall, hstop, hv⟩
    subst hi hv
    have hs := takeWhile_append_stop is_safe_unquoted_chr run r hall hstop
    simp only [parse_unspec_first, pleft, pmap, pseq, ppeek, ptakeWhile,
      ptakeWhile1, hs.1, hs.2, if_neg hne]
    cases r <;> simp

/-! ### C9: a Body never stores `Value::Owned` -/

mutual

theorem add_value_noOwned : ∀ v : Value, value_noOwned (add_value v) = true
  | .empty => rfl
  | .str _ _ => rfl
  | .num _ => rfl
  | .list vs => by simpa [add_value, value_noOwned] using add_values_noOwned vs
  | .owned _ => rfl
  | .map m => by simpa [add_value, value_noOwned] using add_entries_noOwned m
  | .segments _ => rfl
  | .stringifiedList vs => by
      simpa [add_value, value_noOwned] using add_values_noOwned vs
  | .skipped _ _ => rfl
  | .literal _ => rfl

theorem add_values_noOwned : ∀ vs : List Value, values_noOwned (add_values vs) = true
  | [] => rfl
  | v :: vs => by
      simp [add_values, values_noOwned, add_value_noOwned v, add_values_noOwned vs]

theorem add_entries_noOwned :
    ∀ m : List (Key × Value), entries_noOwned (add_entries m) = true
  | [] => rfl
  | (k, v) :: m => by
      simp [add_entries, entries_noOwned, add_value_noOwned v, add_entries_noOwned m]

end

/-- C9: `Body::push` (through `add_value`) rewrites every `Owned(bytes)`
into `Str(bytes, Quote::None)` with the same bytes — also nested inside
`List`, `StringifiedList` and `Map` — so no pushed value contains an
`Owned`, and every message produced by `Parser::parse` has a body free
of `Owned` values. -/
theorem body_no_owned :
    (∀ v : Value, value_noOwned (add_value v) = true) ∧
    (∀ s : List Nat, add_value (.owned s) = .str s .none) ∧
    (∀ (p : Parser) (raw : List Nat) (m : Message), Parser.parse p raw = .ok m →
      ∀ e ∈ m.body, value_noOwned e.2 = true) := by
  refine ⟨add_value_noOwned, fun _ => rfl, ?_⟩
  intro p raw m h e he
  unfold Parser.parse at h
  split at h
  · exact absurd h (by simp)
  · split at h
    · exact absurd h (by simp)
    · split at h
      · cases h
        rcases List.mem_map.mp he with ⟨x, _, hx⟩
        rw [← hx]
        exact add_value_noOwned x.2
      · exact absurd h (by simp)

/-- C9 witness: the hex-encoded EXECVE argument `a0=7768` is decoded to
an `Owned` blob by `parse_encoded` and lands in the body as
`Str("wh", None)`, which contains no `Owned`. -/
theorem body_no_owned_witness :
    value_noOwned (Value.str [119, 104] Quote.none) = true :=
  body_no_owned.2.2 ⟨true, true⟩
    (bytes "type=EXECVE msg=audit(1.000:1): a0=7768\n")
    ⟨⟨1000, 1⟩, Option.none, 1309,
      [(Key.arg 0 Option.none, Value.str [119, 104] Quote.none)]⟩
    rfl (Key.arg 0 Option.none, Value.str [119, 104] Quote.none) (by simp)

/-! ### Decimal rendering lemmas -/

theorem natDecAux_irrel : ∀ n f1 f2 : Nat, n < f1 → n < f2 →
    natDecAux f1 n = natDecAux f2 n := by
  intro n
  induction n using Nat.strong_induction_on with
  | _ n ih =>
    intro f1 f2 h1 h2
    match f1, f2 with
    | f1 + 1, f2 + 1 =>
      simp only [natDecAux]
      by_cases hn : n < 10
      · simp [hn]
      · have hd : n / 10 < n := Nat.div_lt_self (by omega) (by omega)
        simp only [if_neg hn]
        rw [ih (n / 10) hd f1 f2 (by omega) (by omega)]

theorem natDec_step (n : Nat) (h : ¬ n < 10) :
    natDec n = natDec (n / 10) ++ [48 + n % 10] := by
  have hd : n / 10 < n := Nat.div_lt_self (by omega) (by omega)
  have h1 : natDec n = natDecAux n (n / 10) ++ [48 + n % 10] := by
    show natDecAux (n + 1) n = _
    rw [show natDecAux (n + 1) n =
      (if n < 10 then [48 + n] else natDecAux n (n / 10) ++ [48 + n % 10]) from rfl]
    rw [if_neg h]
  rw [h1, natDecAux_irrel (n / 10) n (n / 10 + 1) hd (by omega)]
  rfl

theorem digitsToNat_append_one (a : List Nat) (c : Nat) :
    digitsToNat (a ++ [c]) = digitsToNat a * 10 + (c - 48) := by
  simp [digitsToNat, List.foldl_append]

theorem digitsToNat_natDec (n : Nat) : digitsToNat (natDec n) = n := by
  induction n using Nat.strong_induction_on with
  | _ n ih =>
    by_cases hn : n < 10
    · simp only [natDec, natDecAux, if_pos hn, digitsToNat, List.foldl]
      omega
    · have hd : n / 10 < n := Nat.div_lt_self (by omega) (by omega)
      rw [natDec_step n hn, digitsToNat_append_one, ih (n / 10) hd]
      omega

theorem natDec_digits (n : Nat) : ∀ c ∈ natDec n, is_digit c = true := by
  induction n using Nat.strong_induction_on with
  | _ n ih =>
    by_cases hn : n < 10
    · simp only [natDec, natDecAux, if_pos hn]
      intro c hc
      simp at hc
      simp [hc, is_digit]
      omega
    · have hd : n / 10 < n := Nat.div_lt_self (by omega) (by omega)
      rw [natDec_step n hn]
      intro c hc
      rcases List.mem_append.mp hc with h | h
      · exact ih (n / 10) hd c h
      · simp at h
        have := Nat.mod_lt n (y := 10) (by omega)
        simp [h, is_digit]
        omega

theorem natDec_ne_nil (n : Nat) : natDec n ≠ [] := by
  by_cases hn : n < 10
  · simp [natDec, natDecAux, if_pos hn]
  · rw [natDec_step n hn]
    simp

/-! ### C4: SYSCALL `aN` hex arguments and overflow -/

theorem sep_not_hex {c : Nat} (h : is_sep c = true) : is_hex_digit c = false := by
  simp [is_sep, decide_eq_true_iff] at h
  simp [is_hex_digit]
  omega

theorem sep_not_digit {c : Nat} (h : is_sep c = true) : is_digit c = false := by
  simp [is_sep, decide_eq_true_iff] at h
  simp [is_digit]
  omega

/-- C4: in a SYSCALL record, a key `aN` whose value text is a non-empty
hex-digit run followed by a separator is parsed to `Number(Hex(v))`
when the run's value fits in `u64`, and to `Str` of the exact digit run
with `Quote::None` on overflow; and a whole line with an overflowing
argument still parses successfully. -/
theorem syscall_arg_hex (p : Parser) (x : Nat) (ds rest : List Nat) (c : Nat)
    (hx : x < 2 ^ 32) (hds : ds ≠ []) (hall : ∀ c ∈ ds, is_hex_digit c = true)
    (hhead : rest.head? = some c) (hsep : is_sep c = true) :
    parse_kv p MessageType.SYSCALL (97 :: (natDec x ++ 61 :: (ds ++ rest))) =
      some (rest, (Key.arg x Option.none,
        if hexToNat ds < 2 ^ 64 then Value.num (.hex (hexToNat ds))
        else Value.str ds Quote.none)) ∧
    parse (bytes "type=SYSCALL msg=audit(1.000:4): a3=fffffffffffff0000\n") false =
      .ok ⟨⟨1000, 4⟩, Option.none, 1300,
        [(Key.arg 3 Option.none, Value.str (bytes "fffffffffffff0000") Quote.none)]⟩ := by
  constructor
  · have hkd := takeWhile_append_stop is_digit (natDec x) (61 :: (ds ++ rest))
      (natDec_digits x) (by intro c h; simp at h; simp [h.symm, is_digit])
    have hvh := takeWhile_append_stop is_hex_digit ds rest hall
      (by intro c' h; rw [hhead] at h; cases h; exact sep_not_hex hsep)
    have hkey : parse_kv_key MessageType.SYSCALL
        (97 :: (natDec x ++ 61 :: (ds ++ rest))) =
        some (ds ++ rest, Key.arg x Option.none) := by
      have hne : ¬ (MessageType.SYSCALL == MessageType.EXECVE &&
          (97 :: (natDec x ++ 61 :: (ds ++ rest))).head? == some 97 &&
          !(bytes "argc").isPrefixOf (97 :: (natDec x ++ 61 :: (ds ++ rest)))) = true := by
        simp [MessageType.SYSCALL, MessageType.EXECVE]
      have hba : bytes "a" = [97] := rfl
      simp only [parse_kv_key]
      rw [if_neg (by simpa using hne), if_pos (by simp)]
      simp only [hba, pleft, pmap, pseq, palt, parse_key_a_x, pright, ptag, tagAux,
        Option.map, pdecU, hkd.1, hkd.2, show Char.toNat 'a' = 97 from rfl,
        if_true]
      rw [if_neg (natDec_ne_nil x)]
      rw [if_pos (by rw [digitsToNat_natDec]; exact hx)]
      simp [digitsToNat_natDec, tagAux]
    have hval : parse_kv_val p MessageType.SYSCALL (Key.arg x Option.none) =
        parse_arg_hex := by
      simp [parse_kv_val, MessageType.SYSCALL]
    have h1 : ptakeWhile1 is_hex_digit (ds ++ rest) = some (rest, ds) := by
      simp only [ptakeWhile1, hvh.1, hvh.2]
      rw [if_neg hds]
    have hlen1 : rest.length ≠ (ds ++ rest).length := by
      have : 0 < ds.length := List.length_pos.mpr hds
      simp only [List.length_append]
      omega
    have h2 : pmany1Count (ptakeWhile1 is_hex_digit) (ds ++ rest) = some (rest, 1) := by
      simp only [pmany1Count, h1]
      rw [if_neg hlen1]
      have hloop : many0CountAux (ptakeWhile1 is_hex_digit) (rest.length + 1) rest 0 =
          some (rest, 0) := by
        cases rest with
        | nil => simp at hhead
        | cons c' t =>
          have hc : c' = c := by simpa using hhead
          subst hc
          simp only [many0CountAux, ptakeWhile1, List.takeWhile_cons, sep_not_hex hsep]
          simp
      rw [hloop]
      rfl
    have h3 : ppeek (ptakeWhile1 is_sep) rest = some (rest, rest.takeWhile is_sep) := by
      cases rest with
      | nil => simp at hhead
      | cons c' t =>
        have hc : c' = c := by simpa using hhead
        subst hc
        simp [ppeek, ptakeWhile1, List.takeWhile_cons, hsep]
    have h4 : precognize (pleft (pmany1Count (ptakeWhile1 is_hex_digit))
        (ppeek (ptakeWhile1 is_sep))) (ds ++ rest) = some (rest, ds) := by
      simp only [precognize, pleft, pmap, pseq, h2, h3]
      have ht : (ds ++ rest).take ((ds ++ rest).length - rest.length) = ds := by
        have he : (ds ++ rest).length - rest.length = ds.length := by
          simp only [List.length_append]
          omega
        rw [he]
        exact List.take_left ds rest
      simp [ht]
    have harg : parse_arg_hex (ds ++ rest) = some (rest,
        if hexToNat ds < 2 ^ 64 then Value.num (.hex (hexToNat ds))
        else Value.str ds Quote.none) := by
      simp only [parse_arg_hex, pmap, h4]
      rfl
    simp only [parse_kv, hkey, hval, harg]
  · rfl

/-- C4 witness: the SYSCALL argument theorem applied to `a3=ff`
followed by a newline. -/
theorem syscall_arg_hex_witness :
    parse_kv ⟨true, true⟩ MessageType.SYSCALL
      (97 :: (natDec 3 ++ 61 :: (bytes "ff" ++ [10]))) =
      some ([10], (Key.arg 3 Option.none, Value.num (.hex 255))) :=
  (syscall_arg_hex ⟨true, true⟩ 3 (bytes "ff") [10] 10 (by decide) (by decide)
    (by decide) rfl (by decide)).1

/-! ### C10: EXECVE key handling -/

theorem takeWhile_append_keep (f : Nat → Bool) (x t : List Nat)
    (ht : ∀ c, t.head? = some c → f c = false) :
    (x ++ t).takeWhile f = x.takeWhile f ∧ (x ++ t).dropWhile f = x.dropWhile f ++ t := by
  induction x with
  | nil =>
    simp only [List.nil_append, List.takeWhile_nil, List.dropWhile_nil]
    cases t with
    | nil => simp [List.takeWhile, List.dropWhile]
    | cons c r =>
      have := ht c (by simp)
      simp [List.takeWhile_cons, List.dropWhile_cons, this]
  | cons a x ih =>
    by_cases ha : f a
    · simp [List.takeWhile_cons, List.dropWhile_cons, ha, ih.1, ih.2]
    · simp [List.takeWhile_cons, List.dropWhile_cons, ha]

/-- Byte class accepted by the tail of a key name:
alphanumeric, `-`, `_`. -/
def is_key_chr (c : Nat) : Bool := is_alphanumeric c || c == 45 || c == 95

theorem is_key_chr_elim {c : Nat} (h : is_key_chr c = false) :
    is_alphanumeric c = false ∧ c ≠ 45 ∧ c ≠ 95 := by
  by_cases h1 : is_alphanumeric c
  · simp [is_key_chr, h1] at h
  · by_cases h2 : c = 45
    · simp [is_key_chr, h2] at h
    · by_cases h3 : c = 95
      · simp [is_key_chr, h3] at h
      · exact ⟨by simpa using h1, h2, h3⟩

theorem is_alpha_of_alnum_false {c : Nat} (h : is_alphanumeric c = false) :
    is_alpha c = false := by
  simp [is_alphanumeric, Bool.or_eq_false_iff] at h
  exact h.1

theorem key_chr_not_alnum {a : Nat} (ha : is_key_chr a = true)
    (han : is_alphanumeric a = false) : a = 45 ∨ a = 95 := by
  simp [is_key_chr, han] at ha
  simpa using ha

theorem dash_contains_false {c : Nat} (h45 : c ≠ 45) (h95 : c ≠ 95) :
    (bytes "-_").contains c = false := by
  have : (bytes "-_") = [45, 95] := rfl
  rw [this]
  simp [List.contains_cons]
  omega

theorem keyScan (t : List Nat)
    (ht : ∀ c, t.head? = some c → is_key_chr c = false) :
    ∀ (L : Nat) (K : List Nat), K.length < L →
    (∀ c ∈ K, is_key_chr c = true) →
    ∀ fuel, K.length < fuel → ∀ n,
    ∃ m, many0CountAux (palt alphanumeric1 (pisA (bytes "-_"))) fuel (K ++ t) n =
      some (t, m) := by
  intro L
  induction L using Nat.strong_induction_on with
  | _ L ih =>
    intro K hKL hK fuel hfuel n
    match fuel, hfuel with
    | fuel + 1, hfuel =>
      cases K with
      | nil =>
        refine ⟨n, ?_⟩
        have h1 : alphanumeric1 t = none := by
          simp only [alphanumeric1, ptakeWhile1]
          rw [if_pos]
          cases t with
          | nil => rfl
          | cons c r =>
            have hx := is_key_chr_elim (ht c (by simp))
            simp [List.takeWhile_cons, hx.1]
        have h2 : pisA (bytes "-_") t = none := by
          simp only [pisA, ptakeWhile1]
          rw [if_pos]
          cases t with
          | nil => rfl
          | cons c r =>
            have hx := is_key_chr_elim (ht c (by simp))
            have hmem : c ∉ bytes "-_" := by
              rw [show (bytes "-_") = [45, 95] from rfl]
              simp
              omega
            simp [List.takeWhile_cons, hmem]
        simp [many0CountAux, palt, h1, h2]
      | cons a K' =>
        have ha : is_key_chr a = true := hK a (by simp)
        by_cases han : is_alphanumeric a
        · -- an alphanumeric run is consumed first
          have hrun := takeWhile_append_keep is_alphanumeric (a :: K') t
            (fun c h => (is_key_chr_elim (ht c h)).1)
          have hne : (a :: K').takeWhile is_alphanumeric ≠ [] := by
            simp [List.takeWhile_cons, han]
          have h1 : alphanumeric1 ((a :: K') ++ t) =
              some ((a :: K').dropWhile is_alphanumeric ++ t,
                (a :: K').takeWhile is_alphanumeric) := by
            simp only [alphanumeric1, ptakeWhile1, hrun.1, hrun.2]
            rw [if_neg hne]
          have hK'sub : ∀ c ∈ (a :: K').dropWhile is_alphanumeric, is_key_chr c = true :=
            fun c hc => hK c (List.Sublist.mem hc (List.dropWhile_sublist _))
          have hlt : ((a :: K').dropWhile is_alphanumeric).length < (a :: K').length := by
            have hsum := congrArg List.length
              (List.takeWhile_append_dropWhile is_alphanumeric (a :: K'))
            simp only [List.length_append] at hsum
            have hpos : 0 < ((a :: K').takeWhile is_alphanumeric).length :=
              List.length_pos.mpr hne
            omega
          obtain ⟨m, hm⟩ := ih (((a :: K').dropWhile is_alphanumeric).length + 1)
            (by omega) ((a :: K').dropWhile is_alphanumeric) (by omega)
            hK'sub fuel (by omega) (n + 1)
          refine ⟨m, ?_⟩
          simp only [many0CountAux, palt, h1]
          rw [if_neg (by simp only [List.length_append]; omega)]
          exact hm
        · -- a dash/underscore run is consumed
          have han' : is_alphanumeric a = false := by
            revert han
            cases is_alphanumeric a <;> simp
          have hdu : (a = 45 ∨ a = 95) := key_chr_not_alnum ha han'
          have h1 : alphanumeric1 ((a :: K') ++ t) = none := by
            simp only [alphanumeric1, ptakeWhile1]
            rw [if_pos]
            simp only [List.cons_append, List.takeWhile_cons]
            rw [if_neg (by simpa using han)]
          set g : Nat → Bool := fun c => (bytes "-_").contains c with hg
          have hgrun := takeWhile_append_keep g (a :: K') t
            (by
              intro c h
              have hx := is_key_chr_elim (ht c h)
              have hmem : c ∉ bytes "-_" := by
                rw [show (bytes "-_") = [45, 95] from rfl]
                simp
                omega
              simp [hg, hmem])
          have hgne : (a :: K').takeWhile g ≠ [] := by
            have hga : g a = true := by
              rcases hdu with h | h <;>
                simp [hg, h, show (bytes "-_") = [45, 95] from rfl, List.contains_cons]
            simp [List.takeWhile_cons, hga]
          have h2 : pisA (bytes "-_") ((a :: K') ++ t) =
              some ((a :: K').dropWhile g ++ t, (a :: K').takeWhile g) := by
            simp only [pisA, ptakeWhile1, ← hg, hgrun.1, hgrun.2]
            rw [if_neg hgne]
          have hK'sub : ∀ c ∈ (a :: K').dropWhile g, is_key_chr c = true :=
            fun c hc => hK c (List.Sublist.mem hc (List.dropWhile_sublist _))
          have hlt : ((a :: K').dropWhile g).length < (a :: K').length := by
            have hsum := congrArg List.length
              (List.takeWhile_append_dropWhile g (a :: K'))
            simp only [List.length_append] at hsum
            have hpos : 0 < ((a :: K').takeWhile g).length :=
              List.length_pos.mpr hgne
            omega
          obtain ⟨m, hm⟩ := ih (((a :: K').dropWhile g).length + 1)
            (by omega) ((a :: K').dropWhile g) (by omega)
            hK'sub fuel (by omega) (n + 1)
          refine ⟨m, ?_⟩
          simp only [many0CountAux, palt, h1, h2]
          rw [if_neg (by simp only [List.length_append]; omega)]
          exact hm

theorem key_text_complete (K t : List Nat) (c0 : Nat)
    (hhead : K.head? = some c0) (halpha : is_alpha c0 = true)
    (hall : ∀ c ∈ K, is_key_chr c = true)
    (ht : ∀ c, t.head? = some c → is_key_chr c = false) :
    key_text (K ++ t) = some (t, K) := by
  cases K with
  | nil => simp at hhead
  | cons a K' =>
    have ha : a = c0 := by simpa using hhead
    subst ha
    have hrun := takeWhile_append_keep is_alpha (a :: K') t
      (fun c h => is_alpha_of_alnum_false (is_key_chr_elim (ht c h)).1)
    have hne : (a :: K').takeWhile is_alpha ≠ [] := by
      simp [List.takeWhile_cons, halpha]
    have h1 : alpha1 ((a :: K') ++ t) =
        some ((a :: K').dropWhile is_alpha ++ t, (a :: K').takeWhile is_alpha) := by
      simp only [alpha1, ptakeWhile1, hrun.1, hrun.2]
      rw [if_neg hne]
    have hsub : ∀ c ∈ (a :: K').dropWhile is_alpha, is_key_chr c = true :=
      fun c hc => hall c (List.Sublist.mem hc (List.dropWhile_sublist _))
    obtain ⟨m, hm⟩ := keyScan t ht (((a :: K').dropWhile is_alpha).length + 1)
      ((a :: K').dropWhile is_alpha) (by omega) hsub
      (((a :: K').dropWhile is_alpha ++ t).length + 1)
      (by simp only [List.length_append]; omega) 0
    simp only [key_text, precognize, pseq, h1, pmany0Count, hm]
    have hlen : ((a :: K') ++ t).length - t.length = (a :: K').length := by
      simp only [List.length_append]
      omega
    rw [hlen]
    rw [List.take_left]


theorem pseq_eval {α β : Type} (p : P α) (q : P β) {i r1 r2 : List Nat}
    {a : α} {b : β} (hp : p i = some (r1, a)) (hq : q r1 = some (r2, b)) :
    pseq p q i = some (r2, (a, b)) := by
  simp only [pseq, hp, hq]

theorem pleft_eval {α β : Type} (p : P α) (q : P β) {i r1 r2 : List Nat}
    {a : α} {b : β} (hp : p i = some (r1, a)) (hq : q r1 = some (r2, b)) :
    pleft p q i = some (r2, a) := by
  simp only [pleft, pmap, pseq, hp, hq, Option.map]

theorem pright_eval {α β : Type} (p : P α) (q : P β) {i r1 r2 : List Nat}
    {a : α} {b : β} (hp : p i = some (r1, a)) (hq : q r1 = some (r2, b)) :
    pright p q i = some (r2, b) := by
  simp only [pright, pmap, pseq, hp, hq, Option.map]

theorem length_append_ne_of_ne (A B X : List Nat) (h : A.length ≠ B.length) :
    (A ++ X).length ≠ (B ++ X).length := by
  simp only [List.length_append]
  omega

theorem pmany1Count_one {α : Type} (p : P α) (i r : List Nat) (v : α)
    (hp : p i = some (r, v)) (hlen : r.length ≠ i.length) (h2 : p r = none) :
    pmany1Count p i = some (r, 1) := by
  simp only [pmany1Count, hp]
  rw [if_neg hlen]
  have h3 : many0CountAux p (r.length + 1) r 0 = some (r, 0) := by
    simp only [many0CountAux, h2]
  rw [h3]
  rfl

theorem precognize_append {α : Type} (p : P α) (A B X : List Nat) (v : α)
    (hp : p (A ++ X) = some (B ++ X, v)) (hle : B.length ≤ A.length) :
    precognize p (A ++ X) = some (B ++ X, A.take (A.length - B.length)) := by
  simp only [precognize, hp]
  have h1 : (A ++ X).length - (B ++ X).length = A.length - B.length := by
    simp only [List.length_append]
    omega
  rw [h1, List.take_append_of_le_length (by omega)]

/-- `parse_header` on an EXECVE line whose body starts with byte `a`. -/
theorem header_execve (t : List Nat) :
    parse_header (bytes "type=EXECVE msg=audit(1.000:1): " ++ (97 :: t)) =
      some (97 :: t, (Option.none, MessageType.EXECVE, ⟨1000, 1⟩)) := by
  have e2 : palt alphanumeric1 (ptag (bytes "_"))
      (bytes "EXECVE msg=audit(1.000:1): " ++ (97 :: t)) =
      some (bytes " msg=audit(1.000:1): " ++ (97 :: t), bytes "EXECVE") := rfl
  have e3 : palt alphanumeric1 (ptag (bytes "_"))
      (bytes " msg=audit(1.000:1): " ++ (97 :: t)) = none := rfl
  have e4 := pmany1Count_one _ _ _ _ e2
    (length_append_ne_of_ne _ _ _ (by decide)).symm e3
  have e5 := precognize_append _ (bytes "EXECVE msg=audit(1.000:1): ")
    (bytes " msg=audit(1.000:1): ") (97 :: t) _ e4 (by decide)
  rw [show (bytes "EXECVE msg=audit(1.000:1): ").take
      ((bytes "EXECVE msg=audit(1.000:1): ").length -
        (bytes " msg=audit(1.000:1): ").length) = bytes "EXECVE" from rfl] at e5
  have e6 : parse_type_named (bytes "EXECVE msg=audit(1.000:1): " ++ (97 :: t)) =
      some (bytes " msg=audit(1.000:1): " ++ (97 :: t), MessageType.EXECVE) := by
    simp only [parse_type_named, e5]
    rfl
  have e7 : parse_type (bytes "type=EXECVE msg=audit(1.000:1): " ++ (97 :: t)) =
      some (bytes " msg=audit(1.000:1): " ++ (97 :: t), MessageType.EXECVE) := by
    have et : ptag (bytes "type=")
        (bytes "type=EXECVE msg=audit(1.000:1): " ++ (97 :: t)) =
        some (bytes "EXECVE msg=audit(1.000:1): " ++ (97 :: t), bytes "type=") := rfl
    simp only [parse_type, pright, pmap, pseq, et, palt, e6, Option.map]
  have e8 : pisA (bytes " ") (bytes " msg=audit(1.000:1): " ++ (97 :: t)) =
      some (bytes "msg=audit(1.000:1): " ++ (97 :: t), [32]) := rfl
  have e9 : parse_msgid (bytes "msg=audit(1.000:1): " ++ (97 :: t)) =
      some (97 :: t, ⟨1000, 1⟩) := rfl
  have e0 : popt (pleft parse_node (pisA (bytes " ")))
      (bytes "type=EXECVE msg=audit(1.000:1): " ++ (97 :: t)) =
      some (bytes "type=EXECVE msg=audit(1.000:1): " ++ (97 :: t), Option.none) := rfl
  exact pseq_eval _ _ e0 (pseq_eval _ _ (pleft_eval _ _ e7 e8) e9)

/-- C10 counterexample: in an EXECVE record the key `argcx` begins with
`a`, is not the literal `argc`, and matches none of the `aN` forms, yet
the line parses successfully with `argcx` as a general name key — the
code only requires the input to *start with* `argc`, not to equal it. -/
theorem execve_argcx_counterexample :
    parse (bytes "type=EXECVE msg=audit(1.000:1): argcx=1\n") false =
      .ok ⟨⟨1000, 1⟩, Option.none, 1309,
        [(Key.name (bytes "argcx"), Value.str [49] Quote.none)]⟩ ∧
      bytes "argcx" ≠ bytes "argc" ∧ (bytes "argcx").head? = some 97 :=
  ⟨rfl, by decide, by decide⟩

/-- C10 (amended): in an EXECVE record, a key that begins with `a`, does
not begin with `argc` (rather than "is not the literal `argc`"), and
does not match `aN_len`/`aN[M]`/`aN` followed by `=`, makes `parse_kv`
fail, and a line whose body starts with such a pair fails wholly with
`MalformedBody`; the same key is accepted through the general key parser
for every message type other than EXECVE and SYSCALL (for SYSCALL the
`aN` prefix parse may itself consume the `a` and digits and then fail). -/
theorem execve_key_amended :
    (∀ (p : Parser) (input : List Nat), input.head? = some 97 →
      ¬ (bytes "argc").isPrefixOf input →
      pleft (palt3 parse_key_a_x_len parse_key_a_xy parse_key_a_x) (ptag [61]) input =
        none →
      parse_kv p MessageType.EXECVE input = none) ∧
    (∀ (p : Parser) (K V : List Nat), K.head? = some 97 →
      ¬ (bytes "argc").isPrefixOf (K ++ 61 :: V) →
      pleft (palt3 parse_key_a_x_len parse_key_a_xy parse_key_a_x) (ptag [61])
        (K ++ 61 :: V) = none →
      Parser.parse p (bytes "type=EXECVE msg=audit(1.000:1): " ++ (K ++ 61 :: V)) =
        .error (.malformedBody (K ++ 61 :: V))) ∧
    (∀ (ty : MessageType) (K V : List Nat) (c0 : Nat), ty ≠ MessageType.EXECVE →
      ty ≠ MessageType.SYSCALL → K.head? = some c0 → is_alpha c0 = true →
      (∀ c ∈ K, is_key_chr c = true) →
      parse_kv_key ty (K ++ 61 :: V) = some (V, keyOfText K)) := by
  refine ⟨?_, ?_, ?_⟩
  · intro p input hhead hpre hfail
    have hpre2 : (bytes "argc").isPrefixOf input = false := by
      revert hpre
      cases (bytes "argc").isPrefixOf input <;> simp
    simp only [parse_kv, parse_kv_key]
    rw [if_pos (by simp [MessageType.EXECVE, hhead, hpre2])]
    rw [hfail]
  · intro p K V hhead hpre hfail
    cases K with
    | nil => simp at hhead
    | cons a K' =>
      have ha : a = 97 := by simpa using hhead
      subst ha
      simp only [List.cons_append] at hpre hfail ⊢
      have hpre2 : (bytes "argc").isPrefixOf (97 :: (K' ++ 61 :: V)) = false := by
        revert hpre
        cases (bytes "argc").isPrefixOf (97 :: (K' ++ 61 :: V)) <;> simp
      have hhdr := header_execve (K' ++ 61 :: V)
      have hkv : parse_kv p MessageType.EXECVE (97 :: (K' ++ 61 :: V)) = none := by
        simp only [parse_kv, parse_kv_key]
        rw [if_pos (by simp [MessageType.EXECVE, hpre2])]
        rw [hfail]
      have hspec : parse_body_special MessageType.EXECVE (97 :: (K' ++ 61 :: V)) =
          some (97 :: (K' ++ 61 :: V), Option.none) := by
        rfl
      have hterm1 : term_plain (97 :: (K' ++ 61 :: V)) = none := rfl
      have hterm2 : term_enriched (97 :: (K' ++ 61 :: V)) = none := rfl
      have hbody : parse_body p MessageType.EXECVE (97 :: (K' ++ 61 :: V)) = none := by
        simp only [parse_body, hspec]
        cases he : p.enriched
        · simp only [he, Bool.false_eq_true, if_false, psepList0, hkv, pleft,
            pmap, pseq, hterm1, Option.map]
        · simp only [he, if_true, psepList0, hkv, pleft, pmap, pseq, hterm2,
            Option.map]
      simp only [Parser.parse, hhdr, hbody]
  · intro ty K V c0 hne hns hhead halpha hall
    have hkt := key_text_complete K (61 :: V) c0 hhead halpha hall
      (by intro c h; simp at h; rw [← h]; decide)
    simp only [parse_kv_key]
    rw [if_neg (by simp [MessageType.EXECVE]; intro h; exact absurd h hne)]
    rw [if_neg (by simp [MessageType.SYSCALL]; exact hns)]
    simp only [pleft, pmap, pseq, parse_key, hkt, ptag, tagAux, pmap, Option.map]
    rfl

/-- C10 witness: the amended theorem applied to the EXECVE key `ax`
(rejected, failing the whole line) and to the same key in a PATH record
(accepted as a general name key). -/
theorem execve_key_amended_witness :
    Parser.parse ⟨true, true⟩
      (bytes "type=EXECVE msg=audit(1.000:1): " ++ (bytes "ax" ++ 61 :: [49])) =
      .error (.malformedBody (bytes "ax" ++ 61 :: [49])) ∧
    parse_kv_key MessageType.PATH (bytes "ax" ++ 61 :: [49]) =
      some ([49], Key.name (bytes "ax")) := by
  constructor
  · exact execve_key_amended.2.1 ⟨true, true⟩ (bytes "ax") [49] (by decide)
      (by decide) (by rfl)
  · have h := execve_key_amended.2.2 MessageType.PATH (bytes "ax") [49] 97
      (by decide) (by decide) (by decide) (by decide) (by decide)
    simpa using h

/-! ### C8: EventID display round-trip -/

theorem splitOnce_eq (c : Nat) (a b : List Nat) (h : ∀ x ∈ a, x ≠ c) :
    splitOnce c (a ++ c :: b) = some (a, b) := by
  induction a with
  | nil => simp [splitOnce]
  | cons x r ih =>
    have hx : x ≠ c := h x (by simp)
    simp only [List.cons_append, splitOnce, if_neg hx]
    rw [show r.append (c :: b) = r ++ c :: b from rfl,
      ih (fun y hy => h y (by simp [hy]))]
    rfl

theorem digitsToNat_replicate_zeros (k : Nat) (ds : List Nat) :
    digitsToNat (List.replicate k 48 ++ ds) = digitsToNat ds := by
  induction k with
  | zero => simp
  | succ n ih =>
    simp only [List.replicate_succ, List.cons_append, digitsToNat, List.foldl_cons]
    simpa [digitsToNat] using ih

theorem pad3_digits (ds : List Nat) (h : ∀ c ∈ ds, is_digit c = true) :
    ∀ c ∈ pad3 ds, is_digit c = true := by
  intro c hc
  simp only [pad3] at hc
  by_cases hl : ds.length < 3
  · rw [if_pos hl] at hc
    rcases List.mem_append.mp hc with h1 | h1
    · have := List.eq_of_mem_replicate h1
      simp [this, is_digit]
    · exact h c h1
  · rw [if_neg hl] at hc
    exact h c hc

theorem digitsToNat_pad3 (ds : List Nat) :
    digitsToNat (pad3 ds) = digitsToNat ds := by
  simp only [pad3]
  by_cases hl : ds.length < 3
  · rw [if_pos hl, digitsToNat_replicate_zeros]
  · rw [if_neg hl]

theorem rustDecU_digits (bound : Nat) (s : List Nat) (hne : s ≠ [])
    (hd : ∀ c ∈ s, is_digit c = true) (hb : digitsToNat s < bound) :
    rustDecU bound s = some (digitsToNat s) := by
  cases s with
  | nil => exact absurd rfl hne
  | cons c r =>
    have hc : is_digit c = true := hd c (by simp)
    have hc43 : c ≠ 43 := by
      simp [is_digit] at hc
      omega
    have hmatch : (match (c :: r : List Nat) with
        | 43 :: r => r | _ => (c :: r : List Nat)) = c :: r := by
      split
      · rename_i heq
        exfalso
        apply hc43
        injection heq with h1 _
      · rfl
    simp only [rustDecU, hmatch]
    rw [if_pos]
    refine ⟨by simp, ?_, hb⟩
    simpa [List.all_eq_true] using hd

/-- C8: for every EventID — any 64-bit millisecond timestamp and 32-bit
sequence number — parsing the display form (seconds, dot, zero-padded
milliseconds, colon, sequence) recovers the identical EventID. -/
theorem eventid_roundtrip (t q : Nat) (ht : t < 2 ^ 64) (hq : q < 2 ^ 32) :
    eventIDFromStr (eventIDDisplay ⟨t, q⟩) = some ⟨t, q⟩ := by
  have hsecd := natDec_digits (t / 1000)
  have hmsecd := pad3_digits (natDec (t % 1000)) (natDec_digits (t % 1000))
  have hseqd := natDec_digits q
  have hshape : eventIDDisplay ⟨t, q⟩ =
      natDec (t / 1000) ++ 46 :: (pad3 (natDec (t % 1000)) ++ 58 :: natDec q) := by
    simp [eventIDDisplay, List.append_assoc]
  have h1 : splitOnce 46 (eventIDDisplay ⟨t, q⟩) =
      some (natDec (t / 1000), pad3 (natDec (t % 1000)) ++ 58 :: natDec q) := by
    rw [hshape]
    exact splitOnce_eq 46 _ _ (by
      intro x hx
      have := hsecd x hx
      simp [is_digit] at this
      omega)
  have h2 : splitOnce 58 (pad3 (natDec (t % 1000)) ++ 58 :: natDec q) =
      some (pad3 (natDec (t % 1000)), natDec q) :=
    splitOnce_eq 58 _ _ (by
      intro x hx
      have := hmsecd x hx
      simp [is_digit] at this
      omega)
  have hpadne : pad3 (natDec (t % 1000)) ≠ [] := by
    simp only [pad3]
    by_cases hl : (natDec (t % 1000)).length < 3
    · rw [if_pos hl]
      intro hcon
      rcases List.append_eq_nil.mp hcon with ⟨_, h2⟩
      exact natDec_ne_nil _ h2
    · rw [if_neg hl]
      exact natDec_ne_nil _
  have h3 := rustDecU_digits (2 ^ 64) (natDec (t / 1000)) (natDec_ne_nil _) hsecd
    (by rw [digitsToNat_natDec]; omega)
  have h4 := rustDecU_digits (2 ^ 64) (pad3 (natDec (t % 1000))) hpadne hmsecd
    (by rw [digitsToNat_pad3, digitsToNat_natDec]; omega)
  have h5 := rustDecU_digits (2 ^ 32) (natDec q) (natDec_ne_nil _) hseqd
    (by rw [digitsToNat_natDec]; omega)
  rw [digitsToNat_natDec] at h3 h5
  rw [digitsToNat_pad3, digitsToNat_natDec] at h4
  simp only [eventIDFromStr, h1, h2, h3, h4, h5]
  have : (t / 1000 * 1000 + t % 1000) % 2 ^ 64 = t := by
    have hdm : t / 1000 * 1000 + t % 1000 = t := by omega
    rw [hdm]
    omega
  rw [this]

/-- C8 witness: the round-trip theorem applied to the event id
`1615225617302:25836` from the repository's test data. -/
theorem eventid_roundtrip_witness :
    eventIDFromStr (eventIDDisplay ⟨1615225617302, 25836⟩) =
      some ⟨1615225617302, 25836⟩ :=
  eventid_roundtrip 1615225617302 25836 (by decide) (by decide)

/-! ### C7: MessageType display round-trip -/

theorem find_name_unique (tbl : List (List Nat × Nat))
    (hnames : tbl.Pairwise (fun a b => a.1 ≠ b.1)) (nm : List Nat) (n : Nat)
    (hmem : (nm, n) ∈ tbl) :
    tbl.find? (fun e => e.1 == nm) = some (nm, n) := by
  induction tbl with
  | nil => simp at hmem
  | cons p r ih =>
    rcases List.pairwise_cons.mp hnames with ⟨hp, hr⟩
    by_cases hpn : p.1 = nm
    · have hpeq : p = (nm, n) := by
        rcases List.mem_cons.mp hmem with h | h
        · exact h.symm
        · exact absurd hpn (by simpa using hp (nm, n) h)
      rw [List.find?_cons_of_pos _ (by simp [hpn]), hpeq]
    · have hmem' : (nm, n) ∈ r := by
        rcases List.mem_cons.mp hmem with h | h
        · exact absurd (by rw [← h]) hpn
        · exact h
      rw [List.find?_cons_of_neg _ (by simp [hpn])]
      exact ih hr hmem'

theorem alnum_not_bracket {c : Nat} (h : is_alphanumeric c = true ∨ c = 95) :
    c ≠ 91 := by
  rcases h with h | h
  · simp [is_alphanumeric, is_alpha, is_digit] at h
    omega
  · omega

/-- C7: over any name table with pairwise-distinct names made of
alphanumerics and underscores (as the build-generated table is), every
id present in the table renders as its symbolic name and parses back to
the same id, and every absent id below `2^32` renders as `UNKNOWN[n]`
and parses back to `n`. -/
theorem msgtype_roundtrip (tbl : List (List Nat × Nat))
    (hnames : tbl.Pairwise (fun a b => a.1 ≠ b.1))
    (halnum : ∀ e ∈ tbl, ∀ c ∈ e.1, is_alphanumeric c = true ∨ c = 95) :
    (∀ n nm, eventNamesGet tbl n = some nm →
      msgTypeDisplay tbl n = nm ∧ msgTypeFromStr tbl nm = some n) ∧
    (∀ n, n < 2 ^ 32 → eventNamesGet tbl n = none →
      msgTypeDisplay tbl n = bytes "UNKNOWN[" ++ natDec n ++ [93] ∧
      msgTypeFromStr tbl (msgTypeDisplay tbl n) = some n) := by
  constructor
  · intro n nm hget
    have hdisp : msgTypeDisplay tbl n = nm := by
      simp [msgTypeDisplay, hget]
    refine ⟨hdisp, ?_⟩
    obtain ⟨e, hfind⟩ : ∃ e, tbl.find? (fun e => e.2 == n) = some e := by
      simp only [eventNamesGet] at hget
      cases h : tbl.find? (fun e => e.2 == n) with
      | none => rw [h] at hget; simp at hget
      | some e => exact ⟨e, rfl⟩
    have hmem := List.mem_of_find?_eq_some hfind
    have hprop := List.find?_some hfind
    have he2 : e.2 = n := by simpa using hprop
    have he1 : e.1 = nm := by
      simp only [eventNamesGet, hfind] at hget
      simpa using hget
    have hmem2 : (nm, n) ∈ tbl := by
      have : e = (nm, n) := by
        cases e
        simp at he1 he2
        simp [he1, he2]
      rw [← this]
      exact hmem
    have hids : eventIdsGet tbl nm = some n := by
      simp [eventIdsGet, find_name_unique tbl hnames nm n hmem2]
    simp [msgTypeFromStr, hids]
  · intro n hn hget
    have hdisp : msgTypeDisplay tbl n = bytes "UNKNOWN[" ++ natDec n ++ [93] := by
      simp [msgTypeDisplay, hget]
    refine ⟨hdisp, ?_⟩
    rw [hdisp]
    have hids : eventIdsGet tbl (bytes "UNKNOWN[" ++ natDec n ++ [93]) = none := by
      simp only [eventIdsGet]
      rw [List.find?_eq_none.mpr]
      · simp
      · intro e he
        simp only [beq_eq_false_iff_ne, ne_eq, beq_iff_eq]
        intro hcon
        have h91 : (91 : Nat) ∈ e.1 := by
          rw [hcon]
          have : (91 : Nat) ∈ bytes "UNKNOWN[" := by decide
          exact List.mem_append.mpr (Or.inl (List.mem_append.mpr (Or.inl this)))
        exact alnum_not_bracket (halnum e he 91 h91) rfl
    have hstrip1 : stripPre (bytes "UNKNOWN[") (bytes "UNKNOWN[" ++ natDec n ++ [93]) =
        some (natDec n ++ [93]) := by
      simp only [stripPre, List.append_assoc]
      rw [if_pos]
      · rw [List.drop_left]
      · rw [List.isPrefixOf_iff_prefix]
        exact List.prefix_append _ _
    have hstrip2 : stripSuf [93] (natDec n ++ [93]) = some (natDec n) := by
      simp only [stripSuf]
      rw [if_pos]
      · have hl : (natDec n ++ [93]).length - ([93] : List Nat).length =
            (natDec n).length := by
          simp
        rw [hl, List.take_left]
      · rw [List.isSuffixOf_iff_suffix]
        exact List.suffix_append _ _
    have hdec := rustDecU_digits (2 ^ 32) (natDec n) (natDec_ne_nil _)
      (natDec_digits n) (by rw [digitsToNat_natDec]; omega)
    rw [digitsToNat_natDec] at hdec
    simp only [msgTypeFromStr, hids, hstrip1, hstrip2]
    exact hdec

/-- C7 witness: the round-trip theorem applied to the modelled event
table, at the known id of `SYSCALL` and at the unknown id 9999. -/
theorem msgtype_roundtrip_witness :
    msgTypeFromStr EVENT_TABLE (bytes "SYSCALL") = some 1300 ∧
    msgTypeDisplay EVENT_TABLE 9999 = bytes "UNKNOWN[" ++ natDec 9999 ++ [93] ∧
    msgTypeFromStr EVENT_TABLE (msgTypeDisplay EVENT_TABLE 9999) = some 9999 := by
  have h := msgtype_roundtrip EVENT_TABLE (by decide) (by decide)
  refine ⟨?_, (h.2 9999 (by decide) (by decide)).1, (h.2 9999 (by decide) (by decide)).2⟩
  have h2 := (h.1 1300 (bytes "SYSCALL") (by decide)).2
  exact h2

/-! ### C6: `split_msg` and single-quoted key=value sequences.

A well-formed single-quoted key=value sequence is modelled as a list of
entries, each a key with either a double-quoted value or a plain
unquoted word.  The constraints carve out exactly the shapes for which
the sub-map grammar of `parse_kv_sq_as_map` and the string grammar of
`parse_kv_sq` both recognize the entry unambiguously. -/

/-- One `key=value` entry of a single-quoted `msg` payload. -/
inductive MsgEntry where
  | dq (k v : List Nat)
  | plain (k v : List Nat)

/-- The byte rendering of one entry. -/
def msgEntryRender : MsgEntry → List Nat
  | .dq k v => k ++ 61 :: 34 :: (v ++ [34])
  | .plain k v => k ++ 61 :: v

/-- The space-separated rendering of an entry sequence. -/
def renderSeq : List MsgEntry → List Nat
  | [] => []
  | [e] => msgEntryRender e
  | e :: es => msgEntryRender e ++ 32 :: renderSeq es

/-- The key/value pair the sub-map parser produces for one entry. -/
def msgEntryKV : MsgEntry → Key × Value
  | .dq k v => (keyOfText k, .str v .double)
  | .plain k v => (keyOfText k, .str v .none)

/-- A well-formed key: non-empty, alphabetic head, key characters. -/
def key_okb (k : List Nat) : Bool :=
  (match k with | c :: _ => is_alpha c | [] => false) && k.all is_key_chr

/-- A well-formed plain value: non-empty safe bytes without quotes or
opening brace, not starting with two hex digits (which the encoded
recognizer would consume as a blob), nor with `(` or `?` (which the
`(null)`/`?` recognizer could touch). -/
def plain_okb (v : List Nat) : Bool :=
  !v.isEmpty &&
  v.all (fun c => is_safe_chr c && c != 34 && c != 39 && c != 123) &&
  (match v with
   | c1 :: c2 :: _ => !is_hex_digit c1 || !is_hex_digit c2
   | _ => true) &&
  (match v with
   | c :: _ => c != 40 && c != 63
   | [] => true)

/-- Well-formedness of one entry. -/
def entry_okb : MsgEntry → Bool
  | .dq k v => key_okb k && v.all is_safe_chr
  | .plain k v => key_okb k && plain_okb v

theorem key_okb_elim {k : List Nat} (h : key_okb k = true) :
    (∃ c k', k = c :: k' ∧ is_alpha c = true) ∧ ∀ c ∈ k, is_key_chr c = true := by
  simp only [key_okb, Bool.and_eq_true, List.all_eq_true] at h
  rcases h with ⟨h1, h2⟩
  cases k with
  | nil => simp at h1
  | cons c k' => exact ⟨⟨c, k', rfl, h1⟩, h2⟩

theorem plain_okb_elim {v : List Nat} (h : plain_okb v = true) :
    v ≠ [] ∧
    (∀ c ∈ v, is_safe_chr c = true ∧ c ≠ 34 ∧ c ≠ 39 ∧ c ≠ 123) ∧
    (∀ c1 c2 w, v = c1 :: c2 :: w → is_hex_digit c1 = false ∨ is_hex_digit c2 = false) ∧
    (∀ c w, v = c :: w → c ≠ 40 ∧ c ≠ 63) := by
  simp only [plain_okb, Bool.and_eq_true, List.all_eq_true] at h
  rcases h with ⟨⟨⟨hne, hall⟩, h2⟩, h3⟩
  refine ⟨by simpa using hne, ?_, ?_, ?_⟩
  · intro c hc
    have := hall c hc
    simp only [Bool.and_eq_true, bne_iff_ne, ne_eq] at this
    exact ⟨this.1.1.1, this.1.1.2, this.1.2, this.2⟩
  · intro c1 c2 w hv
    subst hv
    simp only [Bool.or_eq_true, Bool.not_eq_true'] at h2
    exact h2
  · intro c w hv
    subst hv
    simp only [Bool.and_eq_true, bne_iff_ne, ne_eq] at h3
    exact h3

/-- A safe character is neither space, GS, nor newline. -/
theorem safe_chr_facts {c : Nat} (h : is_safe_chr c = true) :
    c ≠ 32 ∧ is_sep c = false := by
  simp only [is_safe_chr, decide_eq_true_iff] at h
  constructor
  · omega
  · simp only [is_sep, decide_eq_false_iff_not]
    omega

theorem parse_key_complete (k t : List Nat) (hk : key_okb k = true)
    (ht : ∀ c, t.head? = some c → is_key_chr c = false) :
    parse_key (k ++ t) = some (t, keyOfText k) := by
  obtain ⟨⟨c, k', hk0, hca⟩, hall⟩ := key_okb_elim hk
  have h1 := key_text_complete k t c (by rw [hk0]; rfl) hca hall ht
  simp only [parse_key, pmap, h1, Option.map]

/-! ### C6: split_msg sub-map vs raw string -/

theorem ptag_cons (c : Nat) (u : List Nat) : ptag [c] (c :: u) = some (u, [c]) := by
  simp [ptag, tagAux]

theorem ptag_head_ne {c x : Nat} (h : c ≠ x) (ts u : List Nat) :
    ptag (c :: ts) (x :: u) = none := by
  simp [ptag, tagAux, h]

theorem pdelim_eval {α β γ : Type} (l : P α) (p : P β) (r : P γ)
    {i r1 r2 r3 : List Nat} {a : α} {b : β} {c : γ}
    (hl : l i = some (r1, a)) (hp : p r1 = some (r2, b))
    (hr : r r2 = some (r3, c)) :
    pdelim l p r i = some (r3, b) := by
  simp only [pdelim]
  exact pleft_eval _ _ (pright_eval _ _ hl hp) hr

/-- `parse_encoded` on a double-quoted safe string consumes exactly the
quoted part and yields `Str(..., Double)`. -/
theorem parse_encoded_dq (v t : List Nat) (hv : ∀ c ∈ v, is_safe_chr c = true) :
    parse_encoded (34 :: (v ++ 34 :: t)) = some (t, .str v .double) := by
  have hstop := takeWhile_append_stop is_safe_chr v (34 :: t) hv
    (by
      intro c h
      rw [List.head?_cons] at h
      injection h with h1
      rw [← h1]
      decide)
  have h1 : parse_str_dq_safe (34 :: (v ++ 34 :: t)) = some (t, v) := by
    refine pdelim_eval _ _ _ (ptag_cons 34 _) ?_ (ptag_cons 34 t)
    simp only [ptakeWhile, hstop.1, hstop.2]
  simp only [parse_encoded, palt3, palt, pmap, h1, Option.map]

/-- `parse_encoded` fails on a well-formed plain value followed by a
space or a quote: the quote branch, the hex-blob branch and the
`(null)`/`?` branch all fail at once. -/
theorem parse_encoded_plain_fails (v t : List Nat) (hv : plain_okb v = true)
    (ht : t.head? = some 32 ∨ t.head? = some 39) :
    parse_encoded (v ++ t) = none := by
  obtain ⟨hne, hall, hhex, hhead⟩ := plain_okb_elim hv
  obtain ⟨c, v', rfl⟩ := List.exists_cons_of_ne_nil hne
  have hc := hall c (by simp)
  have hth : ∀ c2, t.head? = some c2 → is_hex_digit c2 = false := by
    intro c2 h2
    rcases ht with h | h <;> rw [h] at h2 <;> injection h2 with h3 <;>
      rw [← h3] <;> decide
  have h1 : parse_str_dq_safe (c :: (v' ++ t)) = none := by
    have hl : ptag [34] (c :: (v' ++ t)) = none :=
      ptag_head_ne (fun h => hc.2.1 h.symm) [] _
    simp [parse_str_dq_safe, pdelim, pleft, pright, pmap, pseq, hl]
  have hrun := (takeWhile_append_keep is_hex_digit (c :: v') t hth).1
  have hlen : (((c :: v') ++ t).takeWhile is_hex_digit).length < 2 := by
    rw [hrun]
    cases v' with
    | nil =>
      rw [List.takeWhile_cons]
      cases hc1 : is_hex_digit c
      · rw [if_neg (by simp [hc1])]
        simp
      · rw [if_pos (by simp [hc1])]
        simp
    | cons c2 w =>
      rcases hhex c c2 w rfl with h | h
      · rw [List.takeWhile_cons, if_neg (by simp [h])]
        simp
      · rw [List.takeWhile_cons]
        cases hc1 : is_hex_digit c
        · rw [if_neg (by simp [hc1])]
          simp
        · rw [if_pos (by simp [hc1]), List.takeWhile_cons, if_neg (by simp [h])]
          simp
  have hMN : ptakeWhileMN 2 2 is_hex_digit ((c :: v') ++ t) = none := by
    simp only [ptakeWhileMN]
    rw [if_pos (by simp only [List.length_take]; omega)]
  have h2 : pmany1Count (ptakeWhileMN 2 2 is_hex_digit) (c :: (v' ++ t)) = none := by
    rw [← List.cons_append]
    simp only [pmany1Count, hMN]
  have hd := hhead c v' rfl
  have h3a : ptag (bytes "(null)") (c :: (v' ++ t)) = none := by
    rw [show bytes "(null)" = 40 :: [110, 117, 108, 108, 41] from rfl]
    exact ptag_head_ne (fun h => hd.1 h.symm) _ _
  have h3b : ptag (bytes "?") (c :: (v' ++ t)) = none := by
    rw [show bytes "?" = 63 :: [] from rfl]
    exact ptag_head_ne (fun h => hd.2 h.symm) _ _
  have hb1 : pmap (fun s => Value.str s Quote.double) parse_str_dq_safe
      (c :: (v' ++ t)) = none := by
    simp [pmap, h1]
  have hb2 : pleft
      (pmap (fun s => Value.owned (hexPairsDecode s))
        (precognize (pmany1Count (ptakeWhileMN 2 2 is_hex_digit))))
      (ppeek (ptakeWhile1 is_sep)) (c :: (v' ++ t)) = none := by
    simp [pleft, pmap, pseq, precognize, h2]
  have hb3 : pleft
      (pvalue Value.empty (palt (ptag (bytes "(null)")) (ptag (bytes "?"))))
      (ppeek (ptakeWhile1 is_sep)) (c :: (v' ++ t)) = none := by
    simp [pleft, pvalue, pmap, pseq, palt, h3a, h3b]
  simp only [List.cons_append]
  simp only [parse_encoded, palt3, palt, hb1, hb2, hb3]

/-- The word scanner of `parse_str_words_inside_sq` consumes a value
without quotes or spaces up to a tail that satisfies its break
condition (a quote, or space-key-equals). -/
theorem words_complete (v t : List Nat)
    (hv : ∀ c ∈ v, c ≠ 39 ∧ c ≠ 32)
    (hth : t.head? = some 32 ∨ t.head? = some 39)
    (hbreak : (palt (precognize (pseq space1 (pseq parse_key (ptag [61]))))
      (ptag [39]) t).isSome = true) :
    parse_str_words_inside_sq (v ++ t) = some (t, v) := by
  have hstop : (v ++ t).dropWhile (fun c => !(c == 39 || c == 32)) = t := by
    refine (takeWhile_append_stop (fun c => !(c == 39 || c == 32)) v t ?_ ?_).2
    · intro c h
      simp [(hv c h).1, (hv c h).2]
    · intro c h
      rcases hth with h1 | h1 <;> rw [h1] at h <;> injection h with h2 <;>
        rw [← h2] <;> rfl
  obtain ⟨x, hx⟩ := Option.isSome_iff_exists.mp hbreak
  have haux : wordsSqAux ((v ++ t).length + 1) (v ++ t) = some t := by
    simp only [wordsSqAux, hstop, hx]
  simp only [parse_str_words_inside_sq, haux]
  have hlen : (v ++ t).length - t.length = v.length := by
    simp only [List.length_append]
    omega
  rw [hlen, List.take_left]

/-- One sub-map entry parses to exactly its key/value pair, leaving the
tail, whenever the tail starts with a space or quote and satisfies the
word-scanner break condition. -/
theorem msg_elem_eval (e : MsgEntry) (t : List Nat) (he : entry_okb e = true)
    (hth : t.head? = some 32 ∨ t.head? = some 39)
    (hbreak : (palt (precognize (pseq space1 (pseq parse_key (ptag [61]))))
      (ptag [39]) t).isSome = true) :
    msg_elem (msgEntryRender e ++ t) = some (t, msgEntryKV e) := by
  cases e with
  | dq k v =>
    simp only [entry_okb, Bool.and_eq_true, List.all_eq_true] at he
    obtain ⟨hk, hvsafe⟩ := he
    have hshape : msgEntryRender (.dq k v) ++ t = k ++ 61 :: (34 :: (v ++ 34 :: t)) := by
      simp [msgEntryRender, List.append_assoc]
    rw [hshape]
    have hkey : parse_key (k ++ 61 :: (34 :: (v ++ 34 :: t))) =
        some (61 :: (34 :: (v ++ 34 :: t)), keyOfText k) :=
      parse_key_complete k _ hk
        (by
          intro c h
          rw [List.head?_cons] at h
          injection h with h1
          rw [← h1]
          decide)
    have htag : palt (ptag [61]) (precognize (pseq (ptag [58]) space0))
        (61 :: (34 :: (v ++ 34 :: t))) = some (34 :: (v ++ 34 :: t), [61]) := by
      simp only [palt, ptag_cons 61]
    have henc := parse_encoded_dq v t hvsafe
    have hval : palt3 parse_encoded
        (pmap (fun v => Value.str v .none) parse_str_words_inside_sq)
        (pmap (fun v => Value.str v .none) parse_str_unq_inside_sq)
        (34 :: (v ++ 34 :: t)) = some (t, Value.str v .double) := by
      simp only [palt3, palt, henc]
    simp only [msg_elem, msgEntryKV]
    exact pseq_eval _ _ (pleft_eval _ _ hkey htag) hval
  | plain k v =>
    simp only [entry_okb, Bool.and_eq_true] at he
    obtain ⟨hk, hpv⟩ := he
    have hshape : msgEntryRender (.plain k v) ++ t = k ++ 61 :: (v ++ t) := by
      simp [msgEntryRender, List.append_assoc]
    rw [hshape]
    have hkey : parse_key (k ++ 61 :: (v ++ t)) =
        some (61 :: (v ++ t), keyOfText k) :=
      parse_key_complete k _ hk
        (by
          intro c h
          rw [List.head?_cons] at h
          injection h with h1
          rw [← h1]
          decide)
    have htag : palt (ptag [61]) (precognize (pseq (ptag [58]) space0))
        (61 :: (v ++ t)) = some (v ++ t, [61]) := by
      simp only [palt, ptag_cons 61]
    have hfail := parse_encoded_plain_fails v t hpv hth
    have hwords : parse_str_words_inside_sq (v ++ t) = some (t, v) := by
      refine words_complete v t ?_ hth hbreak
      intro c hc
      have := (plain_okb_elim hpv).2.1 c hc
      exact ⟨this.2.2.1, (safe_chr_facts this.1).1⟩
    have hval : palt3 parse_encoded
        (pmap (fun v => Value.str v .none) parse_str_words_inside_sq)
        (pmap (fun v => Value.str v .none) parse_str_unq_inside_sq)
        (v ++ t) = some (t, Value.str v .none) := by
      simp only [palt3, palt, hfail, pmap, hwords, Option.map]
    simp only [msg_elem, msgEntryKV]
    exact pseq_eval _ _ (pleft_eval _ _ hkey htag) hval


/-- Proof gadget: the bytes following the first entry of a sub-map
sequence, up to and including the closing single quote. -/
def midSeq : List MsgEntry → List Nat → List Nat
  | [], rest => 39 :: rest
  | e :: es, rest => 32 :: (msgEntryRender e ++ midSeq es rest)

theorem renderSeq_cons_mid : ∀ (es : List MsgEntry) (e : MsgEntry) (rest : List Nat),
    renderSeq (e :: es) ++ 39 :: rest = msgEntryRender e ++ midSeq es rest := by
  intro es
  induction es with
  | nil =>
    intro e rest
    simp [renderSeq, midSeq]
  | cons e2 es2 ih =>
    intro e rest
    rw [show renderSeq (e :: e2 :: es2) = msgEntryRender e ++ 32 :: renderSeq (e2 :: es2) from rfl]
    rw [List.append_assoc]
    rw [show (32 :: renderSeq (e2 :: es2)) ++ 39 :: rest = 32 :: (renderSeq (e2 :: es2) ++ 39 :: rest) from rfl]
    rw [ih e2 rest]
    rfl

theorem entry_render_decomp (e : MsgEntry) (he : entry_okb e = true) :
    ∃ c k u, msgEntryRender e = (c :: k) ++ 61 :: u ∧ key_okb (c :: k) = true ∧
      is_alpha c = true := by
  cases e with
  | dq k v =>
    simp only [entry_okb, Bool.and_eq_true] at he
    obtain ⟨⟨c, k1, hk0, hca⟩, _⟩ := key_okb_elim he.1
    subst hk0
    exact ⟨c, k1, 34 :: (v ++ [34]), rfl, he.1, hca⟩
  | plain k v =>
    simp only [entry_okb, Bool.and_eq_true] at he
    obtain ⟨⟨c, k1, hk0, hca⟩, _⟩ := key_okb_elim he.1
    subst hk0
    exact ⟨c, k1, v, rfl, he.1, hca⟩

theorem midSeq_head (es : List MsgEntry) (rest : List Nat) :
    (midSeq es rest).head? = some 32 ∨ (midSeq es rest).head? = some 39 := by
  cases es with
  | nil => right; rfl
  | cons e es2 => left; rfl

theorem alpha_not_space {c : Nat} (h : is_alpha c = true) : is_space_chr c = false := by
  simp only [is_alpha, decide_eq_true_iff] at h
  simp only [is_space_chr, decide_eq_false_iff_not]
  omega

theorem space1_cons_notspace (X : List Nat) (c0 : Nat) (hX : X.head? = some c0)
    (hc : is_space_chr c0 = false) :
    space1 (32 :: X) = some (X, [32]) := by
  have hsr := takeWhile_append_stop is_space_chr [32] X
    (by
      intro x hx
      simp at hx
      rw [hx]
      rfl)
    (by
      intro x hx
      rw [hX] at hx
      injection hx with h1
      rw [← h1]
      exact hc)
  simp only [List.cons_append, List.nil_append] at hsr
  simp only [space1, ptakeWhile1, hsr.1, hsr.2]
  rfl

theorem render_head (e : MsgEntry) (he : entry_okb e = true) (M : List Nat) :
    ∃ c0, (msgEntryRender e ++ M).head? = some c0 ∧ is_alpha c0 = true := by
  obtain ⟨c, k, u, hre, _, hca⟩ := entry_render_decomp e he
  refine ⟨c, ?_, hca⟩
  rw [hre]
  rfl

theorem space1_mid (e : MsgEntry) (he : entry_okb e = true) (M : List Nat) :
    space1 (32 :: (msgEntryRender e ++ M)) = some (msgEntryRender e ++ M, [32]) := by
  obtain ⟨c0, hh, hca⟩ := render_head e he M
  exact space1_cons_notspace _ c0 hh (alpha_not_space hca)

theorem mid_chain_some (e : MsgEntry) (he : entry_okb e = true) (M : List Nat) :
    ∃ r v, pseq space1 (pseq parse_key (ptag [61]))
      (32 :: (msgEntryRender e ++ M)) = some (r, v) := by
  obtain ⟨c, k, u, hre, hkok, hca⟩ := entry_render_decomp e he
  have hform : msgEntryRender e ++ M = (c :: k) ++ 61 :: (u ++ M) := by
    rw [hre]
    simp [List.append_assoc]
  have hs := space1_mid e he M
  rw [hform] at hs
  have hkey : parse_key ((c :: k) ++ 61 :: (u ++ M)) =
      some (61 :: (u ++ M), keyOfText (c :: k)) :=
    parse_key_complete _ _ hkok
      (by
        intro x hx
        rw [List.head?_cons] at hx
        injection hx with h1
        rw [← h1]
        decide)
  rw [hform]
  exact ⟨u ++ M, ([32], (keyOfText (c :: k), [61])),
    pseq_eval _ _ hs (pseq_eval _ _ hkey (ptag_cons 61 _))⟩

theorem midSeq_break (es : List MsgEntry) (rest : List Nat)
    (hes : ∀ x ∈ es, entry_okb x = true) :
    (palt (precognize (pseq space1 (pseq parse_key (ptag [61]))))
      (ptag [39]) (midSeq es rest)).isSome = true := by
  cases es with
  | nil =>
    have h39 : is_space_chr 39 = false := rfl
    have hs : space1 (39 :: rest) = none := by
      simp [space1, ptakeWhile1, List.takeWhile_cons, h39]
    rw [show midSeq [] rest = 39 :: rest from rfl]
    simp [palt, precognize, pseq, hs, ptag_cons]
  | cons e es2 =>
    obtain ⟨r, v, hch⟩ := mid_chain_some e (hes e (by simp)) (midSeq es2 rest)
    rw [show midSeq (e :: es2) rest = 32 :: (msgEntryRender e ++ midSeq es2 rest) from rfl]
    simp [palt, precognize, hch]

theorem asMap_aux (rest : List Nat) :
    ∀ (es : List MsgEntry) (acc : List (Key × Value)) (fuel : Nat),
    (∀ x ∈ es, entry_okb x = true) → (midSeq es rest).length < fuel →
    sepList0Aux space1 msg_elem fuel (midSeq es rest) acc =
      some (39 :: rest, acc.reverse ++ es.map msgEntryKV) := by
  intro es
  induction es with
  | nil =>
    intro acc fuel hok hfuel
    match fuel, hfuel with
    | fuel + 1, _ =>
      have h39 : is_space_chr 39 = false := rfl
      have hs : space1 (39 :: rest) = none := by
        simp [space1, ptakeWhile1, List.takeWhile_cons, h39]
      rw [show midSeq [] rest = 39 :: rest from rfl]
      simp [sepList0Aux, hs]
  | cons e es2 ih =>
    intro acc fuel hok hfuel
    match fuel, hfuel with
    | fuel + 1, hfuel =>
      have hok_e : entry_okb e = true := hok e (by simp)
      have hok2 : ∀ x ∈ es2, entry_okb x = true := fun x hx => hok x (by simp [hx])
      have hs := space1_mid e hok_e (midSeq es2 rest)
      have helem : msg_elem (msgEntryRender e ++ midSeq es2 rest) =
          some (midSeq es2 rest, msgEntryKV e) :=
        msg_elem_eval e _ hok_e (midSeq_head es2 rest) (midSeq_break es2 rest hok2)
      have hlt : (midSeq es2 rest).length < fuel := by
        rw [show midSeq (e :: es2) rest = 32 :: (msgEntryRender e ++ midSeq es2 rest) from rfl] at hfuel
        simp only [List.length_cons, List.length_append] at hfuel
        omega
      have hrec := ih (msgEntryKV e :: acc) fuel hok2 hlt
      rw [show midSeq (e :: es2) rest = 32 :: (msgEntryRender e ++ midSeq es2 rest) from rfl]
      simp only [sepList0Aux, hs]
      rw [if_neg (by simp only [List.length_cons]; omega)]
      simp only [helem, hrec]
      simp

theorem asMap_full (es : List MsgEntry) (rest : List Nat)
    (hes : ∀ x ∈ es, entry_okb x = true) :
    parse_kv_sq_as_map (39 :: (renderSeq es ++ 39 :: rest)) =
      some (rest, .map (es.map msgEntryKV)) := by
  have hinner : psepList0 space1 msg_elem (renderSeq es ++ 39 :: rest) =
      some (39 :: rest, es.map msgEntryKV) := by
    cases es with
    | nil =>
      have ha : alpha1 (39 :: rest) = none := by
        have h39 : is_alpha 39 = false := rfl
        simp [alpha1, ptakeWhile1, List.takeWhile_cons, h39]
      have hkfail : parse_key (39 :: rest) = none := by
        simp [parse_key, pmap, key_text, precognize, pseq, ha]
      have hfail : msg_elem (39 :: rest) = none := by
        simp [msg_elem, pseq, pleft, pmap, hkfail]
      rw [show renderSeq [] ++ 39 :: rest = 39 :: rest from rfl]
      simp [psepList0, hfail]
    | cons e es2 =>
      rw [renderSeq_cons_mid es2 e rest]
      have helem : msg_elem (msgEntryRender e ++ midSeq es2 rest) =
          some (midSeq es2 rest, msgEntryKV e) :=
        msg_elem_eval e _ (hes e (by simp)) (midSeq_head es2 rest)
          (midSeq_break es2 rest (fun x hx => hes x (by simp [hx])))
      have haux := asMap_aux rest es2 [msgEntryKV e] ((midSeq es2 rest).length + 1)
        (fun x hx => hes x (by simp [hx])) (by omega)
      simp only [psepList0, helem, haux]
      simp
  have hdelim := pdelim_eval (ptag [39]) (psepList0 space1 msg_elem) (ptag [39])
    (ptag_cons 39 _) hinner (ptag_cons 39 rest)
  simp only [parse_kv_sq_as_map, pmap, hdelim, Option.map]


theorem pdelim_left_none {α β γ : Type} (l : P α) (p : P β) (r : P γ)
    {i : List Nat} (hl : l i = none) : pdelim l p r i = none := by
  simp [pdelim, pleft, pright, pmap, pseq, hl]

theorem safe_ne_34 {c : Nat} (h34 : c ≠ 34) : (c != 34) = true := by
  simp [bne_iff_ne, h34]

/-- One `parse_kv_sq` entry recognizes exactly the rendered entry,
leaving a tail headed by a space or quote. -/
theorem sq_elem_eval (e : MsgEntry) (t : List Nat) (he : entry_okb e = true)
    (hth : t.head? = some 32 ∨ t.head? = some 39) :
    ∃ w, sq_elem (msgEntryRender e ++ t) = some (t, w) := by
  have hth2 : ∀ x, t.head? = some x → x = 32 ∨ x = 39 := by
    intro x hx
    rcases hth with h | h <;> rw [h] at hx <;> injection hx with h1 <;>
      [exact Or.inl h1.symm; exact Or.inr h1.symm]
  cases e with
  | dq k v =>
    simp only [entry_okb, Bool.and_eq_true, List.all_eq_true] at he
    obtain ⟨hk, hvsafe⟩ := he
    obtain ⟨⟨c, k1, hk0, hca⟩, hall⟩ := key_okb_elim hk
    have hshape : msgEntryRender (.dq k v) ++ t = k ++ 61 :: (34 :: (v ++ 34 :: t)) := by
      simp [msgEntryRender, List.append_assoc]
    rw [hshape]
    have hkey : key_text (k ++ 61 :: (34 :: (v ++ 34 :: t))) =
        some (61 :: (34 :: (v ++ 34 :: t)), k) :=
      key_text_complete k _ c (by rw [hk0]; rfl) hca hall
        (by
          intro x hx
          rw [List.head?_cons] at hx
          injection hx with h1
          rw [← h1]
          decide)
    have hcontent := takeWhile_append_stop (fun c => c != 34) v (34 :: t)
      (by
        intro x hx
        have := hvsafe x hx
        refine safe_ne_34 ?_
        intro h34
        rw [h34] at this
        exact absurd this (by decide))
      (by
        intro x hx
        rw [List.head?_cons] at hx
        injection hx with h1
        rw [← h1]
        rfl)
    have hdq : parse_str_dq (34 :: (v ++ 34 :: t)) = some (t, v) := by
      refine pdelim_eval _ _ _ (ptag_cons 34 _) ?_ (ptag_cons 34 t)
      simp only [ptakeWhile, hcontent.1, hcontent.2]
    have hval : palt3 parse_str_dq parse_str_braced parse_str_unq_inside_sq
        (34 :: (v ++ 34 :: t)) = some (t, v) := by
      simp only [palt3, palt, hdq]
    exact ⟨(k, ([61], v)), pseq_eval _ _ hkey (pseq_eval _ _ (ptag_cons 61 _) hval)⟩
  | plain k v =>
    simp only [entry_okb, Bool.and_eq_true] at he
    obtain ⟨hk, hpv⟩ := he
    obtain ⟨⟨c, k1, hk0, hca⟩, hall⟩ := key_okb_elim hk
    obtain ⟨hne, hvall, hhex, hhead⟩ := plain_okb_elim hpv
    obtain ⟨c0, v1, rfl⟩ := List.exists_cons_of_ne_nil hne
    have hc0 := hvall c0 (by simp)
    have hshape : msgEntryRender (.plain k (c0 :: v1)) ++ t =
        k ++ 61 :: (c0 :: (v1 ++ t)) := by
      simp [msgEntryRender, List.append_assoc]
    rw [hshape]
    have hkey : key_text (k ++ 61 :: (c0 :: (v1 ++ t))) =
        some (61 :: (c0 :: (v1 ++ t)), k) :=
      key_text_complete k _ c (by rw [hk0]; rfl) hca hall
        (by
          intro x hx
          rw [List.head?_cons] at hx
          injection hx with h1
          rw [← h1]
          decide)
    have hb1 : parse_str_dq (c0 :: (v1 ++ t)) = none :=
      pdelim_left_none _ _ _ (ptag_head_ne (fun h => hc0.2.1 h.symm) [] _)
    have hb2 : parse_str_braced (c0 :: (v1 ++ t)) = none :=
      pdelim_left_none _ _ _ (ptag_head_ne (fun h => hc0.2.2.2 h.symm) [32] _)
    have hstop := takeWhile_append_stop (fun c => is_safe_chr c && c != 39)
      (c0 :: v1) t
      (by
        intro x hx
        have := hvall x hx
        simp [this.1, bne_iff_ne, this.2.2.1])
      (by
        intro x hx
        rcases hth2 x hx with h | h <;> rw [h] <;> rfl)
    have hb3 : parse_str_unq_inside_sq ((c0 :: v1) ++ t) = some (t, c0 :: v1) := by
      simp only [parse_str_unq_inside_sq, ptakeWhile, hstop.1, hstop.2]
    have hval : palt3 parse_str_dq parse_str_braced parse_str_unq_inside_sq
        (c0 :: (v1 ++ t)) = some (t, c0 :: v1) := by
      rw [← List.cons_append]
      simp only [palt3, palt]
      rw [← List.cons_append] at hb1 hb2
      simp only [hb1, hb2, hb3]
    exact ⟨(k, ([61], c0 :: v1)), pseq_eval _ _ hkey (pseq_eval _ _ (ptag_cons 61 _) hval)⟩

theorem sq_aux (rest : List Nat) :
    ∀ (es : List MsgEntry) (acc : List (List Nat × List Nat × List Nat)) (fuel : Nat),
    (∀ x ∈ es, entry_okb x = true) → (midSeq es rest).length < fuel →
    ∃ l, sepList0Aux (ptag [32]) sq_elem fuel (midSeq es rest) acc =
      some (39 :: rest, l) := by
  intro es
  induction es with
  | nil =>
    intro acc fuel hok hfuel
    match fuel, hfuel with
    | fuel + 1, _ =>
      have hs : ptag [32] (39 :: rest) = none := ptag_head_ne (by decide) [] rest
      rw [show midSeq [] rest = 39 :: rest from rfl]
      exact ⟨acc.reverse, by simp [sepList0Aux, hs]⟩
  | cons e es2 ih =>
    intro acc fuel hok hfuel
    match fuel, hfuel with
    | fuel + 1, hfuel =>
      have hok_e : entry_okb e = true := hok e (by simp)
      have hok2 : ∀ x ∈ es2, entry_okb x = true := fun x hx => hok x (by simp [hx])
      obtain ⟨w, helem⟩ := sq_elem_eval e (midSeq es2 rest) hok_e (midSeq_head es2 rest)
      have hlt : (midSeq es2 rest).length < fuel := by
        rw [show midSeq (e :: es2) rest = 32 :: (msgEntryRender e ++ midSeq es2 rest) from rfl] at hfuel
        simp only [List.length_cons, List.length_append] at hfuel
        omega
      obtain ⟨l, hrec⟩ := ih (w :: acc) fuel hok2 hlt
      refine ⟨l, ?_⟩
      rw [show midSeq (e :: es2) rest = 32 :: (msgEntryRender e ++ midSeq es2 rest) from rfl]
      simp only [sepList0Aux, ptag_cons 32]
      rw [if_neg (by simp only [List.length_cons]; omega)]
      simp only [helem, hrec]

/-- `parse_kv_sq` recognizes a whole quoted entry sequence and returns
its raw bytes. -/
theorem kv_sq_full (es : List MsgEntry) (rest : List Nat)
    (hes : ∀ x ∈ es, entry_okb x = true) :
    parse_kv_sq (39 :: (renderSeq es ++ 39 :: rest)) = some (rest, renderSeq es) := by
  have hinner : ∃ l, psepList0 (ptag [32]) sq_elem (renderSeq es ++ 39 :: rest) =
      some (39 :: rest, l) := by
    cases es with
    | nil =>
      have ha : alpha1 (39 :: rest) = none := by
        have h39 : is_alpha 39 = false := rfl
        simp [alpha1, ptakeWhile1, List.takeWhile_cons, h39]
      have hkfail : key_text (39 :: rest) = none := by
        simp [key_text, precognize, pseq, ha]
      have hfail : sq_elem (39 :: rest) = none := by
        simp [sq_elem, pseq, hkfail]
      rw [show renderSeq [] ++ 39 :: rest = 39 :: rest from rfl]
      exact ⟨[], by simp [psepList0, hfail]⟩
    | cons e es2 =>
      rw [renderSeq_cons_mid es2 e rest]
      obtain ⟨w, helem⟩ := sq_elem_eval e (midSeq es2 rest)
        (hes e (by simp)) (midSeq_head es2 rest)
      obtain ⟨l, haux⟩ := sq_aux rest es2 [w] ((midSeq es2 rest).length + 1)
        (fun x hx => hes x (by simp [hx])) (by omega)
      exact ⟨l, by simp only [psepList0, helem, haux]⟩
  obtain ⟨l, hl⟩ := hinner
  have hrec : precognize (psepList0 (ptag [32]) sq_elem)
      (renderSeq es ++ 39 :: rest) = some (39 :: rest, renderSeq es) := by
    simp only [precognize, hl]
    have hlen : (renderSeq es ++ 39 :: rest).length - (39 :: rest).length =
        (renderSeq es).length := by
      simp only [List.length_append]
      omega
    rw [hlen, List.take_left]
  exact pdelim_eval _ _ _ (ptag_cons 39 _) hrec (ptag_cons 39 rest)

/-- `parse_encoded` fails on a single-quote-headed input. -/
theorem parse_encoded_sq_fails (rest : List Nat) :
    parse_encoded (39 :: rest) = none := by
  have h1 : parse_str_dq_safe (39 :: rest) = none :=
    pdelim_left_none _ _ _ (ptag_head_ne (by decide) [] rest)
  have hMN : ptakeWhileMN 2 2 is_hex_digit (39 :: rest) = none := by
    simp only [ptakeWhileMN]
    rw [if_pos]
    have h39 : is_hex_digit 39 = false := rfl
    rw [List.takeWhile_cons, if_neg (by simp [h39])]
    simp
  have h2 : pmany1Count (ptakeWhileMN 2 2 is_hex_digit) (39 :: rest) = none := by
    simp only [pmany1Count, hMN]
  have h3a : ptag (bytes "(null)") (39 :: rest) = none := by
    rw [show bytes "(null)" = 40 :: [110, 117, 108, 108, 41] from rfl]
    exact ptag_head_ne (by decide) _ _
  have h3b : ptag (bytes "?") (39 :: rest) = none := by
    rw [show bytes "?" = 63 :: [] from rfl]
    exact ptag_head_ne (by decide) _ _
  simp [parse_encoded, palt3, palt, pmap, pleft, pvalue, pseq, precognize,
    h1, h2, h3a, h3b]


/-- The `parse_unspec_value` fallback for key `msg` on a single-quoted
entry sequence: the salvage branches and the unquoted branch fail, the
single-quoted branch returns the raw bytes as `Str(..., Single)`. -/
theorem unspec_msg_sq (ty : MessageType) (es : List MsgEntry) (rest : List Nat)
    (hes : ∀ x ∈ es, entry_okb x = true) :
    parse_unspec_value ty (bytes "msg") (39 :: (renderSeq es ++ 39 :: rest)) =
      some (rest, .str (renderSeq es) .single) := by
  have h1 : ((bytes "msg") == bytes "subj") = false := by decide
  have h2 : ((bytes "msg") == bytes "info") = false := by decide
  have h3 : ((bytes "msg") == bytes "SADDR") = false := by decide
  have hfirst : parse_unspec_first (39 :: (renderSeq es ++ 39 :: rest)) = none := by
    have h39 : is_safe_unquoted_chr 39 = false := rfl
    simp [parse_unspec_first, pleft, pmap, pseq, ptakeWhile1, List.takeWhile_cons, h39]
  have hkv := kv_sq_full es rest hes
  simp only [parse_unspec_value, h1, h2, h3, Bool.and_false, psalvage,
    Bool.false_eq_true, if_false]
  simp only [palt, hfirst, pmap, hkv, Option.map]

/-- C6: with `split_msg = true`, the single-quoted key=value sequence in
the `msg` field parses into `Map` of its entries (double-quoted values
via the encoded branch, plain values via the word scanner); with
`split_msg = false`, the same input stays a single string value
(`Str(..., Single)` via the generic single-quoted fallback) instead of a
`Map`. -/
theorem split_msg_map_vs_str (enr : Bool) (ty : MessageType)
    (es : List MsgEntry) (rest : List Nat)
    (hes : ∀ x ∈ es, entry_okb x = true) :
    parse_common ⟨enr, true⟩ ty .msg (39 :: (renderSeq es ++ 39 :: rest)) =
      some (rest, .map (es.map msgEntryKV)) ∧
    parse_common ⟨enr, false⟩ ty .msg (39 :: (renderSeq es ++ 39 :: rest)) =
      some (rest, .str (renderSeq es) .single) := by
  constructor
  · have h := asMap_full es rest hes
    simp only [parse_common]
    rw [if_pos trivial]
    simp only [palt, h]
  · have henc := parse_encoded_sq_fails (renderSeq es ++ 39 :: rest)
    have hname : commonName Common.msg = bytes "msg" := rfl
    have hun := unspec_msg_sq ty es rest hes
    simp only [parse_common]
    rw [if_neg (by simp)]
    rw [hname]
    simp only [palt, henc, hun]

theorem split_msg_map_vs_str_witness :
    (∀ x ∈ ([MsgEntry.plain (bytes "op") (bytes "PAM:accounting"),
             MsgEntry.dq (bytes "acct") (bytes "user")] : List MsgEntry),
        entry_okb x = true) ∧
    (parse_common ⟨true, true⟩ 1112 Common.msg
        (39 :: (renderSeq [MsgEntry.plain (bytes "op") (bytes "PAM:accounting"),
                           MsgEntry.dq (bytes "acct") (bytes "user")] ++ 39 :: [10])) =
      some ([10], .map (List.map msgEntryKV
        [MsgEntry.plain (bytes "op") (bytes "PAM:accounting"),
         MsgEntry.dq (bytes "acct") (bytes "user")])) ∧
    parse_common ⟨true, false⟩ 1112 Common.msg
        (39 :: (renderSeq [MsgEntry.plain (bytes "op") (bytes "PAM:accounting"),
                           MsgEntry.dq (bytes "acct") (bytes "user")] ++ 39 :: [10])) =
      some ([10], .str (renderSeq [MsgEntry.plain (bytes "op") (bytes "PAM:accounting"),
                                   MsgEntry.dq (bytes "acct") (bytes "user")]) .single)) :=
  ⟨by decide,
   split_msg_map_vs_str true 1112
     [MsgEntry.plain (bytes "op") (bytes "PAM:accounting"),
      MsgEntry.dq (bytes "acct") (bytes "user")] [10] (by decide)⟩


/-! ### C5: body order and the prefix-synthesized entry -/

/-- The pairs of a separated list in production order: each pair is
parsed (after one separator) from the remainder the previous pair left,
so the list order is the left-to-right order of the pairs in the
input. -/
def chainSep (q : P (Key × Value)) (sep : P (List Nat)) :
    List Nat → List Nat → List (Key × Value) → Prop
  | i, j, [] => j = i
  | i, j, kv :: kvs =>
    ∃ s1 sv r, sep i = some (s1, sv) ∧ q s1 = some (r, kv) ∧ chainSep q sep r j kvs

/-- As `chainSep`, with no separator before the first pair
(`separated_list0` parses the first element bare). -/
def chainFirst (q : P (Key × Value)) (sep : P (List Nat))
    (i j : List Nat) (out : List (Key × Value)) : Prop :=
  match out with
  | [] => j = i
  | kv :: kvs => ∃ r, q i = some (r, kv) ∧ chainSep q sep r j kvs

theorem sepAux_chain (q : P (Key × Value)) (sep : P (List Nat)) :
    ∀ (fuel : Nat) (i : List Nat) (acc : List (Key × Value)) (rest : List Nat)
      (out : List (Key × Value)),
    sepList0Aux sep q fuel i acc = some (rest, out) →
    ∃ kvs, out = acc.reverse ++ kvs ∧ chainSep q sep i rest kvs := by
  intro fuel
  induction fuel with
  | zero =>
    intro i acc rest out h
    simp [sepList0Aux] at h
  | succ fuel ih =>
    intro i acc rest out h
    cases hsep : sep i with
    | none =>
      simp only [sepList0Aux, hsep, Option.some.injEq, Prod.mk.injEq] at h
      obtain ⟨h1, h2⟩ := h
      refine ⟨[], by simp [← h2], ?_⟩
      simp only [chainSep]
      exact h1.symm
    | some sres =>
      obtain ⟨s1, sv⟩ := sres
      simp only [sepList0Aux, hsep] at h
      by_cases hlen : s1.length = i.length
      · rw [if_pos hlen] at h
        simp at h
      · rw [if_neg hlen] at h
        cases hq : q s1 with
        | none =>
          simp only [hq, Option.some.injEq, Prod.mk.injEq] at h
          obtain ⟨h1, h2⟩ := h
          refine ⟨[], by simp [← h2], ?_⟩
          simp only [chainSep]
          exact h1.symm
        | some qres =>
          obtain ⟨i2, o⟩ := qres
          simp only [hq] at h
          obtain ⟨kvs, hout, hchain⟩ := ih i2 (o :: acc) rest out h
          refine ⟨o :: kvs, ?_, ?_⟩
          · rw [hout]
            simp
          · simp only [chainSep]
            exact ⟨s1, sv, i2, hsep, hq, hchain⟩

theorem psepList0_chain (q : P (Key × Value)) (sep : P (List Nat))
    (i rest : List Nat) (out : List (Key × Value))
    (h : psepList0 sep q i = some (rest, out)) :
    chainFirst q sep i rest out := by
  simp only [psepList0] at h
  cases hq : q i with
  | none =>
    simp only [hq, Option.some.injEq, Prod.mk.injEq] at h
    obtain ⟨h1, h2⟩ := h
    rw [← h2]
    simp only [chainFirst]
    exact h1.symm
  | some qres =>
    obtain ⟨i1, o⟩ := qres
    simp only [hq] at h
    obtain ⟨kvs, hout, hchain⟩ := sepAux_chain q sep (i1.length + 1) i1 [o] rest out h
    simp only [List.reverse_cons, List.reverse_nil, List.nil_append,
      List.singleton_append] at hout
    rw [hout]
    simp only [chainFirst]
    exact ⟨i1, hq, hchain⟩

theorem pleft_decomp {α β : Type} (p1 : P α) (p2 : P β) {i r : List Nat} {a : α}
    (h : pleft p1 p2 i = some (r, a)) :
    ∃ mid b, p1 i = some (mid, a) ∧ p2 mid = some (r, b) := by
  simp only [pleft, pmap, pseq] at h
  cases h1 : p1 i with
  | none =>
    simp only [h1] at h
    exact absurd h (by simp)
  | some x =>
    obtain ⟨mid, a1⟩ := x
    simp only [h1] at h
    cases h2 : p2 mid with
    | none =>
      simp only [h2] at h
      exact absurd h (by simp)
    | some y =>
      obtain ⟨r2, b⟩ := y
      simp only [h2, Option.map, Option.some.injEq, Prod.mk.injEq] at h
      obtain ⟨hr, ha⟩ := h
      rw [hr] at h2
      exact ⟨mid, b, by rw [ha], h2⟩

/-- C5 counterexample: in a netlabel record the `netlabel: ` prefix is
the first item of the body text, yet the entry synthesized from it is
the LAST body entry, after the generic `op=x` pair — and the record is
not an AVC record, so the claimed unique AVC exception is wrong. -/
theorem body_order_counterexample :
    Parser.parse ⟨true, true⟩
        (bytes "type=EOE msg=audit(1.000:1): netlabel: op=x" ++ [10]) =
      .ok ⟨⟨1000, 1⟩, Option.none, MessageType.EOE,
        [(Key.name (bytes "op"), .str (bytes "x") .none),
         (Key.name (bytes "netlabel"), .empty)]⟩ ∧
    MessageType.EOE ≠ MessageType.AVC := by
  constructor
  · rfl
  · decide

/-- C5 amended: every accepted body splits as the generic key=value
pairs — in left-to-right input order, witnessed by the parse chain —
followed by the optional entry synthesized from the body prefix
(`avc: granted/denied {...} for ` in AVC records, `netlabel: ` in the
default branch), which is appended last even though its source text
precedes the generic pairs. -/
theorem body_order_amended (p : Parser) (ty : MessageType) (input rest : List Nat)
    (body : List (Key × Value))
    (h : parse_body p ty input = some (rest, body)) :
    ∃ input1 special kvs rest1,
      parse_body_special ty input = some (input1, special) ∧
      body = kvs ++ special.toList ∧
      chainFirst (parse_kv p ty)
        (if p.enriched = true then ptakeWhile1 (fun c => c == 32 || c == 29)
         else ptag [32]) input1 rest1 kvs := by
  simp only [parse_body] at h
  cases hsp : parse_body_special ty input with
  | none => simp [hsp] at h
  | some spres =>
    obtain ⟨input1, special⟩ := spres
    simp only [hsp] at h
    by_cases he : p.enriched = true
    · rw [if_pos he] at h
      cases hp : pleft
          (psepList0 (ptakeWhile1 (fun c => c == 32 || c == 29)) (parse_kv p ty))
          term_enriched input1 with
      | none => simp [hp] at h
      | some pres =>
        obtain ⟨rest2, kv⟩ := pres
        obtain ⟨mid, u, hps, hterm⟩ := pleft_decomp _ _ hp
        simp only [hp, Option.some.injEq, Prod.mk.injEq] at h
        obtain ⟨h1, h2⟩ := h
        refine ⟨input1, special, kv, mid, rfl, h2.symm, ?_⟩
        rw [if_pos he]
        exact psepList0_chain _ _ _ _ _ hps
    · rw [if_neg he] at h
      cases hp : pleft (psepList0 (ptag [32]) (parse_kv p ty)) term_plain input1 with
      | none => simp [hp] at h
      | some pres =>
        obtain ⟨rest2, kv⟩ := pres
        obtain ⟨mid, u, hps, hterm⟩ := pleft_decomp _ _ hp
        simp only [hp, Option.some.injEq, Prod.mk.injEq] at h
        obtain ⟨h1, h2⟩ := h
        refine ⟨input1, special, kv, mid, rfl, h2.symm, ?_⟩
        rw [if_neg he]
        exact psepList0_chain _ _ _ _ _ hps

theorem body_order_amended_witness :
    parse_body ⟨true, true⟩ MessageType.EOE (bytes "netlabel: op=x" ++ [10]) =
      some ([], [(Key.name (bytes "op"), .str (bytes "x") .none),
                 (Key.name (bytes "netlabel"), .empty)]) ∧
    ∃ input1 special kvs rest1,
      parse_body_special MessageType.EOE (bytes "netlabel: op=x" ++ [10]) =
        some (input1, special) ∧
      ([(Key.name (bytes "op"), Value.str (bytes "x") .none),
        (Key.name (bytes "netlabel"), Value.empty)] : List (Key × Value)) =
        kvs ++ special.toList ∧
      chainFirst (parse_kv ⟨true, true⟩ MessageType.EOE)
        (if (⟨true, true⟩ : Parser).enriched = true
         then ptakeWhile1 (fun c => c == 32 || c == 29)
         else ptag [32]) input1 rest1 kvs :=
  ⟨by rfl,
   body_order_amended ⟨true, true⟩ MessageType.EOE
     (bytes "netlabel: op=x" ++ [10]) []
     [(Key.name (bytes "op"), Value.str (bytes "x") .none),
      (Key.name (bytes "netlabel"), Value.empty)] (by rfl)⟩


/-! ### C3: discarding the enrichment suffix when `enriched = false` -/

/-- Byte lists free of the quote/brace openers and of the separators:
for such body text every quoted-string recognizer fails at its opening
tag, so no scanner reads past the end of the line. -/
def NoQ (A : List Nat) : Prop :=
  ∀ c ∈ A, c ≠ 39 ∧ c ≠ 34 ∧ c ≠ 123 ∧ c ≠ 10 ∧ c ≠ 29

/-- Decidable form of `NoQ`. -/
def NoQB (A : List Nat) : Bool :=
  A.all (fun c => c != 39 && c != 34 && c != 123 && c != 10 && c != 29)

theorem noQB_noQ {A : List Nat} (h : NoQB A = true) : NoQ A := by
  simp only [NoQB, List.all_eq_true, Bool.and_eq_true, bne_iff_ne, ne_eq] at h
  intro c hc
  have := h c hc
  exact ⟨this.1.1.1.1, this.1.1.1.2, this.1.1.2, this.1.2, this.2⟩

theorem noQ_append_right {C B : List Nat} (h : NoQ (C ++ B)) : NoQ B :=
  fun c hc => h c (List.mem_append.mpr (Or.inr hc))

theorem noQ_tail {a : Nat} {A : List Nat} (h : NoQ (a :: A)) : NoQ A :=
  fun c hc => h c (List.mem_cons_of_mem a hc)

/-- Pointwise evaluation lemmas for the combinators. -/
theorem pseq_none_left {α β : Type} (p : P α) (q : P β) {i : List Nat}
    (h : p i = none) : pseq p q i = none := by
  simp [pseq, h]

theorem pseq_none_right {α β : Type} (p : P α) (q : P β) {i r : List Nat} {a : α}
    (hp : p i = some (r, a)) (h : q r = none) : pseq p q i = none := by
  simp [pseq, hp, h]

theorem palt_left {α : Type} (p q : P α) {i : List Nat} {x : List Nat × α}
    (h : p i = some x) : palt p q i = some x := by
  simp [palt, h]

theorem palt_right {α : Type} (p q : P α) {i : List Nat}
    (h : p i = none) : palt p q i = q i := by
  simp [palt, h]

theorem popt_some {α : Type} (p : P α) {i r : List Nat} {a : α}
    (h : p i = some (r, a)) : popt p i = some (r, some a) := by
  simp [popt, h]

theorem popt_none {α : Type} (p : P α) {i : List Nat}
    (h : p i = none) : popt p i = some (i, none) := by
  simp [popt, h]

theorem pmap_some {α β : Type} (f : α → β) (p : P α) {i r : List Nat} {a : α}
    (h : p i = some (r, a)) : pmap f p i = some (r, f a) := by
  simp [pmap, h]

theorem pmap_none {α β : Type} (f : α → β) (p : P α) {i : List Nat}
    (h : p i = none) : pmap f p i = none := by
  simp [pmap, h]

theorem precognize_some {α : Type} (p : P α) {i r : List Nat} {a : α}
    (h : p i = some (r, a)) :
    precognize p i = some (r, i.take (i.length - r.length)) := by
  simp [precognize, h]

theorem precognize_none {α : Type} (p : P α) {i : List Nat}
    (h : p i = none) : precognize p i = none := by
  simp [precognize, h]

/-- Transfer of a parser between the bare-newline tail `[10]` and the
enrichment tail `29 :: (s ++ [10])`: on a quote-free prefix a failure
on one input is a failure on the other, and a success consumes the
same prefix bytes and produces the same value. -/
def TrP {α : Type} (s : List Nat) (q : P α) : Prop :=
  ∀ A : List Nat, NoQ A →
    (q (A ++ [10]) = none → q (A ++ 29 :: (s ++ [10])) = none) ∧
    (∀ r v, q (A ++ [10]) = some (r, v) →
      ∃ B C, A = C ++ B ∧ r = B ++ [10] ∧
        q (A ++ 29 :: (s ++ [10])) = some (B ++ 29 :: (s ++ [10]), v))

/-- Weaker transfer for checkers whose value is discarded (the
separator peeks): failure transfers and a success consumes nothing,
but the produced value may differ between the two tails. -/
def TrChk {α : Type} (s : List Nat) (q : P α) : Prop :=
  ∀ A : List Nat, NoQ A →
    (q (A ++ [10]) = none → q (A ++ 29 :: (s ++ [10])) = none) ∧
    (∀ r v, q (A ++ [10]) = some (r, v) →
      r = A ++ [10] ∧ ∃ v2, q (A ++ 29 :: (s ++ [10])) =
        some (A ++ 29 :: (s ++ [10]), v2))

theorem tr_pmap {α β : Type} (s : List Nat) (f : α → β) (q : P α)
    (hq : TrP s q) : TrP s (pmap f q) := by
  intro A hA
  constructor
  · intro h
    cases h1 : q (A ++ [10]) with
    | none => exact pmap_none f q ((hq A hA).1 h1)
    | some x =>
      obtain ⟨r1, a⟩ := x
      rw [pmap_some f q h1] at h
      simp at h
  · intro r v h
    cases h1 : q (A ++ [10]) with
    | none => rw [pmap_none f q h1] at h; simp at h
    | some x =>
      obtain ⟨r1, a⟩ := x
      rw [pmap_some f q h1] at h
      simp only [Option.some.injEq, Prod.mk.injEq] at h
      obtain ⟨hr, hv⟩ := h
      obtain ⟨B, C, hAC, hr1, h2⟩ := (hq A hA).2 r1 a h1
      refine ⟨B, C, hAC, by rw [← hr, hr1], ?_⟩
      rw [pmap_some f q h2, hv]

theorem tr_pvalue {α β : Type} (s : List Nat) (v : β) (q : P α)
    (hq : TrP s q) : TrP s (pvalue v q) :=
  tr_pmap s _ q hq

theorem tr_pseq {α β : Type} (s : List Nat) (p : P α) (q : P β)
    (hp : TrP s p) (hq : TrP s q) : TrP s (pseq p q) := by
  intro A hA
  constructor
  · intro h
    cases h1 : p (A ++ [10]) with
    | none => exact pseq_none_left p q ((hp A hA).1 h1)
    | some x =>
      obtain ⟨r1, a⟩ := x
      obtain ⟨B, C, hAC, hr1, h2⟩ := (hp A hA).2 r1 a h1
      have hB : NoQ B := noQ_append_right (hAC ▸ hA)
      cases h3 : q r1 with
      | none =>
        rw [hr1] at h3
        exact pseq_none_right p q h2 ((hq B hB).1 h3)
      | some y =>
        obtain ⟨r2, b⟩ := y
        rw [pseq_eval p q h1 h3] at h
        simp at h
  · intro r v h
    cases h1 : p (A ++ [10]) with
    | none => rw [pseq_none_left p q h1] at h; simp at h
    | some x =>
      obtain ⟨r1, a⟩ := x
      obtain ⟨B, C, hAC, hr1, h2⟩ := (hp A hA).2 r1 a h1
      have hB : NoQ B := noQ_append_right (hAC ▸ hA)
      cases h3 : q r1 with
      | none => rw [pseq_none_right p q h1 h3] at h; simp at h
      | some y =>
        obtain ⟨r2, b⟩ := y
        rw [pseq_eval p q h1 h3] at h
        simp only [Option.some.injEq, Prod.mk.injEq] at h
        obtain ⟨hr2, hv⟩ := h
        rw [hr1] at h3
        obtain ⟨B2, C2, hBC, hr2e, h4⟩ := (hq B hB).2 r2 b h3
        refine ⟨B2, C ++ C2, by rw [hAC, hBC, List.append_assoc],
          by rw [← hr2, hr2e], ?_⟩
        rw [pseq_eval p q h2 h4, hv]

theorem tr_pleft {α β : Type} (s : List Nat) (p : P α) (q : P β)
    (hp : TrP s p) (hq : TrP s q) : TrP s (pleft p q) :=
  tr_pmap s Prod.fst (pseq p q) (tr_pseq s p q hp hq)

theorem tr_pright {α β : Type} (s : List Nat) (p : P α) (q : P β)
    (hp : TrP s p) (hq : TrP s q) : TrP s (pright p q) :=
  tr_pmap s Prod.snd (pseq p q) (tr_pseq s p q hp hq)

theorem tr_pdelim {α β γ : Type} (s : List Nat) (l : P α) (p : P β) (r : P γ)
    (hl : TrP s l) (hp : TrP s p) (hr : TrP s r) : TrP s (pdelim l p r) :=
  tr_pleft s _ _ (tr_pright s _ _ hl hp) hr

theorem tr_palt {α : Type} (s : List Nat) (p q : P α)
    (hp : TrP s p) (hq : TrP s q) : TrP s (palt p q) := by
  intro A hA
  constructor
  · intro h
    cases h1 : p (A ++ [10]) with
    | none =>
      rw [palt_right p q h1] at h
      rw [palt_right p q ((hp A hA).1 h1)]
      exact (hq A hA).1 h
    | some x => rw [palt_left p q h1] at h; simp at h
  · intro r v h
    cases h1 : p (A ++ [10]) with
    | none =>
      rw [palt_right p q h1] at h
      obtain ⟨B, C, hAC, hr, h2⟩ := (hq A hA).2 r v h
      exact ⟨B, C, hAC, hr, by rw [palt_right p q ((hp A hA).1 h1), h2]⟩
    | some x =>
      obtain ⟨r1, a⟩ := x
      rw [palt_left p q h1] at h
      simp only [Option.some.injEq, Prod.mk.injEq] at h
      obtain ⟨hr, hv⟩ := h
      obtain ⟨B, C, hAC, hr1, h2⟩ := (hp A hA).2 r1 a h1
      refine ⟨B, C, hAC, by rw [← hr, hr1], ?_⟩
      rw [palt_left p q h2, hv]

theorem tr_palt3 {α : Type} (s : List Nat) (p q r : P α)
    (hp : TrP s p) (hq : TrP s q) (hr : TrP s r) : TrP s (palt3 p q r) :=
  tr_palt s _ _ hp (tr_palt s _ _ hq hr)

theorem tr_popt {α : Type} (s : List Nat) (p : P α)
    (hp : TrP s p) : TrP s (popt p) := by
  intro A hA
  constructor
  · intro h
    cases h1 : p (A ++ [10]) with
    | none => rw [popt_none p h1] at h; simp at h
    | some x =>
      obtain ⟨r1, a⟩ := x
      rw [popt_some p h1] at h
      simp at h
  · intro r v h
    cases h1 : p (A ++ [10]) with
    | none =>
      rw [popt_none p h1] at h
      simp only [Option.some.injEq, Prod.mk.injEq] at h
      obtain ⟨hr, hv⟩ := h
      refine ⟨A, [], by simp, hr.symm, ?_⟩
      rw [popt_none p ((hp A hA).1 h1), hv]
    | some x =>
      obtain ⟨r1, a⟩ := x
      rw [popt_some p h1] at h
      simp only [Option.some.injEq, Prod.mk.injEq] at h
      obtain ⟨hr, hv⟩ := h
      obtain ⟨B, C, hAC, hr1, h2⟩ := (hp A hA).2 r1 a h1
      refine ⟨B, C, hAC, by rw [← hr, hr1], ?_⟩
      rw [popt_some p h2, hv]

theorem tr_precognize {α : Type} (s : List Nat) (p : P α)
    (hp : TrP s p) : TrP s (precognize p) := by
  intro A hA
  constructor
  · intro h
    cases h1 : p (A ++ [10]) with
    | none => exact precognize_none p ((hp A hA).1 h1)
    | some x =>
      obtain ⟨r1, a⟩ := x
      rw [precognize_some p h1] at h
      simp at h
  · intro r v h
    cases h1 : p (A ++ [10]) with
    | none => rw [precognize_none p h1] at h; simp at h
    | some x =>
      obtain ⟨r1, a⟩ := x
      rw [precognize_some p h1] at h
      simp only [Option.some.injEq, Prod.mk.injEq] at h
      obtain ⟨hr, hv⟩ := h
      obtain ⟨B, C, hAC, hr1, h2⟩ := (hp A hA).2 r1 a h1
      have hCl : A.length - B.length = C.length := by
        rw [hAC]
        simp only [List.length_append]
        omega
      have htake : ∀ X : List Nat, (A ++ X).take C.length = C := by
        intro X
        rw [hAC, List.append_assoc, List.take_append_of_le_length le_rfl,
          List.take_length]
      have hv1 : v = C := by
        rw [← hv, hr1]
        simp only [List.length_append]
        rw [show A.length + [10].length - (B.length + [10].length) = C.length from by
          simp only [List.length_cons, List.length_nil]
          omega]
        exact htake [10]
      refine ⟨B, C, hAC, by rw [← hr, hr1], ?_⟩
      rw [precognize_some p h2]
      have hlen2 : (A ++ 29 :: (s ++ [10])).length -
          (B ++ 29 :: (s ++ [10])).length = C.length := by
        simp only [List.length_append, List.length_cons]
        omega
      rw [hlen2, htake, hv1]

theorem tr_pleft_chk {α β : Type} (s : List Nat) (p : P α) (q : P β)
    (hp : TrP s p) (hq : TrChk s q) : TrP s (pleft p q) := by
  intro A hA
  constructor
  · intro h
    cases h1 : p (A ++ [10]) with
    | none => exact pmap_none _ _ (pseq_none_left p q ((hp A hA).1 h1))
    | some x =>
      obtain ⟨r1, a⟩ := x
      obtain ⟨B, C, hAC, hr1, h2⟩ := (hp A hA).2 r1 a h1
      have hB : NoQ B := noQ_append_right (hAC ▸ hA)
      cases h3 : q r1 with
      | none =>
        rw [hr1] at h3
        exact pmap_none _ _ (pseq_none_right p q h2 ((hq B hB).1 h3))
      | some y =>
        obtain ⟨r2, b⟩ := y
        rw [show pleft p q (A ++ [10]) = some (r2, a) from by
          simp only [pleft]
          rw [pmap_some _ _ (pseq_eval p q h1 h3)]] at h
        simp at h
  · intro r v h
    cases h1 : p (A ++ [10]) with
    | none =>
      rw [show pleft p q (A ++ [10]) = none from
        pmap_none _ _ (pseq_none_left p q h1)] at h
      simp at h
    | some x =>
      obtain ⟨r1, a⟩ := x
      obtain ⟨B, C, hAC, hr1, h2⟩ := (hp A hA).2 r1 a h1
      have hB : NoQ B := noQ_append_right (hAC ▸ hA)
      cases h3 : q r1 with
      | none =>
        rw [show pleft p q (A ++ [10]) = none from
          pmap_none _ _ (pseq_none_right p q h1 h3)] at h
        simp at h
      | some y =>
        obtain ⟨r2, b⟩ := y
        rw [show pleft p q (A ++ [10]) = some (r2, a) from by
          simp only [pleft]
          rw [pmap_some _ _ (pseq_eval p q h1 h3)]] at h
        simp only [Option.some.injEq, Prod.mk.injEq] at h
        obtain ⟨hr2, hv⟩ := h
        rw [hr1] at h3
        obtain ⟨hre, v2, h4⟩ := (hq B hB).2 r2 b h3
        refine ⟨B, C, hAC, by rw [← hr2]; exact hre, ?_⟩
        have : pseq p q (A ++ 29 :: (s ++ [10])) =
            some (B ++ 29 :: (s ++ [10]), (a, v2)) := pseq_eval p q h2 h4
        simp only [pleft]
        rw [pmap_some _ _ this, hv]

theorem tr_pvalue_chk {α β : Type} (s : List Nat) (v : β) (q : P α)
    (hq : TrChk s q) : TrP s (pvalue v q) := by
  intro A hA
  constructor
  · intro h
    cases h1 : q (A ++ [10]) with
    | none => exact pmap_none _ _ ((hq A hA).1 h1)
    | some x =>
      obtain ⟨r1, a⟩ := x
      rw [show pvalue v q (A ++ [10]) = some (r1, v) from pmap_some _ _ h1] at h
      simp at h
  · intro r w h
    cases h1 : q (A ++ [10]) with
    | none =>
      rw [show pvalue v q (A ++ [10]) = none from pmap_none _ _ h1] at h
      simp at h
    | some x =>
      obtain ⟨r1, a⟩ := x
      rw [show pvalue v q (A ++ [10]) = some (r1, v) from pmap_some _ _ h1] at h
      simp only [Option.some.injEq, Prod.mk.injEq] at h
      obtain ⟨hr, hv⟩ := h
      obtain ⟨hre, v2, h4⟩ := (hq A hA).2 r1 a h1
      refine ⟨A, [], by simp, by rw [← hr, hre], ?_⟩
      rw [show pvalue v q (A ++ 29 :: (s ++ [10])) =
        some (A ++ 29 :: (s ++ [10]), v) from pmap_some _ _ h4, hv]


theorem tagAux_tr (s : List Nat) :
    ∀ (t A : List Nat), (∀ c ∈ t, c ≠ 10 ∧ c ≠ 29) → NoQ A →
    (tagAux t (A ++ [10]) = none → tagAux t (A ++ 29 :: (s ++ [10])) = none) ∧
    (∀ r, tagAux t (A ++ [10]) = some r →
      ∃ B, A = t ++ B ∧ r = B ++ [10] ∧
        tagAux t (A ++ 29 :: (s ++ [10])) = some (B ++ 29 :: (s ++ [10]))) := by
  intro t
  induction t with
  | nil =>
    intro A ht hA
    constructor
    · intro h
      simp [tagAux] at h
    · intro r h
      simp only [tagAux, Option.some.injEq] at h
      exact ⟨A, by simp, h.symm, by simp [tagAux]⟩
  | cons c t ih =>
    intro A ht hA
    have hc := ht c (by simp)
    have ht2 : ∀ x ∈ t, x ≠ 10 ∧ x ≠ 29 := fun x hx => ht x (by simp [hx])
    cases A with
    | nil =>
      constructor
      · intro h
        simp only [List.nil_append]
        have : tagAux (c :: t) (29 :: (s ++ [10])) =
            if c = 29 then tagAux t (s ++ [10]) else none := rfl
        rw [this, if_neg hc.2]
      · intro r h
        have : tagAux (c :: t) ([] ++ [10]) =
            if c = 10 then tagAux t [] else none := rfl
        rw [this, if_neg hc.1] at h
        simp at h
    | cons a A2 =>
      have hA2 : NoQ A2 := noQ_tail hA
      by_cases hca : c = a
      · subst hca
        have ihs := ih A2 ht2 hA2
        constructor
        · intro h
          have e1 : tagAux (c :: t) ((c :: A2) ++ [10]) =
              tagAux t (A2 ++ [10]) := by
            simp [tagAux]
          have e2 : tagAux (c :: t) ((c :: A2) ++ 29 :: (s ++ [10])) =
              tagAux t (A2 ++ 29 :: (s ++ [10])) := by
            simp [tagAux]
          rw [e1] at h
          rw [e2]
          exact ihs.1 h
        · intro r h
          have e1 : tagAux (c :: t) ((c :: A2) ++ [10]) =
              tagAux t (A2 ++ [10]) := by
            simp [tagAux]
          have e2 : tagAux (c :: t) ((c :: A2) ++ 29 :: (s ++ [10])) =
              tagAux t (A2 ++ 29 :: (s ++ [10])) := by
            simp [tagAux]
          rw [e1] at h
          obtain ⟨B, hAB, hr, h2⟩ := ihs.2 r h
          refine ⟨B, by rw [List.cons_append, hAB], hr, ?_⟩
          rw [e2]
          exact h2
      · constructor
        · intro h
          have : tagAux (c :: t) ((a :: A2) ++ 29 :: (s ++ [10])) =
              if c = a then tagAux t (A2 ++ 29 :: (s ++ [10])) else none := rfl
          rw [this, if_neg hca]
        · intro r h
          have : tagAux (c :: t) ((a :: A2) ++ [10]) =
              if c = a then tagAux t (A2 ++ [10]) else none := rfl
          rw [this, if_neg hca] at h
          simp at h

theorem tr_ptag (s : List Nat) (t : List Nat)
    (ht : ∀ c ∈ t, c ≠ 10 ∧ c ≠ 29) : TrP s (ptag t) := by
  intro A hA
  constructor
  · intro h
    simp only [ptag] at h ⊢
    cases h1 : tagAux t (A ++ [10]) with
    | none =>
      rw [(tagAux_tr s t A ht hA).1 h1]
      rfl
    | some r => rw [h1] at h; simp at h
  · intro r v h
    simp only [ptag] at h
    cases h1 : tagAux t (A ++ [10]) with
    | none => rw [h1] at h; simp at h
    | some r1 =>
      rw [h1] at h
      simp only [Option.map_some', Option.some.injEq, Prod.mk.injEq] at h
      obtain ⟨hr, hv⟩ := h
      obtain ⟨B, hAB, hr1, h2⟩ := (tagAux_tr s t A ht hA).2 r1 h1
      refine ⟨B, t, hAB, by rw [← hr, hr1], ?_⟩
      simp only [ptag, h2]
      rw [← hv]
      rfl

theorem tr_ptakeWhile (s : List Nat) (f : Nat → Bool)
    (h10 : f 10 = false) (h29 : f 29 = false) : TrP s (ptakeWhile f) := by
  intro A hA
  have k1 := takeWhile_append_keep f A [10]
    (by
      intro c h
      injection h with h1
      rw [← h1]
      exact h10)
  have k2 := takeWhile_append_keep f A (29 :: (s ++ [10]))
    (by
      intro c h
      injection h with h1
      rw [← h1]
      exact h29)
  constructor
  · intro h
    simp [ptakeWhile] at h
  · intro r v h
    simp only [ptakeWhile, Option.some.injEq, Prod.mk.injEq] at h
    obtain ⟨hr, hv⟩ := h
    refine ⟨A.dropWhile f, A.takeWhile f,
      (List.takeWhile_append_dropWhile f A).symm, by rw [← hr, k1.2], ?_⟩
    simp only [ptakeWhile, k2.1, k2.2, ← hv, k1.1]

theorem tr_ptakeWhile1 (s : List Nat) (f : Nat → Bool)
    (h10 : f 10 = false) (h29 : f 29 = false) : TrP s (ptakeWhile1 f) := by
  intro A hA
  have k1 := takeWhile_append_keep f A [10]
    (by
      intro c h
      injection h with h1
      rw [← h1]
      exact h10)
  have k2 := takeWhile_append_keep f A (29 :: (s ++ [10]))
    (by
      intro c h
      injection h with h1
      rw [← h1]
      exact h29)
  constructor
  · intro h
    simp only [ptakeWhile1, k1.1, k1.2] at h
    simp only [ptakeWhile1, k2.1, k2.2]
    by_cases he : A.takeWhile f = []
    · rw [if_pos he]
    · rw [if_neg he] at h
      simp at h
  · intro r v h
    simp only [ptakeWhile1, k1.1, k1.2] at h
    by_cases he : A.takeWhile f = []
    · rw [if_pos he] at h
      simp at h
    · rw [if_neg he] at h
      simp only [Option.some.injEq, Prod.mk.injEq] at h
      obtain ⟨hr, hv⟩ := h
      refine ⟨A.dropWhile f, A.takeWhile f,
        (List.takeWhile_append_dropWhile f A).symm, hr.symm, ?_⟩
      simp only [ptakeWhile1, k2.1, k2.2]
      rw [if_neg he, ← hv]

theorem tr_ptakeWhileMN (s : List Nat) (m n : Nat) (f : Nat → Bool)
    (h10 : f 10 = false) (h29 : f 29 = false) : TrP s (ptakeWhileMN m n f) := by
  intro A hA
  have k1 := takeWhile_append_keep f A [10]
    (by
      intro c h
      injection h with h1
      rw [← h1]
      exact h10)
  have k2 := takeWhile_append_keep f A (29 :: (s ++ [10]))
    (by
      intro c h
      injection h with h1
      rw [← h1]
      exact h29)
  have hwl : ((A.takeWhile f).take n).length ≤ A.length := by
    have h1 : ((A.takeWhile f).take n).length = min n (A.takeWhile f).length :=
      List.length_take _ _
    have h2 := congrArg List.length (List.takeWhile_append_dropWhile f A)
    simp only [List.length_append] at h2
    omega
  have hdrop : ∀ (X : List Nat),
      (A ++ X).drop ((A.takeWhile f).take n).length =
        A.drop ((A.takeWhile f).take n).length ++ X := by
    intro X
    exact List.drop_append_of_le_length hwl
  constructor
  · intro h
    simp only [ptakeWhileMN, k1.1] at h
    simp only [ptakeWhileMN, k2.1]
    by_cases hlt : ((A.takeWhile f).take n).length < m
    · rw [if_pos hlt]
    · rw [if_neg hlt] at h
      simp at h
  · intro r v h
    simp only [ptakeWhileMN, k1.1] at h
    by_cases hlt : ((A.takeWhile f).take n).length < m
    · rw [if_pos hlt] at h
      simp at h
    · rw [if_neg hlt] at h
      simp only [Option.some.injEq, Prod.mk.injEq] at h
      obtain ⟨hr, hv⟩ := h
      refine ⟨A.drop ((A.takeWhile f).take n).length,
        A.take ((A.takeWhile f).take n).length,
        (List.take_append_drop _ A).symm, by rw [← hr, hdrop [10]], ?_⟩
      simp only [ptakeWhileMN, k2.1]
      rw [if_neg hlt, hdrop, ← hv]

theorem chk_peek_tw1_sep (s : List Nat) : TrChk s (ppeek (ptakeWhile1 is_sep)) := by
  intro A hA
  cases A with
  | nil =>
    have e1 : ptakeWhile1 is_sep ([] ++ [10]) = some ([], [10]) := rfl
    have hne : (29 :: (s ++ [10])).takeWhile is_sep ≠ [] := by
      rw [List.takeWhile_cons, if_pos (by decide)]
      simp
    have e2 : ptakeWhile1 is_sep ([] ++ 29 :: (s ++ [10])) =
        some ((29 :: (s ++ [10])).dropWhile is_sep,
          (29 :: (s ++ [10])).takeWhile is_sep) := by
      simp only [List.nil_append, ptakeWhile1]
      rw [if_neg hne]
    constructor
    · intro h
      simp only [ppeek, e1] at h
      simp at h
    · intro r v h
      simp only [ppeek, e1, Option.map_some', Option.some.injEq,
        Prod.mk.injEq] at h
      refine ⟨h.1.symm, (29 :: (s ++ [10])).takeWhile is_sep, ?_⟩
      simp only [ppeek, e2, Option.map_some']
  | cons a A2 =>
    by_cases ha : is_sep a = true
    · have hne1 : ((a :: A2) ++ [10]).takeWhile is_sep ≠ [] := by
        rw [List.cons_append, List.takeWhile_cons, if_pos (by simp [ha])]
        simp
      have hne2 : ((a :: A2) ++ 29 :: (s ++ [10])).takeWhile is_sep ≠ [] := by
        rw [List.cons_append, List.takeWhile_cons, if_pos (by simp [ha])]
        simp
      have e1 : (ptakeWhile1 is_sep ((a :: A2) ++ [10])).isSome = true := by
        simp only [ptakeWhile1]
        rw [if_neg hne1]
        rfl
      have e2 : (ptakeWhile1 is_sep ((a :: A2) ++ 29 :: (s ++ [10]))).isSome = true := by
        simp only [ptakeWhile1]
        rw [if_neg hne2]
        rfl
      constructor
      · intro h
        obtain ⟨x, hx⟩ := Option.isSome_iff_exists.mp e1
        simp only [ppeek, hx] at h
        simp at h
      · intro r v h
        obtain ⟨x, hx⟩ := Option.isSome_iff_exists.mp e1
        obtain ⟨y, hy⟩ := Option.isSome_iff_exists.mp e2
        simp only [ppeek, hx, Option.map_some', Option.some.injEq,
          Prod.mk.injEq] at h
        exact ⟨h.1.symm, y.2, by simp only [ppeek, hy, Option.map_some']⟩
    · have he1 : ((a :: A2) ++ [10]).takeWhile is_sep = [] := by
        rw [List.cons_append, List.takeWhile_cons, if_neg (by simp [ha])]
      have he2 : ((a :: A2) ++ 29 :: (s ++ [10])).takeWhile is_sep = [] := by
        rw [List.cons_append, List.takeWhile_cons, if_neg (by simp [ha])]
      have e1 : ptakeWhile1 is_sep ((a :: A2) ++ [10]) = none := by
        simp only [ptakeWhile1, he1]
        rw [if_pos trivial]
      have e2 : ptakeWhile1 is_sep ((a :: A2) ++ 29 :: (s ++ [10])) = none := by
        simp only [ptakeWhile1, he2]
        rw [if_pos trivial]
      constructor
      · intro h
        simp only [ppeek, e2]
        rfl
      · intro r v h
        simp only [ppeek, e1] at h
        simp at h

theorem chk_peek_tw_sep (s : List Nat) : TrChk s (ppeek (ptakeWhile is_sep)) := by
  intro A hA
  constructor
  · intro h
    simp [ppeek, ptakeWhile] at h
  · intro r v h
    simp only [ppeek, ptakeWhile, Option.map_some', Option.some.injEq,
      Prod.mk.injEq] at h
    refine ⟨h.1.symm, ((A ++ 29 :: (s ++ [10])).takeWhile is_sep), ?_⟩
    simp only [ppeek, ptakeWhile, Option.map_some']

theorem tr_fail_all {α : Type} (s : List Nat) (q : P α)
    (hq : ∀ A, NoQ A → q (A ++ [10]) = none ∧ q (A ++ 29 :: (s ++ [10])) = none) :
    TrP s q := by
  intro A hA
  refine ⟨fun _ => (hq A hA).2, fun r v h => absurd h (by rw [(hq A hA).1]; simp)⟩

theorem tag_quote_fail (c : Nat) (ts A : List Nat) (x : Nat) (X : List Nat)
    (hc : c = 39 ∨ c = 34 ∨ c = 123) (hA : NoQ A) (hx : x = 10 ∨ x = 29) :
    ptag (c :: ts) (A ++ x :: X) = none := by
  cases A with
  | nil =>
    simp only [List.nil_append]
    refine ptag_head_ne ?_ ts X
    intro h
    rcases hc with h1 | h1 | h1 <;> rcases hx with h2 | h2 <;>
      rw [h1, h2] at h <;> exact absurd h (by decide)
  | cons a A2 =>
    have ha := hA a (by simp)
    rw [List.cons_append]
    refine ptag_head_ne ?_ ts _
    intro h
    rcases hc with h1 | h1 | h1 <;> rw [h1] at h
    · exact ha.1 h.symm
    · exact ha.2.1 h.symm
    · exact ha.2.2.1 h.symm


theorem many0_tr {α : Type} (s : List Nat) (p : P α) (hp : TrP s p) :
    ∀ (L : Nat) (A : List Nat), A.length < L → NoQ A → ∀ (f1 f2 n : Nat),
      A.length < f1 → A.length < f2 →
      (many0CountAux p f1 (A ++ [10]) n = none →
        many0CountAux p f2 (A ++ 29 :: (s ++ [10])) n = none) ∧
      (∀ r c, many0CountAux p f1 (A ++ [10]) n = some (r, c) →
        ∃ B C, A = C ++ B ∧ r = B ++ [10] ∧
          many0CountAux p f2 (A ++ 29 :: (s ++ [10])) n =
            some (B ++ 29 :: (s ++ [10]), c)) := by
  intro L
  induction L using Nat.strong_induction_on with
  | _ L ih =>
    intro A hAL hA f1 f2 n hf1 hf2
    match f1, hf1, f2, hf2 with
    | f1 + 1, hf1, f2 + 1, hf2 =>
      cases h1 : p (A ++ [10]) with
      | none =>
        have h1t := (hp A hA).1 h1
        have e1 : many0CountAux p (f1 + 1) (A ++ [10]) n = some (A ++ [10], n) := by
          simp [many0CountAux, h1]
        have e2 : many0CountAux p (f2 + 1) (A ++ 29 :: (s ++ [10])) n =
            some (A ++ 29 :: (s ++ [10]), n) := by
          simp [many0CountAux, h1t]
        constructor
        · intro h
          rw [e1] at h
          exact absurd h (by simp)
        · intro r c h
          rw [e1] at h
          simp only [Option.some.injEq, Prod.mk.injEq] at h
          obtain ⟨hr, hc⟩ := h
          exact ⟨A, [], by simp, hr.symm, by rw [e2, hc]⟩
      | some x =>
        obtain ⟨r1, a⟩ := x
        obtain ⟨B, C, hAC, hr1, h2⟩ := (hp A hA).2 r1 a h1
        have hB : NoQ B := noQ_append_right (hAC ▸ hA)
        by_cases hBA : B.length = A.length
        · have e1 : many0CountAux p (f1 + 1) (A ++ [10]) n = none := by
            simp only [many0CountAux, h1]
            rw [if_pos (by rw [hr1]; simp only [List.length_append]; omega)]
          have e2 : many0CountAux p (f2 + 1) (A ++ 29 :: (s ++ [10])) n = none := by
            simp only [many0CountAux, h2]
            rw [if_pos (by simp only [List.length_append, List.length_cons]; omega)]
          constructor
          · intro _
            exact e2
          · intro r c h
            rw [e1] at h
            exact absurd h (by simp)
        · have hBlt : B.length < A.length := by
            have := congrArg List.length hAC
            simp only [List.length_append] at this
            omega
          have e1 : many0CountAux p (f1 + 1) (A ++ [10]) n =
              many0CountAux p f1 (B ++ [10]) (n + 1) := by
            simp only [many0CountAux, h1]
            rw [if_neg (by rw [hr1]; simp only [List.length_append]; omega), hr1]
          have e2 : many0CountAux p (f2 + 1) (A ++ 29 :: (s ++ [10])) n =
              many0CountAux p f2 (B ++ 29 :: (s ++ [10])) (n + 1) := by
            simp only [many0CountAux, h2]
            rw [if_neg (by simp only [List.length_append, List.length_cons]; omega)]
          have hrec := ih (B.length + 1) (by omega) B (by omega) hB f1 f2 (n + 1)
            (by omega) (by omega)
          constructor
          · intro h
            rw [e1] at h
            rw [e2]
            exact hrec.1 h
          · intro r c h
            rw [e1] at h
            obtain ⟨B2, C2, hBC, hr2, h3⟩ := hrec.2 r c h
            refine ⟨B2, C ++ C2, by rw [hAC, hBC, List.append_assoc], hr2, ?_⟩
            rw [e2]
            exact h3

theorem tr_pmany0Count {α : Type} (s : List Nat) (p : P α) (hp : TrP s p) :
    TrP s (pmany0Count p) := by
  intro A hA
  have h := many0_tr s p hp (A.length + 1) A (by omega) hA
    ((A ++ [10]).length + 1) ((A ++ 29 :: (s ++ [10])).length + 1) 0
    (by simp only [List.length_append]; omega)
    (by simp only [List.length_append, List.length_cons]; omega)
  exact ⟨h.1, h.2⟩

theorem pmany1Count_none {α : Type} (p : P α) {i : List Nat}
    (h : p i = none) : pmany1Count p i = none := by
  simp [pmany1Count, h]

theorem pmany1Count_step {α : Type} (p : P α) {i r : List Nat} {a : α}
    (h : p i = some (r, a)) :
    pmany1Count p i =
      if r.length = i.length then none
      else (many0CountAux p (r.length + 1) r 0).map (fun x => (x.1, x.2 + 1)) := by
  simp [pmany1Count, h]

theorem tr_pmany1Count {α : Type} (s : List Nat) (p : P α) (hp : TrP s p) :
    TrP s (pmany1Count p) := by
  intro A hA
  constructor
  · intro h
    cases h1 : p (A ++ [10]) with
    | none => exact pmany1Count_none p ((hp A hA).1 h1)
    | some x =>
      obtain ⟨r1, a⟩ := x
      rw [pmany1Count_step p h1] at h
      obtain ⟨B, C, hAC, hr1, h2⟩ := (hp A hA).2 r1 a h1
      have hB : NoQ B := noQ_append_right (hAC ▸ hA)
      rw [pmany1Count_step p h2]
      by_cases hBA : B.length = A.length
      · rw [if_pos (by simp only [List.length_append, List.length_cons]; omega)]
      · have hBlt : B.length < A.length := by
          have := congrArg List.length hAC
          simp only [List.length_append] at this
          omega
        rw [if_neg (by rw [hr1]; simp only [List.length_append]; omega)] at h
        rw [if_neg (by simp only [List.length_append, List.length_cons]; omega)]
        cases h3 : many0CountAux p (r1.length + 1) r1 0 with
        | some y => rw [h3] at h; simp at h
        | none =>
          rw [hr1] at h3
          have e2 : many0CountAux p ((B ++ 29 :: (s ++ [10])).length + 1)
              (B ++ 29 :: (s ++ [10])) 0 = none := by
            refine (many0_tr s p hp (B.length + 1) B (by omega) hB
              ((B ++ [10]).length + 1) ((B ++ 29 :: (s ++ [10])).length + 1) 0
              (by simp only [List.length_append]; omega)
              (by simp only [List.length_append, List.length_cons]; omega)).1 ?_
            exact h3
          rw [e2]
          rfl
  · intro r v h
    cases h1 : p (A ++ [10]) with
    | none => rw [pmany1Count_none p h1] at h; simp at h
    | some x =>
      obtain ⟨r1, a⟩ := x
      rw [pmany1Count_step p h1] at h
      obtain ⟨B, C, hAC, hr1, h2⟩ := (hp A hA).2 r1 a h1
      have hB : NoQ B := noQ_append_right (hAC ▸ hA)
      by_cases hBA : B.length = A.length
      · rw [if_pos (by rw [hr1]; simp only [List.length_append]; omega)] at h
        simp at h
      · have hBlt : B.length < A.length := by
          have := congrArg List.length hAC
          simp only [List.length_append] at this
          omega
        rw [if_neg (by rw [hr1]; simp only [List.length_append]; omega)] at h
        cases h3 : many0CountAux p (r1.length + 1) r1 0 with
        | none => rw [h3] at h; simp at h
        | some y =>
          obtain ⟨r2, c⟩ := y
          rw [h3] at h
          simp only [Option.map_some', Option.some.injEq, Prod.mk.injEq] at h
          obtain ⟨hr2, hv⟩ := h
          rw [hr1] at h3
          obtain ⟨B2, C2, hBC, hr2e, h4⟩ := (many0_tr s p hp (B.length + 1) B
            (by omega) hB ((B ++ [10]).length + 1)
            ((B ++ 29 :: (s ++ [10])).length + 1) 0
            (by simp only [List.length_append]; omega)
            (by simp only [List.length_append, List.length_cons]; omega)).2 r2 c h3
          refine ⟨B2, C ++ C2, by rw [hAC, hBC, List.append_assoc],
            by rw [← hr2, hr2e], ?_⟩
          rw [pmany1Count_step p h2]
          rw [if_neg (by simp only [List.length_append, List.length_cons]; omega)]
          rw [h4]
          simp only [Option.map_some']
          rw [← hv]

theorem sepAux_tr {α β : Type} (s : List Nat) (sep : P β) (p : P α)
    (hsep : TrP s sep) (hp : TrP s p) :
    ∀ (L : Nat) (A : List Nat), A.length < L → NoQ A →
      ∀ (f1 f2 : Nat) (acc : List α), A.length < f1 → A.length < f2 →
      (sepList0Aux sep p f1 (A ++ [10]) acc = none →
        sepList0Aux sep p f2 (A ++ 29 :: (s ++ [10])) acc = none) ∧
      (∀ r out, sepList0Aux sep p f1 (A ++ [10]) acc = some (r, out) →
        ∃ B C, A = C ++ B ∧ r = B ++ [10] ∧
          sepList0Aux sep p f2 (A ++ 29 :: (s ++ [10])) acc =
            some (B ++ 29 :: (s ++ [10]), out)) := by
  intro L
  induction L using Nat.strong_induction_on with
  | _ L ih =>
    intro A hAL hA f1 f2 acc hf1 hf2
    match f1, hf1, f2, hf2 with
    | f1 + 1, hf1, f2 + 1, hf2 =>
      cases h1 : sep (A ++ [10]) with
      | none =>
        have h1t := (hsep A hA).1 h1
        have e1 : sepList0Aux sep p (f1 + 1) (A ++ [10]) acc =
            some (A ++ [10], acc.reverse) := by
          simp [sepList0Aux, h1]
        have e2 : sepList0Aux sep p (f2 + 1) (A ++ 29 :: (s ++ [10])) acc =
            some (A ++ 29 :: (s ++ [10]), acc.reverse) := by
          simp [sepList0Aux, h1t]
        constructor
        · intro h
          rw [e1] at h
          exact absurd h (by simp)
        · intro r out h
          rw [e1] at h
          simp only [Option.some.injEq, Prod.mk.injEq] at h
          obtain ⟨hr, ho⟩ := h
          exact ⟨A, [], by simp, hr.symm, by rw [e2, ho]⟩
      | some x =>
        obtain ⟨s1, sv⟩ := x
        obtain ⟨B1, C1, hAC1, hs1, h2⟩ := (hsep A hA).2 s1 sv h1
        have hB1 : NoQ B1 := noQ_append_right (hAC1 ▸ hA)
        by_cases hBA : B1.length = A.length
        · have e1 : sepList0Aux sep p (f1 + 1) (A ++ [10]) acc = none := by
            simp only [sepList0Aux, h1]
            rw [if_pos (by rw [hs1]; simp only [List.length_append]; omega)]
          have e2 : sepList0Aux sep p (f2 + 1) (A ++ 29 :: (s ++ [10])) acc = none := by
            simp only [sepList0Aux, h2]
            rw [if_pos (by simp only [List.length_append, List.length_cons]; omega)]
          constructor
          · intro _
            exact e2
          · intro r out h
            rw [e1] at h
            exact absurd h (by simp)
        · have hB1lt : B1.length < A.length := by
            have := congrArg List.length hAC1
            simp only [List.length_append] at this
            omega
          cases h3 : p (B1 ++ [10]) with
          | none =>
            have h3t := (hp B1 hB1).1 h3
            have e1 : sepList0Aux sep p (f1 + 1) (A ++ [10]) acc =
                some (A ++ [10], acc.reverse) := by
              simp only [sepList0Aux, h1]
              rw [if_neg (by rw [hs1]; simp only [List.length_append]; omega), hs1, h3]
            have e2 : sepList0Aux sep p (f2 + 1) (A ++ 29 :: (s ++ [10])) acc =
                some (A ++ 29 :: (s ++ [10]), acc.reverse) := by
              simp only [sepList0Aux, h2]
              rw [if_neg (by simp only [List.length_append, List.length_cons]; omega),
                h3t]
            constructor
            · intro h
              rw [e1] at h
              exact absurd h (by simp)
            · intro r out h
              rw [e1] at h
              simp only [Option.some.injEq, Prod.mk.injEq] at h
              obtain ⟨hr, ho⟩ := h
              exact ⟨A, [], by simp, hr.symm, by rw [e2, ho]⟩
          | some y =>
            obtain ⟨i2, o⟩ := y
            obtain ⟨B2, C2, hBC2, hi2, h4⟩ := (hp B1 hB1).2 i2 o h3
            have hB2 : NoQ B2 := noQ_append_right (hBC2 ▸ hB1)
            have hB2le : B2.length ≤ B1.length := by
              have := congrArg List.length hBC2
              simp only [List.length_append] at this
              omega
            have e1 : sepList0Aux sep p (f1 + 1) (A ++ [10]) acc =
                sepList0Aux sep p f1 (B2 ++ [10]) (o :: acc) := by
              simp only [sepList0Aux, h1]
              rw [if_neg (by rw [hs1]; simp only [List.length_append]; omega), hs1, h3,
                hi2]
            have e2 : sepList0Aux sep p (f2 + 1) (A ++ 29 :: (s ++ [10])) acc =
                sepList0Aux sep p f2 (B2 ++ 29 :: (s ++ [10])) (o :: acc) := by
              simp only [sepList0Aux, h2]
              rw [if_neg (by simp only [List.length_append, List.length_cons]; omega),
                h4]
            have hrec := ih (B2.length + 1) (by omega) B2 (by omega) hB2 f1 f2
              (o :: acc) (by omega) (by omega)
            constructor
            · intro h
              rw [e1] at h
              rw [e2]
              exact hrec.1 h
            · intro r out h
              rw [e1] at h
              obtain ⟨B3, C3, hBC3, hr3, h5⟩ := hrec.2 r out h
              refine ⟨B3, C1 ++ C2 ++ C3, ?_, hr3, ?_⟩
              · rw [hAC1, hBC2, hBC3]
                simp [List.append_assoc]
              · rw [e2]
                exact h5

theorem tr_psepList0 {α β : Type} (s : List Nat) (sep : P β) (p : P α)
    (hsep : TrP s sep) (hp : TrP s p) : TrP s (psepList0 sep p) := by
  intro A hA
  constructor
  · intro h
    simp only [psepList0] at h ⊢
    cases h1 : p (A ++ [10]) with
    | none => rw [h1] at h; simp at h
    | some x =>
      obtain ⟨i1, o⟩ := x
      rw [h1] at h
      obtain ⟨B, C, hAC, hi1, h2⟩ := (hp A hA).2 i1 o h1
      have hB : NoQ B := noQ_append_right (hAC ▸ hA)
      rw [hi1] at h
      rw [h2]
      have := (sepAux_tr s sep p hsep hp (B.length + 1) B (by omega) hB
        ((B ++ [10]).length + 1) ((B ++ 29 :: (s ++ [10])).length + 1) [o]
        (by simp only [List.length_append]; omega)
        (by simp only [List.length_append, List.length_cons]; omega)).1 h
      exact this
  · intro r v h
    simp only [psepList0] at h
    cases h1 : p (A ++ [10]) with
    | none =>
      rw [h1] at h
      simp only [Option.some.injEq, Prod.mk.injEq] at h
      obtain ⟨hr, hv⟩ := h
      refine ⟨A, [], by simp, hr.symm, ?_⟩
      simp only [psepList0, (hp A hA).1 h1, hv]
    | some x =>
      obtain ⟨i1, o⟩ := x
      rw [h1] at h
      obtain ⟨B, C, hAC, hi1, h2⟩ := (hp A hA).2 i1 o h1
      have hB : NoQ B := noQ_append_right (hAC ▸ hA)
      rw [hi1] at h
      obtain ⟨B2, C2, hBC, hr2, h3⟩ := (sepAux_tr s sep p hsep hp (B.length + 1) B
        (by omega) hB ((B ++ [10]).length + 1)
        ((B ++ 29 :: (s ++ [10])).length + 1) [o]
        (by simp only [List.length_append]; omega)
        (by simp only [List.length_append, List.length_cons]; omega)).2 r v h
      refine ⟨B2, C ++ C2, by rw [hAC, hBC, List.append_assoc], hr2, ?_⟩
      simp only [psepList0, h2]
      exact h3


theorem tr_pdecU (s : List Nat) (bound : Nat) : TrP s (pdecU bound) := by
  intro A hA
  have k1 := takeWhile_append_keep is_digit A [10]
    (by
      intro c h
      injection h with h1
      rw [← h1]
      rfl)
  have k2 := takeWhile_append_keep is_digit A (29 :: (s ++ [10]))
    (by
      intro c h
      injection h with h1
      rw [← h1]
      rfl)
  constructor
  · intro h
    simp only [pdecU, k1.1, k1.2] at h
    simp only [pdecU, k2.1, k2.2]
    by_cases he : A.takeWhile is_digit = []
    · rw [if_pos he]
    · rw [if_neg he] at h ⊢
      by_cases hb : digitsToNat (A.takeWhile is_digit) < bound
      · rw [if_pos hb] at h
        simp at h
      · rw [if_neg hb]
  · intro r v h
    simp only [pdecU, k1.1, k1.2] at h
    by_cases he : A.takeWhile is_digit = []
    · rw [if_pos he] at h
      simp at h
    · rw [if_neg he] at h
      by_cases hb : digitsToNat (A.takeWhile is_digit) < bound
      · rw [if_pos hb] at h
        simp only [Option.some.injEq, Prod.mk.injEq] at h
        obtain ⟨hr, hv⟩ := h
        refine ⟨A.dropWhile is_digit, A.takeWhile is_digit,
          (List.takeWhile_append_dropWhile is_digit A).symm, hr.symm, ?_⟩
        simp only [pdecU, k2.1, k2.2]
        rw [if_neg he, if_pos hb, ← hv]
      · rw [if_neg hb] at h
        simp at h

/-- Evaluation of `pdecI64` on inputs with an unsigned head byte. -/
theorem pdecI64_cons_other (a : Nat) (X : List Nat) (h45 : a ≠ 45) (h43 : a ≠ 43) :
    pdecI64 (a :: X) =
      (if (a :: X).takeWhile is_digit = [] then none
       else if digitsToNat ((a :: X).takeWhile is_digit) ≤ 2 ^ 63 - 1 then
         some ((a :: X).dropWhile is_digit,
           (digitsToNat ((a :: X).takeWhile is_digit) : Int))
       else none) := by
  simp only [pdecI64, List.head?_cons]
  have hj : (if some a = some 45 ∨ some a = some 43 then (a :: X).tail else a :: X) =
      a :: X := if_neg (by simp [h45, h43])
  have hsg : (if some a = some 45 then (-1 : Int) else 1) = 1 :=
    if_neg (by simp [h45])
  rw [hj, hsg]
  by_cases he : (a :: X).takeWhile is_digit = []
  · rw [if_pos he, if_pos he]
  · rw [if_neg he, if_neg he]
    by_cases hb : digitsToNat ((a :: X).takeWhile is_digit) ≤ 2 ^ 63 - 1
    · rw [if_pos (by exact ⟨rfl, hb⟩), if_pos hb]
    · rw [if_neg (by intro hc; exact hb hc.2), if_neg hb]
      rw [if_neg (by intro hc; exact absurd hc.1 (by decide))]

/-- Evaluation of `pdecI64` on inputs with a sign head byte. -/
theorem pdecI64_cons_45 (X : List Nat) :
    pdecI64 (45 :: X) =
      (if X.takeWhile is_digit = [] then none
       else if digitsToNat (X.takeWhile is_digit) ≤ 2 ^ 63 then
         some (X.dropWhile is_digit, -(digitsToNat (X.takeWhile is_digit) : Int))
       else none) := by
  simp only [pdecI64, List.head?_cons]
  have hj : (if True ∨ some 45 = some 43 then (45 :: X).tail
      else 45 :: X) = X := by
    rw [if_pos (Or.inl trivial)]
    rfl
  have hsg : (if True then (-1 : Int) else 1) = -1 := if_pos trivial
  rw [hj, hsg]
  by_cases he : X.takeWhile is_digit = []
  · rw [if_pos he, if_pos he]
  · rw [if_neg he, if_neg he]
    by_cases hb : digitsToNat (X.takeWhile is_digit) ≤ 2 ^ 63
    · rw [if_neg (by intro hc; exact absurd hc.1 (by decide)),
        if_pos (by exact ⟨rfl, hb⟩), if_pos hb]
    · rw [if_neg (by intro hc; exact absurd hc.1 (by decide)),
        if_neg (by intro hc; exact hb hc.2), if_neg hb]

theorem pdecI64_cons_43 (X : List Nat) :
    pdecI64 (43 :: X) =
      (if X.takeWhile is_digit = [] then none
       else if digitsToNat (X.takeWhile is_digit) ≤ 2 ^ 63 - 1 then
         some (X.dropWhile is_digit, (digitsToNat (X.takeWhile is_digit) : Int))
       else none) := by
  simp only [pdecI64, List.head?_cons]
  have hj : (if some 43 = some 45 ∨ True then (43 :: X).tail
      else 43 :: X) = X := by
    rw [if_pos (Or.inr trivial)]
    rfl
  have hsg : (if some 43 = some 45 then (-1 : Int) else 1) = 1 :=
    if_neg (by simp)
  rw [hj, hsg]
  by_cases he : X.takeWhile is_digit = []
  · rw [if_pos he, if_pos he]
  · rw [if_neg he, if_neg he]
    by_cases hb : digitsToNat (X.takeWhile is_digit) ≤ 2 ^ 63 - 1
    · rw [if_pos (by exact ⟨rfl, hb⟩), if_pos hb]
    · rw [if_neg (by intro hc; exact hb hc.2), if_neg hb]
      rw [if_neg (by intro hc; exact absurd hc.1 (by decide))]

theorem tr_pdecI64 (s : List Nat) : TrP s pdecI64 := by
  intro A hA
  cases A with
  | nil =>
    have e1 : pdecI64 ([] ++ [10]) = none := rfl
    have e2 : pdecI64 ([] ++ 29 :: (s ++ [10])) = none := by
      simp only [List.nil_append]
      rw [pdecI64_cons_other 29 (s ++ [10]) (by decide) (by decide)]
      rw [if_pos (by rw [List.takeWhile_cons, if_neg (by decide)])]
    exact ⟨fun _ => e2, fun r v h => absurd (e1 ▸ h) (by simp)⟩
  | cons a A2 =>
    have hA2 : NoQ A2 := noQ_tail hA
    have k1 := takeWhile_append_keep is_digit A2 [10]
      (by
        intro c h
        injection h with h1
        rw [← h1]
        rfl)
    have k2 := takeWhile_append_keep is_digit A2 (29 :: (s ++ [10]))
      (by
        intro c h
        injection h with h1
        rw [← h1]
        rfl)
    have k1c := takeWhile_append_keep is_digit (a :: A2) [10]
      (by
        intro c h
        injection h with h1
        rw [← h1]
        rfl)
    have k2c := takeWhile_append_keep is_digit (a :: A2) (29 :: (s ++ [10]))
      (by
        intro c h
        injection h with h1
        rw [← h1]
        rfl)
    by_cases h45 : a = 45
    · subst h45
      rw [show (45 :: A2) ++ [10] = 45 :: (A2 ++ [10]) from rfl,
        show (45 :: A2) ++ 29 :: (s ++ [10]) = 45 :: (A2 ++ 29 :: (s ++ [10])) from rfl]
      constructor
      · intro h
        rw [pdecI64_cons_45] at h
        rw [pdecI64_cons_45]
        rw [k1.1] at h
        rw [k2.1]
        by_cases he : A2.takeWhile is_digit = []
        · rw [if_pos he]
        · rw [if_neg he] at h ⊢
          by_cases hb : digitsToNat (A2.takeWhile is_digit) ≤ 2 ^ 63
          · rw [if_pos hb] at h
            simp at h
          · rw [if_neg hb]
      · intro r v h
        rw [pdecI64_cons_45, k1.1, k1.2] at h
        by_cases he : A2.takeWhile is_digit = []
        · rw [if_pos he] at h
          simp at h
        · rw [if_neg he] at h
          by_cases hb : digitsToNat (A2.takeWhile is_digit) ≤ 2 ^ 63
          · rw [if_pos hb] at h
            simp only [Option.some.injEq, Prod.mk.injEq] at h
            obtain ⟨hr, hv⟩ := h
            refine ⟨A2.dropWhile is_digit, 45 :: A2.takeWhile is_digit, ?_, hr.symm, ?_⟩
            · rw [List.cons_append, List.takeWhile_append_dropWhile]
            · rw [pdecI64_cons_45, k2.1, k2.2]
              rw [if_neg he, if_pos hb, ← hv]
          · rw [if_neg hb] at h
            simp at h
    · by_cases h43 : a = 43
      · subst h43
        rw [show (43 :: A2) ++ [10] = 43 :: (A2 ++ [10]) from rfl,
          show (43 :: A2) ++ 29 :: (s ++ [10]) = 43 :: (A2 ++ 29 :: (s ++ [10])) from rfl]
        constructor
        · intro h
          rw [pdecI64_cons_43] at h
          rw [pdecI64_cons_43]
          rw [k1.1] at h
          rw [k2.1]
          by_cases he : A2.takeWhile is_digit = []
          · rw [if_pos he]
          · rw [if_neg he] at h ⊢
            by_cases hb : digitsToNat (A2.takeWhile is_digit) ≤ 2 ^ 63 - 1
            · rw [if_pos hb] at h
              simp at h
            · rw [if_neg hb]
        · intro r v h
          rw [pdecI64_cons_43, k1.1, k1.2] at h
          by_cases he : A2.takeWhile is_digit = []
          · rw [if_pos he] at h
            simp at h
          · rw [if_neg he] at h
            by_cases hb : digitsToNat (A2.takeWhile is_digit) ≤ 2 ^ 63 - 1
            · rw [if_pos hb] at h
              simp only [Option.some.injEq, Prod.mk.injEq] at h
              obtain ⟨hr, hv⟩ := h
              refine ⟨A2.dropWhile is_digit, 43 :: A2.takeWhile is_digit, ?_, hr.symm, ?_⟩
              · rw [List.cons_append, List.takeWhile_append_dropWhile]
              · rw [pdecI64_cons_43, k2.1, k2.2]
                rw [if_neg he, if_pos hb, ← hv]
            · rw [if_neg hb] at h
              simp at h
      · simp only [List.cons_append] at k1c k2c
        constructor
        · intro h
          simp only [List.cons_append] at h ⊢
          rw [pdecI64_cons_other a _ h45 h43, k1c.1] at h
          rw [pdecI64_cons_other a _ h45 h43, k2c.1]
          by_cases he : (a :: A2).takeWhile is_digit = []
          · rw [if_pos he]
          · rw [if_neg he] at h ⊢
            by_cases hb : digitsToNat ((a :: A2).takeWhile is_digit) ≤ 2 ^ 63 - 1
            · rw [if_pos hb] at h
              simp at h
            · rw [if_neg hb]
        · intro r v h
          simp only [List.cons_append] at h ⊢
          rw [pdecI64_cons_other a _ h45 h43, k1c.1, k1c.2] at h
          by_cases he : (a :: A2).takeWhile is_digit = []
          · rw [if_pos he] at h
            simp at h
          · rw [if_neg he] at h
            by_cases hb : digitsToNat ((a :: A2).takeWhile is_digit) ≤ 2 ^ 63 - 1
            · rw [if_pos hb] at h
              simp only [Option.some.injEq, Prod.mk.injEq] at h
              obtain ⟨hr, hv⟩ := h
              refine ⟨(a :: A2).dropWhile is_digit, (a :: A2).takeWhile is_digit,
                (List.takeWhile_append_dropWhile is_digit (a :: A2)).symm, hr.symm, ?_⟩
              rw [pdecI64_cons_other a _ h45 h43, k2c.1, k2c.2]
              rw [if_neg he, if_pos hb, ← hv]
            · rw [if_neg hb] at h
              simp at h

theorem pdelim_tag_fail {β γ : Type} (s : List Nat) (c : Nat) (ts : List Nat)
    (p : P β) (r : P γ) (hc : c = 39 ∨ c = 34 ∨ c = 123) :
    ∀ A, NoQ A → pdelim (ptag (c :: ts)) p r (A ++ [10]) = none ∧
      pdelim (ptag (c :: ts)) p r (A ++ 29 :: (s ++ [10])) = none :=
  fun A hA =>
    ⟨pdelim_left_none _ _ _ (tag_quote_fail c ts A 10 [] hc hA (Or.inl rfl)),
     pdelim_left_none _ _ _ (tag_quote_fail c ts A 29 (s ++ [10]) hc hA (Or.inr rfl))⟩

theorem tr_parse_str_sq (s : List Nat) : TrP s parse_str_sq :=
  tr_fail_all s _ (pdelim_tag_fail s 39 [] _ _ (Or.inl rfl))

theorem tr_parse_str_dq (s : List Nat) : TrP s parse_str_dq :=
  tr_fail_all s _ (pdelim_tag_fail s 34 [] _ _ (Or.inr (Or.inl rfl)))

theorem tr_parse_str_dq_safe (s : List Nat) : TrP s parse_str_dq_safe :=
  tr_fail_all s _ (pdelim_tag_fail s 34 [] _ _ (Or.inr (Or.inl rfl)))

theorem tr_parse_str_braced (s : List Nat) : TrP s parse_str_braced :=
  tr_fail_all s _ (pdelim_tag_fail s 123 [32] _ _ (Or.inr (Or.inr rfl)))

theorem tr_parse_kv_sq (s : List Nat) : TrP s parse_kv_sq :=
  tr_fail_all s _ (pdelim_tag_fail s 39 [] _ _ (Or.inl rfl))

theorem tr_parse_kv_braced (s : List Nat) : TrP s parse_kv_braced :=
  tr_fail_all s _ (pdelim_tag_fail s 123 [32] _ _ (Or.inr (Or.inr rfl)))

theorem tr_parse_kv_sq_as_map (s : List Nat) : TrP s parse_kv_sq_as_map :=
  tr_fail_all s _ (fun A hA =>
    ⟨pmap_none _ _ ((pdelim_tag_fail s 39 [] _ _ (Or.inl rfl) A hA).1),
     pmap_none _ _ ((pdelim_tag_fail s 39 [] _ _ (Or.inl rfl) A hA).2)⟩)

theorem tr_space0 (s : List Nat) : TrP s space0 :=
  tr_ptakeWhile s is_space_chr (by decide) (by decide)

theorem tr_space1 (s : List Nat) : TrP s space1 :=
  tr_ptakeWhile1 s is_space_chr (by decide) (by decide)

theorem tr_alpha1 (s : List Nat) : TrP s alpha1 :=
  tr_ptakeWhile1 s is_alpha (by decide) (by decide)

theorem tr_alphanumeric1 (s : List Nat) : TrP s alphanumeric1 :=
  tr_ptakeWhile1 s is_alphanumeric (by decide) (by decide)

theorem tr_key_text (s : List Nat) : TrP s key_text :=
  tr_precognize s _ (tr_pseq s _ _ (tr_alpha1 s)
    (tr_pmany0Count s _ (tr_palt s _ _ (tr_alphanumeric1 s)
      (tr_ptakeWhile1 s (fun c => (bytes "-_").contains c) (by decide) (by decide)))))

theorem tr_parse_key (s : List Nat) : TrP s parse_key :=
  tr_pmap s keyOfText key_text (tr_key_text s)

theorem tr_parse_identifier (s : List Nat) : TrP s parse_identifier :=
  tr_precognize s _ (tr_pseq s _ _
    (tr_palt s _ _ (tr_alpha1 s) (tr_ptag s (bytes "_") (by decide)))
    (tr_pmany0Count s _ (tr_palt s _ _ (tr_alphanumeric1 s)
      (tr_ptag s (bytes "_") (by decide)))))

theorem tr_psalvage (s : List Nat) (cond : Bool) (q : P (List Nat)) (fb : P Value)
    (hq : TrP s q) (hfb : TrP s fb) : TrP s (psalvage cond q fb) := by
  cases cond with
  | false =>
    intro A hA
    exact ⟨(hfb A hA).1, (hfb A hA).2⟩
  | true =>
    intro A hA
    constructor
    · intro h
      simp only [psalvage, if_pos trivial] at h ⊢
      cases h1 : q (A ++ [10]) with
      | none =>
        simp only [h1] at h
        simp only [(hq A hA).1 h1]
        exact (hfb A hA).1 h
      | some x =>
        obtain ⟨r1, sv⟩ := x
        simp only [h1] at h
        exact absurd h (by simp)
    · intro r v h
      simp only [psalvage, if_pos trivial] at h
      cases h1 : q (A ++ [10]) with
      | none =>
        simp only [h1] at h
        obtain ⟨B, C, hAC, hr, h2⟩ := (hfb A hA).2 r v h
        refine ⟨B, C, hAC, hr, ?_⟩
        simp only [psalvage, if_pos trivial, (hq A hA).1 h1]
        exact h2
      | some x =>
        obtain ⟨r1, sv⟩ := x
        simp only [h1] at h
        simp only [Option.some.injEq, Prod.mk.injEq] at h
        obtain ⟨hr, hv⟩ := h
        obtain ⟨B, C, hAC, hr1, h2⟩ := (hq A hA).2 r1 sv h1
        refine ⟨B, C, hAC, by rw [← hr, hr1], ?_⟩
        simp only [psalvage, if_pos trivial, h2, ← hv]

theorem tr_subj_salvage (s : List Nat) : TrP s subj_salvage :=
  tr_precognize s _ (tr_pseq s _ _ (tr_popt s _ (tr_ptag s [61] (by decide)))
    (tr_pseq s _ _ (tr_ptakeWhile s is_safe_chr (by decide) (by decide))
      (tr_popt s _ (tr_pdelim s _ _ _ (tr_ptag s (bytes " (") (by decide))
        (tr_parse_identifier s) (tr_ptag s (bytes ")") (by decide))))))

theorem tr_saddr_salvage (s : List Nat) : TrP s saddr_salvage :=
  tr_precognize s _ (tr_pseq s _ _ (tr_ptag s (bytes "unknown family") (by decide))
    (tr_popt s _ (tr_ptakeWhile s (fun c => !is_sep c) (by decide) (by decide))))

theorem tr_parse_unspec_first (s : List Nat) : TrP s parse_unspec_first :=
  tr_pleft_chk s _ _
    (tr_pmap s _ _ (tr_ptakeWhile1 s is_safe_unquoted_chr (by decide) (by decide)))
    (chk_peek_tw_sep s)

theorem tr_parse_unspec_value (s : List Nat) (ty : MessageType) (name : List Nat) :
    TrP s (parse_unspec_value ty name) :=
  tr_psalvage s _ _ _ (tr_subj_salvage s)
    (tr_psalvage s _ _ _ (tr_parse_str_dq s)
      (tr_psalvage s _ _ _ (tr_saddr_salvage s)
        (tr_palt s _ _ (tr_parse_unspec_first s)
          (tr_palt s _ _ (tr_pmap s _ _ (tr_parse_kv_sq s))
            (tr_palt s _ _ (tr_pmap s _ _ (tr_parse_str_sq s))
              (tr_palt s _ _ (tr_pmap s _ _ (tr_parse_str_dq s))
                (tr_palt s _ _ (tr_pmap s _ _ (tr_parse_kv_braced s))
                  (tr_palt s _ _ (tr_pmap s _ _ (tr_parse_str_braced s))
                    (tr_pvalue_chk s Value.empty _ (chk_peek_tw_sep s))))))))))

theorem tr_parse_encoded (s : List Nat) : TrP s parse_encoded :=
  tr_palt3 s _ _ _
    (tr_pmap s _ _ (tr_parse_str_dq_safe s))
    (tr_pleft_chk s _ _
      (tr_pmap s _ _ (tr_precognize s _ (tr_pmany1Count s _
        (tr_ptakeWhileMN s 2 2 is_hex_digit (by decide) (by decide)))))
      (chk_peek_tw1_sep s))
    (tr_pleft_chk s _ _
      (tr_pvalue s Value.empty (palt (ptag (bytes "(null)")) (ptag (bytes "?")))
        (tr_palt s _ _ (tr_ptag s (bytes "(null)") (by decide))
          (tr_ptag s (bytes "?") (by decide))))
      (chk_peek_tw1_sep s))

theorem tr_parse_dec (s : List Nat) : TrP s parse_dec :=
  tr_pmap s _ _ (tr_pleft_chk s _ _ (tr_pdecI64 s) (chk_peek_tw1_sep s))

theorem tr_parse_hex (s : List Nat) : TrP s parse_hex := by
  have hb : TrP s (pleft (ptakeWhile1 is_hex_digit) (ppeek (ptakeWhile1 is_sep))) :=
    tr_pleft_chk s _ _ (tr_ptakeWhile1 s is_hex_digit (by decide) (by decide))
      (chk_peek_tw1_sep s)
  intro A hA
  constructor
  · intro h
    simp only [parse_hex] at h ⊢
    cases h1 : pleft (ptakeWhile1 is_hex_digit) (ppeek (ptakeWhile1 is_sep))
        (A ++ [10]) with
    | none => simp only [(hb A hA).1 h1]
    | some x =>
      obtain ⟨r1, ds⟩ := x
      simp only [h1] at h
      obtain ⟨B, C, hAC, hr1, h2⟩ := (hb A hA).2 r1 ds h1
      simp only [h2]
      by_cases hlt : hexToNat ds < 2 ^ 64
      · rw [if_pos hlt] at h
        exact absurd h (by simp)
      · rw [if_neg hlt]
  · intro r v h
    simp only [parse_hex] at h
    cases h1 : pleft (ptakeWhile1 is_hex_digit) (ppeek (ptakeWhile1 is_sep))
        (A ++ [10]) with
    | none =>
      simp only [h1] at h
      exact absurd h (by simp)
    | some x =>
      obtain ⟨r1, ds⟩ := x
      simp only [h1] at h
      obtain ⟨B, C, hAC, hr1, h2⟩ := (hb A hA).2 r1 ds h1
      by_cases hlt : hexToNat ds < 2 ^ 64
      · rw [if_pos hlt] at h
        simp only [Option.some.injEq, Prod.mk.injEq] at h
        obtain ⟨hr, hv⟩ := h
        refine ⟨B, C, hAC, by rw [← hr, hr1], ?_⟩
        simp only [parse_hex, h2]
        rw [if_pos hlt, ← hv]
      · rw [if_neg hlt] at h
        exact absurd h (by simp)

theorem tr_parse_oct (s : List Nat) : TrP s parse_oct := by
  have hb : TrP s (pleft (ptakeWhile1 is_oct_digit) (ppeek (ptakeWhile1 is_sep))) :=
    tr_pleft_chk s _ _ (tr_ptakeWhile1 s is_oct_digit (by decide) (by decide))
      (chk_peek_tw1_sep s)
  intro A hA
  constructor
  · intro h
    simp only [parse_oct] at h ⊢
    cases h1 : pleft (ptakeWhile1 is_oct_digit) (ppeek (ptakeWhile1 is_sep))
        (A ++ [10]) with
    | none => simp only [(hb A hA).1 h1]
    | some x =>
      obtain ⟨r1, ds⟩ := x
      simp only [h1] at h
      obtain ⟨B, C, hAC, hr1, h2⟩ := (hb A hA).2 r1 ds h1
      simp only [h2]
      by_cases hlt : octToNat ds < 2 ^ 64
      · rw [if_pos hlt] at h
        exact absurd h (by simp)
      · rw [if_neg hlt]
  · intro r v h
    simp only [parse_oct] at h
    cases h1 : pleft (ptakeWhile1 is_oct_digit) (ppeek (ptakeWhile1 is_sep))
        (A ++ [10]) with
    | none =>
      simp only [h1] at h
      exact absurd h (by simp)
    | some x =>
      obtain ⟨r1, ds⟩ := x
      simp only [h1] at h
      obtain ⟨B, C, hAC, hr1, h2⟩ := (hb A hA).2 r1 ds h1
      by_cases hlt : octToNat ds < 2 ^ 64
      · rw [if_pos hlt] at h
        simp only [Option.some.injEq, Prod.mk.injEq] at h
        obtain ⟨hr, hv⟩ := h
        refine ⟨B, C, hAC, by rw [← hr, hr1], ?_⟩
        simp only [parse_oct, h2]
        rw [if_pos hlt, ← hv]
      · rw [if_neg hlt] at h
        exact absurd h (by simp)

theorem tr_parse_named (s : List Nat) (ty : MessageType) (name : List Nat) :
    TrP s (parse_named ty name) := by
  have hu := tr_parse_unspec_value s ty name
  cases hf : fieldTypesGet name with
  | none =>
    rw [show parse_named ty name = palt parse_encoded (parse_unspec_value ty name) from by
      unfold parse_named
      rw [hf]]
    exact tr_palt s _ _ (tr_parse_encoded s) hu
  | some ft =>
    cases ft with
    | encoded =>
      rw [show parse_named ty name = palt parse_encoded (parse_unspec_value ty name) from by
        unfold parse_named
        rw [hf]]
      exact tr_palt s _ _ (tr_parse_encoded s) hu
    | numericHex =>
      rw [show parse_named ty name = palt parse_hex (parse_unspec_value ty name) from by
        unfold parse_named
        rw [hf]]
      exact tr_palt s _ _ (tr_parse_hex s) hu
    | numericDec =>
      rw [show parse_named ty name = palt parse_dec (parse_unspec_value ty name) from by
        unfold parse_named
        rw [hf]]
      exact tr_palt s _ _ (tr_parse_dec s) hu
    | numericOct =>
      rw [show parse_named ty name = palt parse_oct (parse_unspec_value ty name) from by
        unfold parse_named
        rw [hf]]
      exact tr_palt s _ _ (tr_parse_oct s) hu
    | numeric =>
      rw [show parse_named ty name = palt parse_encoded (parse_unspec_value ty name) from by
        unfold parse_named
        rw [hf]]
      exact tr_palt s _ _ (tr_parse_encoded s) hu

theorem tr_parse_common (s : List Nat) (p : Parser) (ty : MessageType) (c : Common) :
    TrP s (parse_common p ty c) := by
  cases c
  case msg =>
    by_cases hsm : p.split_msg = true
    · rw [show parse_common p ty Common.msg =
          palt parse_kv_sq_as_map (parse_unspec_value ty (commonName Common.msg)) from by
        simp only [parse_common]
        rw [if_pos hsm]]
      exact tr_palt s _ _ (tr_parse_kv_sq_as_map s) (tr_parse_unspec_value s ty _)
    · rw [show parse_common p ty Common.msg =
          palt parse_encoded (parse_unspec_value ty (commonName Common.msg)) from by
        simp only [parse_common]
        rw [if_neg hsm]]
      exact tr_palt s _ _ (tr_parse_encoded s) (tr_parse_unspec_value s ty _)
  all_goals
    first
    | exact tr_palt s _ _ (tr_parse_hex s) (tr_parse_unspec_value s ty _)
    | exact tr_palt s _ _ (tr_parse_dec s) (tr_parse_unspec_value s ty _)
    | exact tr_palt s _ _ (tr_parse_encoded s) (tr_parse_unspec_value s ty _)
    | exact tr_palt s _ _ (tr_parse_oct s) (tr_parse_unspec_value s ty _)


theorem tr_parse_key_a_x_len (s : List Nat) : TrP s parse_key_a_x_len :=
  tr_pmap s _ _ (tr_pdelim s _ _ _ (tr_ptag s (bytes "a") (by decide))
    (tr_pdecU s (2 ^ 32)) (tr_ptag s (bytes "_len") (by decide)))

theorem tr_parse_key_a_xy (s : List Nat) : TrP s parse_key_a_xy :=
  tr_pmap s _ _ (tr_pseq s _ _
    (tr_pright s _ _ (tr_ptag s (bytes "a") (by decide)) (tr_pdecU s (2 ^ 32)))
    (tr_pdelim s _ _ _ (tr_ptag s (bytes "[") (by decide))
      (tr_pdecU s (2 ^ 16)) (tr_ptag s (bytes "]") (by decide))))

theorem tr_parse_key_a_x (s : List Nat) : TrP s parse_key_a_x :=
  tr_pmap s _ _ (tr_pright s _ _ (tr_ptag s (bytes "a") (by decide))
    (tr_pdecU s (2 ^ 32)))

theorem tr_parse_arg_hex (s : List Nat) : TrP s parse_arg_hex :=
  tr_pmap s _ _ (tr_precognize s _ (tr_pleft_chk s _ _
    (tr_pmany1Count s _ (tr_ptakeWhile1 s is_hex_digit (by decide) (by decide)))
    (chk_peek_tw1_sep s)))

theorem head97_eq (s : List Nat) (A : List Nat) :
    ((A ++ [10]).head? == some 97) = ((A ++ 29 :: (s ++ [10])).head? == some 97) := by
  cases A with
  | nil => rfl
  | cons a A2 => rfl

theorem pref_eq (s : List Nat) :
    ∀ (t A : List Nat), (∀ c ∈ t, c ≠ 10 ∧ c ≠ 29) →
    t.isPrefixOf (A ++ [10]) = t.isPrefixOf (A ++ 29 :: (s ++ [10])) := by
  intro t
  induction t with
  | nil =>
    intro A ht
    cases A <;> rfl
  | cons c t ih =>
    intro A ht
    have hc := ht c (by simp)
    have ht2 : ∀ x ∈ t, x ≠ 10 ∧ x ≠ 29 := fun x hx => ht x (by simp [hx])
    cases A with
    | nil =>
      have e1 : (c :: t).isPrefixOf ([] ++ [10]) = ((c == 10) && t.isPrefixOf []) := rfl
      have e2 : (c :: t).isPrefixOf ([] ++ 29 :: (s ++ [10])) =
          ((c == 29) && t.isPrefixOf (s ++ [10])) := rfl
      rw [e1, e2]
      have hc1 : (c == 10) = false := by simp [hc.1]
      have hc2 : (c == 29) = false := by simp [hc.2]
      rw [hc1, hc2]
      rfl
    | cons a A2 =>
      have e1 : (c :: t).isPrefixOf ((a :: A2) ++ [10]) =
          ((c == a) && t.isPrefixOf (A2 ++ [10])) := rfl
      have e2 : (c :: t).isPrefixOf ((a :: A2) ++ 29 :: (s ++ [10])) =
          ((c == a) && t.isPrefixOf (A2 ++ 29 :: (s ++ [10]))) := rfl
      rw [e1, e2, ih A2 ht2]

theorem tr_parse_kv_key (s : List Nat) (ty : MessageType) :
    TrP s (parse_kv_key ty) := by
  intro A hA
  have hb1 : TrP s (pleft (palt3 parse_key_a_x_len parse_key_a_xy parse_key_a_x)
      (ptag [61])) :=
    tr_pleft s _ _ (tr_palt3 s _ _ _ (tr_parse_key_a_x_len s)
      (tr_parse_key_a_xy s) (tr_parse_key_a_x s)) (tr_ptag s [61] (by decide))
  have hb2 : TrP s (pleft (palt parse_key_a_x parse_key) (ptag [61])) :=
    tr_pleft s _ _ (tr_palt s _ _ (tr_parse_key_a_x s) (tr_parse_key s))
      (tr_ptag s [61] (by decide))
  have hb3 : TrP s (pleft parse_key (ptag [61])) :=
    tr_pleft s _ _ (tr_parse_key s) (tr_ptag s [61] (by decide))
  have hmain : ∀ (q : P Key), TrP s q →
      parse_kv_key ty (A ++ [10]) = q (A ++ [10]) →
      parse_kv_key ty (A ++ 29 :: (s ++ [10])) = q (A ++ 29 :: (s ++ [10])) →
      (parse_kv_key ty (A ++ [10]) = none →
        parse_kv_key ty (A ++ 29 :: (s ++ [10])) = none) ∧
      (∀ r v, parse_kv_key ty (A ++ [10]) = some (r, v) →
        ∃ B C, A = C ++ B ∧ r = B ++ [10] ∧
          parse_kv_key ty (A ++ 29 :: (s ++ [10])) =
            some (B ++ 29 :: (s ++ [10]), v)) := by
    intro q hq e1 e2
    rw [e1, e2]
    exact hq A hA
  have hcond : (ty == MessageType.EXECVE && (A ++ [10]).head? == some 97 &&
      !(bytes "argc").isPrefixOf (A ++ [10])) =
      (ty == MessageType.EXECVE && (A ++ 29 :: (s ++ [10])).head? == some 97 &&
      !(bytes "argc").isPrefixOf (A ++ 29 :: (s ++ [10]))) := by
    rw [head97_eq s A, pref_eq s (bytes "argc") A (by decide)]
  by_cases hc : (ty == MessageType.EXECVE && (A ++ [10]).head? == some 97 &&
      !(bytes "argc").isPrefixOf (A ++ [10])) = true
  · exact hmain _ hb1 (by simp only [parse_kv_key]; rw [if_pos hc])
      (by simp only [parse_kv_key]; rw [if_pos (hcond ▸ hc)])
  · by_cases hsc : (ty == MessageType.SYSCALL) = true
    · exact hmain _ hb2
        (by simp only [parse_kv_key]; rw [if_neg hc, if_pos hsc])
        (by simp only [parse_kv_key]; rw [if_neg (hcond ▸ hc), if_pos hsc])
    · exact hmain _ hb3
        (by simp only [parse_kv_key]; rw [if_neg hc, if_neg hsc])
        (by simp only [parse_kv_key]; rw [if_neg (hcond ▸ hc), if_neg hsc])

theorem tr_parse_kv_val (s : List Nat) (p : Parser) (ty : MessageType) (key : Key) :
    TrP s (parse_kv_val p ty key) := by
  unfold parse_kv_val
  by_cases h1 : (ty == MessageType.SYSCALL) = true
  · rw [if_pos h1]
    cases key with
    | arg x o =>
      cases o with
      | none => exact tr_parse_arg_hex s
      | some y => exact tr_parse_encoded s
    | common c => exact tr_parse_common s p ty c
    | name n => exact tr_parse_named s ty n
    | nameUID n => exact tr_palt s _ _ (tr_parse_dec s) (tr_parse_unspec_value s ty n)
    | nameGID n => exact tr_palt s _ _ (tr_parse_dec s) (tr_parse_unspec_value s ty n)
    | nameTranslated n => exact tr_parse_encoded s
    | argLen n => exact tr_parse_encoded s
    | literal n => exact tr_parse_encoded s
  · rw [if_neg h1]
    by_cases h2 : (ty == MessageType.EXECVE) = true
    · rw [if_pos h2]
      cases key with
      | arg x o => exact tr_parse_encoded s
      | argLen n => exact tr_parse_dec s
      | name n => exact tr_parse_named s ty n
      | common c => exact tr_parse_common s p ty c
      | nameUID n => exact tr_palt s _ _ (tr_parse_dec s) (tr_parse_unspec_value s ty n)
      | nameGID n => exact tr_palt s _ _ (tr_parse_dec s) (tr_parse_unspec_value s ty n)
      | nameTranslated n => exact tr_parse_encoded s
      | literal n => exact tr_parse_encoded s
    · rw [if_neg h2]
      cases key with
      | name n => exact tr_parse_named s ty n
      | common c => exact tr_parse_common s p ty c
      | nameUID n => exact tr_palt s _ _ (tr_parse_dec s) (tr_parse_unspec_value s ty n)
      | nameGID n => exact tr_palt s _ _ (tr_parse_dec s) (tr_parse_unspec_value s ty n)
      | nameTranslated n => exact tr_parse_encoded s
      | arg x o => exact tr_parse_encoded s
      | argLen n => exact tr_parse_encoded s
      | literal n => exact tr_parse_encoded s

theorem tr_parse_kv (s : List Nat) (p : Parser) (ty : MessageType) :
    TrP s (parse_kv p ty) := by
  intro A hA
  have hk := tr_parse_kv_key s ty
  constructor
  · intro h
    simp only [parse_kv] at h ⊢
    cases h1 : parse_kv_key ty (A ++ [10]) with
    | none => simp only [(hk A hA).1 h1]
    | some x =>
      obtain ⟨i2, key⟩ := x
      simp only [h1] at h
      obtain ⟨B, C, hAC, hi2, h2⟩ := (hk A hA).2 i2 key h1
      have hB : NoQ B := noQ_append_right (hAC ▸ hA)
      simp only [h2]
      have hv := tr_parse_kv_val s p ty key
      cases h3 : parse_kv_val p ty key i2 with
      | none =>
        rw [hi2] at h3
        simp only [(hv B hB).1 h3]
      | some y =>
        obtain ⟨r2, v2⟩ := y
        simp only [h3] at h
        exact absurd h (by simp)
  · intro r v h
    simp only [parse_kv] at h
    cases h1 : parse_kv_key ty (A ++ [10]) with
    | none =>
      simp only [h1] at h
      exact absurd h (by simp)
    | some x =>
      obtain ⟨i2, key⟩ := x
      simp only [h1] at h
      obtain ⟨B, C, hAC, hi2, h2⟩ := (hk A hA).2 i2 key h1
      have hB : NoQ B := noQ_append_right (hAC ▸ hA)
      have hkv := tr_parse_kv_val s p ty key
      cases h3 : parse_kv_val p ty key i2 with
      | none =>
        simp only [h3] at h
        exact absurd h (by simp)
      | some y =>
        obtain ⟨r2, v2⟩ := y
        simp only [h3] at h
        simp only [Option.some.injEq, Prod.mk.injEq] at h
        obtain ⟨hr2, hv2⟩ := h
        rw [hi2] at h3
        obtain ⟨B2, C2, hBC, hr2e, h4⟩ := (hkv B hB).2 r2 v2 h3
        refine ⟨B2, C ++ C2, by rw [hAC, hBC, List.append_assoc],
          by rw [← hr2, hr2e], ?_⟩
        simp only [parse_kv, h2, h4, ← hv2]

theorem noQ_dropWhile {f : Nat → Bool} {A : List Nat} (h : NoQ A) :
    NoQ (A.dropWhile f) :=
  fun c hc => h c (List.Sublist.mem hc (List.dropWhile_sublist _))

theorem avc_open_fail (A : List Nat) (x : Nat) (X : List Nat)
    (hA : NoQ A) (hx : x = 10 ∨ x = 29) :
    pseq space0 (pseq (ptag [123]) space0) (A ++ x :: X) = none := by
  have hxs : is_space_chr x = false := by
    rcases hx with h | h <;> rw [h] <;> rfl
  have hk := takeWhile_append_keep is_space_chr A (x :: X)
    (by
      intro c h
      injection h with h1
      rw [← h1]
      exact hxs)
  have hsp : space0 (A ++ x :: X) =
      some (A.dropWhile is_space_chr ++ x :: X, A.takeWhile is_space_chr) := by
    simp only [space0, ptakeWhile, hk.1, hk.2]
  have htag : ptag [123] (A.dropWhile is_space_chr ++ x :: X) = none :=
    tag_quote_fail 123 [] _ x X (Or.inr (Or.inr rfl)) (noQ_dropWhile hA) hx
  exact pseq_none_right space0 _ hsp (pseq_none_left _ _ htag)

theorem tr_parse_body_special (s : List Nat) (ty : MessageType) :
    TrP s (parse_body_special ty) := by
  unfold parse_body_special
  by_cases h1 : (ty == MessageType.AVC) = true
  · rw [if_pos h1]
    refine tr_popt s _ (tr_pmap s _ _ (tr_pseq s _ _ ?_ ?_))
    · exact tr_pright s _ _
        (tr_pseq s _ _ (tr_ptag s (bytes "avc:") (by decide)) (tr_space0 s))
        (tr_palt s _ _ (tr_ptag s (bytes "granted") (by decide))
          (tr_ptag s (bytes "denied") (by decide)))
    · refine tr_fail_all s _ (fun A hA => ⟨?_, ?_⟩)
      · exact pdelim_left_none _ _ _ (avc_open_fail A 10 [] hA (Or.inl rfl))
      · exact pdelim_left_none _ _ _ (avc_open_fail A 29 (s ++ [10]) hA (Or.inr rfl))
  · rw [if_neg h1]
    by_cases h2 : (ty == MessageType.TTY) = true
    · rw [if_pos h2]
      exact tr_pmap s _ _ (tr_popt s _ (tr_ptag s (bytes "tty ") (by decide)))
    · rw [if_neg h2]
      by_cases h3 : (ty == MessageType.MAC_POLICY_LOAD) = true
      · rw [if_pos h3]
        exact tr_pmap s _ _
          (tr_popt s _ (tr_ptag s (bytes "policy loaded ") (by decide)))
      · rw [if_neg h3]
        exact tr_popt s _ (tr_pmap s _ _ (tr_pleft s _ _
          (tr_ptag s (bytes "netlabel") (by decide))
          (tr_pseq s _ _ (tr_ptag s [58] (by decide)) (tr_space0 s))))


theorem pright_decomp {α β : Type} (p1 : P α) (p2 : P β) {i r : List Nat} {b : β}
    (h : pright p1 p2 i = some (r, b)) :
    ∃ mid a, p1 i = some (mid, a) ∧ p2 mid = some (r, b) := by
  simp only [pright, pmap, pseq] at h
  cases h1 : p1 i with
  | none =>
    simp only [h1] at h
    exact absurd h (by simp)
  | some x =>
    obtain ⟨mid, a1⟩ := x
    simp only [h1] at h
    cases h2 : p2 mid with
    | none =>
      simp only [h2] at h
      exact absurd h (by simp)
    | some y =>
      obtain ⟨r2, b2⟩ := y
      simp only [h2, Option.map_some', Option.some.injEq, Prod.mk.injEq] at h
      obtain ⟨hr, hb⟩ := h
      rw [hr] at h2
      rw [hb] at h2
      exact ⟨mid, a1, rfl, h2⟩

theorem popt_ne_none {α : Type} (p : P α) (i : List Nat) : popt p i ≠ none := by
  cases h : p i with
  | none => rw [popt_none p h]; simp
  | some x =>
    obtain ⟨r, a⟩ := x
    rw [popt_some p h]
    simp

theorem parse_type_fail_node (X : List Nat) : parse_type (110 :: X) = none := by
  have htag : ptag (bytes "type=") (110 :: X) = none := by
    rw [show bytes "type=" = 116 :: [121, 112, 101, 61] from rfl]
    exact ptag_head_ne (by decide) _ _
  simp only [parse_type, pright, pmap, pseq, htag]
  rfl

theorem tr_parse_type_named (s : List Nat) : TrP s parse_type_named := by
  have hb : TrP s (precognize (pmany1Count (palt alphanumeric1 (ptag (bytes "_"))))) :=
    tr_precognize s _ (tr_pmany1Count s _ (tr_palt s _ _ (tr_alphanumeric1 s)
      (tr_ptag s (bytes "_") (by decide))))
  intro A hA
  constructor
  · intro h
    simp only [parse_type_named] at h ⊢
    cases h1 : precognize (pmany1Count (palt alphanumeric1 (ptag (bytes "_"))))
        (A ++ [10]) with
    | none => simp only [(hb A hA).1 h1]
    | some x =>
      obtain ⟨r1, nm⟩ := x
      simp only [h1] at h
      obtain ⟨B, C, hAC, hr1, h2⟩ := (hb A hA).2 r1 nm h1
      simp only [h2]
      cases hg : eventIdsGet EVENT_TABLE nm with
      | none => simp only [hg]
      | some n =>
        simp only [hg] at h
        exact absurd h (by simp)
  · intro r v h
    simp only [parse_type_named] at h
    cases h1 : precognize (pmany1Count (palt alphanumeric1 (ptag (bytes "_"))))
        (A ++ [10]) with
    | none =>
      simp only [h1] at h
      exact absurd h (by simp)
    | some x =>
      obtain ⟨r1, nm⟩ := x
      simp only [h1] at h
      obtain ⟨B, C, hAC, hr1, h2⟩ := (hb A hA).2 r1 nm h1
      cases hg : eventIdsGet EVENT_TABLE nm with
      | none =>
        simp only [hg] at h
        exact absurd h (by simp)
      | some n =>
        simp only [hg] at h
        simp only [Option.some.injEq, Prod.mk.injEq] at h
        obtain ⟨hr, hv⟩ := h
        refine ⟨B, C, hAC, by rw [← hr, hr1], ?_⟩
        simp only [parse_type_named, h2, hg, ← hv]

theorem tr_pisA_sp (s : List Nat) : TrP s (pisA (bytes " ")) :=
  tr_ptakeWhile1 s (fun c => (bytes " ").contains c) (by decide) (by decide)

theorem tr_parse_type (s : List Nat) : TrP s parse_type :=
  tr_pright s _ _ (tr_ptag s (bytes "type=") (by decide))
    (tr_palt s _ _ (tr_parse_type_named s)
      (tr_pdelim s _ _ _ (tr_ptag s (bytes "UNKNOWN[") (by decide))
        (tr_pdecU s (2 ^ 32)) (tr_ptag s (bytes "]") (by decide))))

theorem tr_parse_msgid (s : List Nat) : TrP s parse_msgid :=
  tr_pmap s _ _ (tr_pseq s _ _
    (tr_pseq s _ _
      (tr_pright s _ _ (tr_ptag s (bytes "msg=audit(") (by decide))
        (tr_pdecU s (2 ^ 64)))
      (tr_pdelim s _ _ _ (tr_ptag s (bytes ".") (by decide))
        (tr_pdecU s (2 ^ 64)) (tr_ptag s (bytes ":") (by decide))))
    (tr_pleft s _ _ (tr_pdecU s (2 ^ 32))
      (tr_pseq s _ _ (tr_ptag s (bytes "):") (by decide)) (tr_space0 s))))


/-- Success of `parse_header` transfers from the bare-newline tail to
the enrichment tail.  The node scanner is the one parser that could run
past the end of the line, but in a successful header the node value is
followed by a space inside the line, so its scan stops before the
tail; when the node branch fails the line must start with `type=`, on
which the failure transfers. -/
theorem header_tr (s : List Nat) (A : List Nat) (hA : NoQ A) (rest : List Nat)
    (hdr : Option (List Nat) × Nat × EventID)
    (h : parse_header (A ++ [10]) = some (rest, hdr)) :
    ∃ B C, A = C ++ B ∧ rest = B ++ [10] ∧
      parse_header (A ++ 29 :: (s ++ [10])) =
        some (B ++ 29 :: (s ++ [10]), hdr) := by
  have hP2 : TrP s (pseq (pleft parse_type (pisA (bytes " "))) parse_msgid) :=
    tr_pseq s _ _ (tr_pleft s _ _ (tr_parse_type s) (tr_pisA_sp s))
      (tr_parse_msgid s)
  cases h1 : popt (pleft parse_node (pisA (bytes " "))) (A ++ [10]) with
  | none => exact absurd h1 (popt_ne_none _ _)
  | some x =>
    obtain ⟨r1, o⟩ := x
    cases h2 : pseq (pleft parse_type (pisA (bytes " "))) parse_msgid r1 with
    | none =>
      rw [show parse_header (A ++ [10]) = none from
        pseq_none_right _ _ h1 h2] at h
      exact absurd h (by simp)
    | some y =>
      obtain ⟨r2, z⟩ := y
      rw [show parse_header (A ++ [10]) = some (r2, (o, z)) from
        pseq_eval _ _ h1 h2] at h
      simp only [Option.some.injEq, Prod.mk.injEq] at h
      obtain ⟨hr2, hpair⟩ := h
      cases hn : pleft parse_node (pisA (bytes " ")) (A ++ [10]) with
      | none =>
        rw [popt_none _ hn] at h1
        simp only [Option.some.injEq, Prod.mk.injEq] at h1
        obtain ⟨hr1, ho1⟩ := h1
        cases ht : tagAux (bytes "node=") (A ++ [10]) with
        | some rt =>
          obtain ⟨B1, hAB1, hrt, h2t⟩ :=
            (tagAux_tr s (bytes "node=") A (by decide) hA).2 rt ht
          have hAform : A ++ [10] = 110 :: (([111, 100, 101, 61] ++ B1) ++ [10]) := by
            rw [hAB1]
            rfl
          have hfail : parse_type (A ++ [10]) = none := by
            rw [hAform]
            exact parse_type_fail_node _
          have hQ2 : pseq (pleft parse_type (pisA (bytes " "))) parse_msgid r1 = none := by
            rw [← hr1]
            exact pseq_none_left _ _ (pmap_none _ _ (pseq_none_left _ _ hfail))
          rw [h2] at hQ2
          exact absurd hQ2 (by simp)
        | none =>
          have ht2 := (tagAux_tr s (bytes "node=") A (by decide) hA).1 ht
          have hn2 : pleft parse_node (pisA (bytes " "))
              (A ++ 29 :: (s ++ [10])) = none := by
            have htag2 : ptag (bytes "node=") (A ++ 29 :: (s ++ [10])) = none := by
              simp only [ptag, ht2]
              rfl
            have hnode2 : parse_node (A ++ 29 :: (s ++ [10])) = none :=
              pmap_none _ _ (pseq_none_left _ _ htag2)
            exact pmap_none _ _ (pseq_none_left _ _ hnode2)
          rw [← hr1] at h2
          obtain ⟨B, C, hAC, hr2e, h4⟩ := (hP2 A hA).2 r2 z h2
          refine ⟨B, C, hAC, by rw [← hr2, hr2e], ?_⟩
          have e2 : parse_header (A ++ 29 :: (s ++ [10])) =
              some (B ++ 29 :: (s ++ [10]), (none, z)) :=
            pseq_eval _ _ (popt_none _ hn2) h4
          rw [e2, ← hpair, ← ho1]
      | some y2 =>
        obtain ⟨mid, nv⟩ := y2
        rw [popt_some _ hn] at h1
        simp only [Option.some.injEq, Prod.mk.injEq] at h1
        obtain ⟨hr1, ho1⟩ := h1
        obtain ⟨m0, b0, hpn, hpa⟩ := pleft_decomp _ _ hn
        obtain ⟨m1, tg, htag, hisnot⟩ := pright_decomp _ _ hpn
        have htA : tagAux (bytes "node=") (A ++ [10]) = some m1 := by
          simp only [ptag] at htag
          cases hta : tagAux (bytes "node=") (A ++ [10]) with
          | none =>
            rw [hta] at htag
            exact absurd htag (by simp)
          | some mm =>
            rw [hta] at htag
            simp only [Option.map_some', Option.some.injEq, Prod.mk.injEq] at htag
            exact congrArg some htag.1
        obtain ⟨A2, hA2, hm1, htagT2⟩ :=
          (tagAux_tr s (bytes "node=") A (by decide) hA).2 m1 htA
        have hA2noq : NoQ A2 := noQ_append_right (hA2 ▸ hA)
        rw [hm1] at hisnot
        have hkeep := takeWhile_append_keep
          (fun c => !(bytes " \x09\x0d\x0a").contains c) A2 [10]
          (by
            intro c hc
            injection hc with h1
            rw [← h1]
            rfl)
        simp only [pisNot, ptakeWhile1, hkeep.1, hkeep.2] at hisnot
        by_cases hne : A2.takeWhile (fun c => !(bytes " \x09\x0d\x0a").contains c) = []
        · rw [if_pos hne] at hisnot
          exact absurd hisnot (by simp)
        · rw [if_neg hne] at hisnot
          simp only [Option.some.injEq, Prod.mk.injEq] at hisnot
          obtain ⟨hm0, hnv⟩ := hisnot
          cases hdw : A2.dropWhile (fun c => !(bytes " \x09\x0d\x0a").contains c) with
          | nil =>
            rw [hdw] at hm0
            rw [← hm0] at hpa
            simp only [List.nil_append] at hpa
            have : pisA (bytes " ") [10] = none := by
              rfl
            rw [this] at hpa
            exact absurd hpa (by simp)
          | cons d D =>
            rw [hdw] at hm0
            have hdD_noq : NoQ (d :: D) := by
              rw [← hdw]
              exact noQ_dropWhile hA2noq
            have hd_stop : (fun c => !(bytes " \x09\x0d\x0a").contains c) d = false := by
              have := head_dropWhile (fun c => !(bytes " \x09\x0d\x0a").contains c) A2 d
              rw [hdw] at this
              exact this rfl
            have hA2split : A2 =
                A2.takeWhile (fun c => !(bytes " \x09\x0d\x0a").contains c) ++ (d :: D) := by
              rw [← hdw, List.takeWhile_append_dropWhile]
            have hstop2 := takeWhile_append_stop
              (fun c => !(bytes " \x09\x0d\x0a").contains c)
              (A2.takeWhile (fun c => !(bytes " \x09\x0d\x0a").contains c))
              ((d :: D) ++ 29 :: (s ++ [10]))
              (all_takeWhile _ A2)
              (by
                intro c hc
                injection hc with h1
                rw [← h1]
                exact hd_stop)
            have hisnotT2 : pisNot (bytes " \x09\x0d\x0a") (A2 ++ 29 :: (s ++ [10])) =
                some ((d :: D) ++ 29 :: (s ++ [10]),
                  A2.takeWhile (fun c => !(bytes " \x09\x0d\x0a").contains c)) := by
              have hform : A2 ++ 29 :: (s ++ [10]) =
                  A2.takeWhile (fun c => !(bytes " \x09\x0d\x0a").contains c) ++
                    ((d :: D) ++ 29 :: (s ++ [10])) := by
                conv =>
                  lhs
                  rw [hA2split]
                rw [List.append_assoc]
              rw [hform]
              simp only [pisNot, ptakeWhile1, hstop2.1, hstop2.2]
              rw [if_neg hne]
            -- transfer the space check and the rest of the header
            rw [← hm0] at hpa
            have hdD_form : (d :: D) ++ [10] = d :: (D ++ [10]) := rfl
            obtain ⟨B2, C2, hdC2, hmid, hpaT2⟩ :=
              (tr_pisA_sp s (d :: D) hdD_noq).2 mid b0 hpa
            have hB2noq : NoQ B2 := noQ_append_right (hdC2 ▸ hdD_noq)
            rw [← hr1, hmid] at h2
            obtain ⟨B3, C3, hB3C, hr2e, h4⟩ := (hP2 B2 hB2noq).2 r2 z h2
            refine ⟨B3, bytes "node=" ++
              (A2.takeWhile (fun c => !(bytes " \x09\x0d\x0a").contains c) ++ (C2 ++ C3)),
              ?_, by rw [← hr2, hr2e], ?_⟩
            · rw [hA2]
              conv_lhs => rw [hA2split, hdC2, hB3C]
              simp only [List.append_assoc]
            · have hnodeT2 : parse_node (A ++ 29 :: (s ++ [10])) =
                  some ((d :: D) ++ 29 :: (s ++ [10]), nv) := by
                have htg2 : ptag (bytes "node=") (A ++ 29 :: (s ++ [10])) =
                    some (A2 ++ 29 :: (s ++ [10]), bytes "node=") := by
                  simp only [ptag, htagT2]
                  rfl
                have := pright_eval (ptag (bytes "node="))
                  (pisNot (bytes " \x09\x0d\x0a")) htg2 hisnotT2
                rw [show parse_node = pright (ptag (bytes "node="))
                  (pisNot (bytes " \x09\x0d\x0a")) from rfl]
                rw [this, hnv]
              have hpleftT2 : pleft parse_node (pisA (bytes " "))
                  (A ++ 29 :: (s ++ [10])) =
                  some (B2 ++ 29 :: (s ++ [10]), nv) := by
                have hpa2 : pisA (bytes " ") ((d :: D) ++ 29 :: (s ++ [10])) =
                    some (B2 ++ 29 :: (s ++ [10]), b0) := hpaT2
                exact pleft_eval _ _ hnodeT2 hpa2
              have e2 : parse_header (A ++ 29 :: (s ++ [10])) =
                  some (B3 ++ 29 :: (s ++ [10]), (some nv, z)) :=
                pseq_eval _ _ (popt_some _ hpleftT2) h4
              rw [e2, ← hpair, ← ho1]


theorem term_plain_cons_fail (b : Nat) (X : List Nat)
    (hb29 : b ≠ 29) (hb10 : b ≠ 10) : term_plain (b :: X) = none := by
  have h1 : ptag [29] (b :: X) = none := ptag_head_ne (fun h => hb29 h.symm) [] X
  have h2 : ptag [10] (b :: X) = none := ptag_head_ne (fun h => hb10 h.symm) [] X
  have h3 : peofB (b :: X) = none := by
    simp [peofB]
  simp [term_plain, palt, pvalue, pmap, pseq, h1, h2, h3]

theorem term_plain_enrich (s : List Nat) (hs_ne : s ≠ [])
    (hs10 : ∀ c ∈ s, c ≠ 10) : term_plain (29 :: (s ++ [10])) = some ([], ()) := by
  have hrun := takeWhile_append_stop (fun c => !([10] : List Nat).contains c) s [10]
    (by
      intro c hc
      have := hs10 c hc
      simp [this])
    (by
      intro c hc
      injection hc with h1
      rw [← h1]
      rfl)
  have hisnot : pisNot [10] (s ++ [10]) = some ([10], s) := by
    simp only [pisNot, ptakeWhile1, hrun.1, hrun.2]
    rw [if_neg hs_ne]
  have halt : palt (ptag [10]) peofB [10] = some ([], [10]) := rfl
  have hch : pseq (ptag [29]) (pseq (pisNot [10]) (palt (ptag [10]) peofB))
      (29 :: (s ++ [10])) = some ([], ([29], (s, [10]))) :=
    pseq_eval _ _ (ptag_cons 29 _) (pseq_eval _ _ hisnot halt)
  simp only [term_plain, palt, pvalue, pmap, hch, Option.map_some']

/-- `parse_body` success with empty remainder transfers from the
bare-newline line to the line with an enrichment suffix, when
enrichment parsing is disabled. -/
theorem body_tr (s : List Nat) (sm : Bool) (ty : MessageType) (A : List Nat)
    (hA : NoQ A) (hs_ne : s ≠ []) (hs10 : ∀ c ∈ s, c ≠ 10)
    (kv : List (Key × Value))
    (h : parse_body ⟨false, sm⟩ ty (A ++ [10]) = some ([], kv)) :
    parse_body ⟨false, sm⟩ ty (A ++ 29 :: (s ++ [10])) = some ([], kv) := by
  have hef : (Parser.mk false sm).enriched = false := rfl
  simp only [parse_body, hef, Bool.false_eq_true, if_false] at h ⊢
  cases hsp : parse_body_special ty (A ++ [10]) with
  | none =>
    simp only [hsp] at h
    exact absurd h (by simp)
  | some x =>
    obtain ⟨input1, special⟩ := x
    simp only [hsp] at h
    obtain ⟨B1, C1, hAC1, hi1, hsp2⟩ :=
      (tr_parse_body_special s ty A hA).2 input1 special hsp
    have hB1 : NoQ B1 := noQ_append_right (hAC1 ▸ hA)
    simp only [hsp2]
    rw [hi1] at h
    cases hp : pleft (psepList0 (ptag [32]) (parse_kv ⟨false, sm⟩ ty)) term_plain
        (B1 ++ [10]) with
    | none =>
      simp only [hp] at h
      exact absurd h (by simp)
    | some y =>
      obtain ⟨rest2, kv0⟩ := y
      simp only [hp, Option.some.injEq, Prod.mk.injEq] at h
      obtain ⟨hrest2, hkv⟩ := h
      obtain ⟨mid, u, hps, hterm⟩ := pleft_decomp _ _ hp
      obtain ⟨B2, C2, hBC2, hmid, hpsT2⟩ :=
        (tr_psepList0 s (ptag [32]) (parse_kv ⟨false, sm⟩ ty)
          (tr_ptag s [32] (by decide)) (tr_parse_kv s ⟨false, sm⟩ ty) B1 hB1).2
          mid kv0 hps
      have hB2 : NoQ B2 := noQ_append_right (hBC2 ▸ hB1)
      rw [hmid] at hterm
      have hB2nil : B2 = [] := by
        cases hB2e : B2 with
        | nil => rfl
        | cons b B2x =>
          have hb := hB2 b (by rw [hB2e]; simp)
          rw [hB2e, show (b :: B2x) ++ [10] = b :: (B2x ++ [10]) from rfl,
            term_plain_cons_fail b _ hb.2.2.2.2 hb.2.2.2.1] at hterm
          exact absurd hterm (by simp)
      subst hB2nil
      simp only [List.nil_append] at hpsT2
      have htermT2 : term_plain (29 :: (s ++ [10])) = some ([], ()) :=
        term_plain_enrich s hs_ne hs10
      have hpT2 : pleft (psepList0 (ptag [32]) (parse_kv ⟨false, sm⟩ ty)) term_plain
          (B1 ++ 29 :: (s ++ [10])) = some ([], kv0) := by
        simp only [pleft]
        rw [pmap_some _ _ (pseq_eval _ _ hpsT2 htermT2)]
      simp only [hpT2]
      rw [hkv]

/-- C3 counterexample: with `enriched = false`, an accepted line
followed by a bare `0x1D` and an immediate newline — the empty
enrichment suffix — is rejected with `MalformedBody`, because the
plain terminator requires at least one byte between GS and newline. -/
theorem enrich_discard_counterexample :
    Parser.parse ⟨false, true⟩ (bytes "type=EOE msg=audit(1.000:1): op=x" ++ [10]) =
      .ok ⟨⟨1000, 1⟩, Option.none, MessageType.EOE,
        [(Key.name (bytes "op"), .str (bytes "x") .none)]⟩ ∧
    Parser.parse ⟨false, true⟩
        (bytes "type=EOE msg=audit(1.000:1): op=x" ++ [29, 10]) =
      .error (.malformedBody (bytes "op=x" ++ [29, 10])) := by
  constructor <;> rfl

/-- C3 amended: with `enriched = false`, for every line whose text
before the GS byte is free of quotes, braces, GS and newline bytes, and
every NON-EMPTY newline-free enrichment suffix, parsing the line with
`0x1D suffix` inserted before the final newline returns exactly the
`Message` of the plain line: the enrichment suffix is discarded.  The
empty suffix is excluded — it makes the parse fail (see the
counterexample). -/
theorem enrich_discard_amended (s : List Nat) (sm : Bool) (pre : List Nat)
    (m : Message) (hpre : NoQB pre = true) (hs_ne : s ≠ [])
    (hs10 : s.all (fun c => c != 10) = true)
    (h : Parser.parse ⟨false, sm⟩ (pre ++ [10]) = .ok m) :
    Parser.parse ⟨false, sm⟩ (pre ++ 29 :: (s ++ [10])) = .ok m := by
  have hA := noQB_noQ hpre
  have hs10x : ∀ c ∈ s, c ≠ 10 := by
    intro c hc
    have := List.all_eq_true.mp hs10 c hc
    simpa using this
  simp only [Parser.parse] at h ⊢
  cases h1 : parse_header (pre ++ [10]) with
  | none =>
    simp only [h1] at h
    exact absurd h (by simp)
  | some x =>
    obtain ⟨rest1, hdr⟩ := x
    simp only [h1] at h
    obtain ⟨B1, C1, hAC1, hr1, h1T2⟩ := header_tr s pre hA rest1 hdr h1
    have hB1 : NoQ B1 := noQ_append_right (hAC1 ▸ hA)
    simp only [h1T2]
    obtain ⟨nodeo, ty, eid⟩ := hdr
    cases h2 : parse_body ⟨false, sm⟩ ty rest1 with
    | none =>
      simp only [h2] at h
      exact absurd h (by simp)
    | some y =>
      obtain ⟨rest2, kv⟩ := y
      simp only [h2] at h
      by_cases hr2 : rest2 = []
      · rw [if_pos hr2] at h
        subst hr2
        rw [hr1] at h2
        have hbT2 := body_tr s sm ty B1 hB1 hs_ne hs10x kv h2
        simp only [hbT2]
        rw [if_pos trivial]
        exact h
      · rw [if_neg hr2] at h
        exact absurd h (by simp)

theorem enrich_discard_amended_witness :
    NoQB (bytes "type=EOE msg=audit(1.000:1): op=x") = true ∧
    (bytes "host=a b") ≠ [] ∧
    (bytes "host=a b").all (fun c => c != 10) = true ∧
    Parser.parse ⟨false, true⟩
        (bytes "type=EOE msg=audit(1.000:1): op=x" ++
          29 :: (bytes "host=a b" ++ [10])) =
      .ok ⟨⟨1000, 1⟩, Option.none, MessageType.EOE,
        [(Key.name (bytes "op"), .str (bytes "x") .none)]⟩ :=
  ⟨by decide, by decide, by decide,
   enrich_discard_amended (bytes "host=a b") true
     (bytes "type=EOE msg=audit(1.000:1): op=x")
     ⟨⟨1000, 1⟩, Option.none, MessageType.EOE,
      [(Key.name (bytes "op"), .str (bytes "x") .none)]⟩
     (by decide) (by decide) (by decide) (by rfl)⟩


end Audit










